import Mathlib

/-!
# Continuation tasks on a simple thread pool

A shallow embedding of the sources `cancellation_source.cpp`, `cancellation_token.cpp`,
`mbind.h`, `IThreadPool.h`, `SimpleThreadPool.cpp` and `continuation_task.cpp`.

* Objects live in stores indexed by natural numbers: the atomic flags of the
  cancellation sources (`Flags`) and the shared task records (`Impl`).  A
  `std::shared_ptr<Impl>` is the index of the record, a `CancellationToken` is the
  address of the flag it refers to.
* Every thread of the program advances by atomic steps (`Action`, `step`); a run of the
  program is a list of actions (`exec`), which fixes one interleaving of the threads.
  A step is one critical section or one straight piece of code between two of them.
* `none` as the result of a step means that the step cannot be taken there: a thread that
  is blocked (mutex held, condition variable not signalled, join of a running thread), a
  handle that does not exist, or an engine failure (`std::future_error` of a promise that
  is set twice or of a `std::future` that was emptied, the failed `assert` of `fbind`).
  A call that ends with an exception before it has changed anything leaves the state as
  it was.
-/

namespace Continuation

/-! ## Values -/

/-- Exceptions that travel through `std::exception_ptr`. -/
inductive Exn where
  | CanceledException
  | bad_function_call
  | error (code : Nat)
  deriving DecidableEq, Repr

/-- The way an invocation of a work unit ends. -/
inductive Outcome where
  | returned
  | raised (e : Exn)
  deriving DecidableEq, Repr

/-- The shared state of a `std::promise<void>` and its `std::future<void>`. -/
inductive FutureState where
  | pending
  | value
  | exception (e : Exn)
  deriving DecidableEq, Repr

/-- The store of the `std::atomic_bool` flags, by address. -/
abbrev Flags := Nat → Bool

/-- Store update at one index. -/
def setAt {α : Type} (f : Nat → α) (i : Nat) (v : α) : Nat → α :=
  fun j => if j = i then v else f j

/-! ## Cancellation (`cancellation_source.cpp`, `cancellation_token.cpp`) -/

/-- `CancellationToken`: `const std::atomic_bool& _canceled`. -/
structure CancellationToken where
  _canceled : Nat
  deriving DecidableEq, Repr

/-- `CancellationSource`: owns `std::atomic_bool _canceled`, here its address. -/
structure CancellationSource where
  _canceled : Nat
  deriving DecidableEq, Repr

/-- `CancellationSource::CancellationSource()`: `_canceled{false}`, the flag placed at `addr`. -/
def CancellationSource.create (flags : Flags) (addr : Nat) : Flags × CancellationSource :=
  (setAt flags addr false, ⟨addr⟩)

/-- `CancellationSource::cancel()`: `_canceled = true`. -/
def CancellationSource.cancel (cs : CancellationSource) (flags : Flags) : Flags :=
  setAt flags cs._canceled true

/-- `CancellationSource::get_token()`: `CancellationToken(_canceled)`. -/
def CancellationSource.get_token (cs : CancellationSource) : CancellationToken :=
  ⟨cs._canceled⟩

/-- `CancellationToken::is_canceled()`: `return _canceled`. -/
def CancellationToken.is_canceled (tok : CancellationToken) (flags : Flags) : Bool :=
  flags tok._canceled

/-- A call made on a cancellation source. -/
inductive SourceCall where
  | cancel
  | get_token
  deriving DecidableEq, Repr

/-- Runs a sequence of calls on one source: the flags afterwards and the tokens handed out,
in the order of the `get_token` calls. -/
def CancellationSource.calls (cs : CancellationSource) :
    Flags → List SourceCall → Flags × List CancellationToken
  | flags, [] => (flags, [])
  | flags, SourceCall.cancel :: rest => CancellationSource.calls cs (cs.cancel flags) rest
  | flags, SourceCall.get_token :: rest =>
      ((CancellationSource.calls cs flags rest).1,
        cs.get_token :: (CancellationSource.calls cs flags rest).2)

/-! ## Work units and their packaging (`mbind.h`, `IThreadPool.h`) -/

/-- `ContinuationTask::TaskMethod`, a `std::function<void()>`: a work unit is the way its
invocation ends, which may depend on the flags it reads while it runs. -/
abbrev TaskMethod := Flags → Outcome

/-- `ContinuationTask::CancelableTaskMethod`: a work unit that is handed the token. -/
abbrev CancelableTaskMethod := CancellationToken → TaskMethod

/-- The function and arguments stored in an `fbind`: either a callable handed to
`IThreadPool::schedule` by a user (tagged with a label that identifies the work unit), or
`&ContinuationTask::Impl::threadMethod` bound to the `shared_ptr<Impl>` of a task. -/
inductive Callable where
  | function (label : Nat) (f : TaskMethod)
  | threadMethod (task : Nat)

/-- `fbind` of `mbind.h`: the `_executed` flag and the bound callable. -/
structure fbind where
  _executed : Bool
  _function : Callable

/-- `IThreadPool::MethodType`, a `std::unique_ptr<mbind>`. -/
abbrev MethodType := fbind

/-- `Bind::bind`: a new `fbind` with `_executed{false}`. -/
def Bind.bind (function : Callable) : MethodType :=
  ⟨false, function⟩

/-- Whether the callable is `threadMethod` bound to the task `task`. -/
def Callable.isThreadMethod (c : Callable) (task : Nat) : Bool :=
  match c with
  | Callable.threadMethod t => t == task
  | Callable.function _ _ => false

/-- Identity of a user work unit, for the log of invocations. -/
inductive WorkUnit where
  | pooled (label : Nat)
  | continuation (task : Nat)
  deriving DecidableEq, Repr

/-! ## The pool (`SimpleThreadPool.cpp`) -/

/-- Where a worker thread stands inside `threadPoolMethod`. -/
inductive ThreadState where
  /-- At `_threadWait.wait` (also: just spawned, or back at the top of the loop). -/
  | waiting
  /-- The front of the queue was moved into `task`, the mutex is released, `(*task)()` is next. -/
  | invoking (task : MethodType)
  /-- Inside `threadMethod`, inside `method()`: the user work unit of `task` is executing;
  `method` is the function moved out of the task. -/
  | running (task : Nat) (method : Option TaskMethod)
  /-- Inside `threadMethod`: the promise of `task` is set, `_scheduleLock` is not yet taken. -/
  | completed (task : Nat)
  /-- Inside `threadMethod`: holds `_scheduleLock` of `task`, in the `while` loop. -/
  | draining (task : Nat)
  /-- Left the loop of `threadPoolMethod` by `break`. -/
  | exited

/-- `SimpleThreadPool`: its data members (the mutexes and the condition variable are
represented by the atomicity of the steps). -/
structure SimpleThreadPool where
  _threads : List ThreadState
  _taskQueue : List MethodType
  _threadCount : Nat
  _run : Bool
  _exceptions : List Exn

/-- `SimpleThreadPool::SimpleThreadPool(threadCount)`. -/
def SimpleThreadPool.create (threadCount : Nat) : SimpleThreadPool :=
  { _threads := [], _taskQueue := [], _threadCount := threadCount, _run := false,
    _exceptions := [] }

/-- `SimpleThreadPool::start()`: returns at once when `_threads` is not empty, else sets
`_run` and spawns `_threadCount` threads. -/
def SimpleThreadPool.start (p : SimpleThreadPool) : SimpleThreadPool :=
  if p._threads.isEmpty then
    { p with _run := true, _threads := List.replicate p._threadCount ThreadState.waiting }
  else p

/-- First block of `SimpleThreadPool::stop()`: under the mutex, `_run = false` and
`notify_all`. -/
def SimpleThreadPool.stopSignal (p : SimpleThreadPool) : SimpleThreadPool :=
  { p with _run := false }

/-- Whether the thread has finished `threadPoolMethod`. -/
def ThreadState.isExited : ThreadState → Bool
  | ThreadState.exited => true
  | _ => false

/-- Rest of `SimpleThreadPool::stop()`: joins every thread, which returns only once each
has left its loop, then `_threads.clear()`. -/
def SimpleThreadPool.stopJoin (p : SimpleThreadPool) : Option SimpleThreadPool :=
  if p._threads.all ThreadState.isExited then some { p with _threads := [] } else none

/-- `SimpleThreadPool::popExceptions()`: the list it returns and the pool afterwards. -/
def SimpleThreadPool.popExceptions (p : SimpleThreadPool) : List Exn × SimpleThreadPool :=
  (p._exceptions, { p with _exceptions := [] })

/-- `SimpleThreadPool::scheduleInner`: `_taskQueue.push(std::move(method))`. -/
def SimpleThreadPool.scheduleInner (p : SimpleThreadPool) (method : MethodType) :
    SimpleThreadPool :=
  { p with _taskQueue := p._taskQueue ++ [method] }

/-- The critical section of `threadPoolMethod` for the thread `w`: wait until
`!_taskQueue.empty() || !_run`; `break` when `!_run`; else move the front of the queue
into `task` and pop it. -/
def SimpleThreadPool.threadPoolMethod_wait (p : SimpleThreadPool) (w : Nat) :
    Option SimpleThreadPool :=
  match p._threads[w]? with
  | some ThreadState.waiting =>
      if p._run = false then
        some { p with _threads := p._threads.set w ThreadState.exited }
      else
        match p._taskQueue with
        | [] => none
        | task :: rest =>
            some { p with _taskQueue := rest,
                          _threads := p._threads.set w (ThreadState.invoking task) }
  | _ => none

/-! ## Continuation tasks (`continuation_task.cpp`) -/

/-- `ContinuationTask::Impl`.  `_method` is the `std::function` of the `PromiseMethod`
(`none`: empty or moved from); the shared state of its promise is the one `_future` reads,
kept here in `_future`.  `_futureValid` is `_future.valid()`: `get_future()` hands the
member `_future` out by reference, and it refers to the shared state until a caller empties
it with `get()`.  `_scheduleLock` is `true` while the mutex is held.  `_thPool` is the one
pool of the system. -/
structure Impl where
  _parent : Option Nat
  _method : Option TaskMethod
  _childs : List Nat
  _scheduleLock : Bool
  _future : FutureState
  _cancellation : CancellationToken
  _futureValid : Bool

/-- `Impl(thPool, cancellation)`: `PromiseMethod()` sets the value of the promise. -/
def Impl.fulfilled (cancellation : CancellationToken) : Impl :=
  { _parent := none, _method := none, _childs := [], _scheduleLock := false,
    _future := FutureState.value, _cancellation := cancellation, _futureValid := true }

/-- `Impl(thPool, method, cancellation)`. -/
def Impl.withMethod (method : TaskMethod) (cancellation : CancellationToken) : Impl :=
  { _parent := none, _method := some method, _childs := [], _scheduleLock := false,
    _future := FutureState.pending, _cancellation := cancellation, _futureValid := true }

/-- `Impl(parent, method)`: `_cancellation(_parent->_cancellation)`. -/
def Impl.child (parent : Nat) (parentImpl : Impl) (method : TaskMethod) : Impl :=
  { _parent := some parent, _method := some method, _childs := [], _scheduleLock := false,
    _future := FutureState.pending, _cancellation := parentImpl._cancellation,
    _futureValid := true }

/-- The record found at an index that holds no task. -/
def Impl.unallocated : Impl :=
  { _parent := none, _method := none, _childs := [], _scheduleLock := false,
    _future := FutureState.pending, _cancellation := ⟨0⟩, _futureValid := true }

/-- The whole program state: the flags of the cancellation sources, the task records, the
pool, and `started`, the log of the user work units whose invocation has begun, in order
(an observation of the run, not a variable of the program). -/
structure System where
  flags : Flags
  nextFlag : Nat
  tasks : Nat → Impl
  nextTask : Nat
  pool : SimpleThreadPool
  started : List WorkUnit

/-- A pool of `threadCount` threads, no task, no user source.  The flag at address 0 is
the static source of `getDummyToken`. -/
def System.init (threadCount : Nat) : System :=
  { flags := fun _ => false, nextFlag := 1, tasks := fun _ => Impl.unallocated,
    nextTask := 0, pool := SimpleThreadPool.create threadCount, started := [] }

/-- `ContinuationTask::_dummyToken`. -/
def _dummyToken : CancellationToken :=
  ⟨0⟩

/-- Replaces the record of one task. -/
def System.setTask (st : System) (task : Nat) (impl : Impl) : System :=
  { st with tasks := setAt st.tasks task impl }

/-- Moves one worker thread to another place of `threadPoolMethod`. -/
def System.setThread (st : System) (w : Nat) (s : ThreadState) : System :=
  { st with pool := { st.pool with _threads := st.pool._threads.set w s } }

/-- `std::make_shared<Impl>(...)`: the new record and its index. -/
def System.alloc (st : System) (impl : Impl) : System × Nat :=
  ({ st with tasks := setAt st.tasks st.nextTask impl, nextTask := st.nextTask + 1 },
    st.nextTask)

/-- `CancellationSource cs;` in a caller. -/
def System.newSource (st : System) : System × CancellationSource :=
  ({ st with flags := (CancellationSource.create st.flags st.nextFlag).1,
             nextFlag := st.nextFlag + 1 },
    (CancellationSource.create st.flags st.nextFlag).2)

/-- `std::promise::set_value`: allowed once, else `std::future_error`. -/
def set_value (st : System) (task : Nat) : Option System :=
  if (st.tasks task)._future = FutureState.pending then
    some (st.setTask task { st.tasks task with _future := FutureState.value })
  else none

/-- `std::promise::set_exception`: allowed once, else `std::future_error`. -/
def set_exception (st : System) (task : Nat) (e : Exn) : Option System :=
  if (st.tasks task)._future = FutureState.pending then
    some (st.setTask task { st.tasks task with _future := FutureState.exception e })
  else none

/-- `PromiseMethod::cancel()`: throws `CanceledException` and stores it in the promise. -/
def PromiseMethod.cancel (st : System) (task : Nat) : Option System :=
  set_exception st task Exn.CanceledException

/-- The call `_method()` inside `PromiseMethod::operator()`: an empty `std::function`
throws `std::bad_function_call`. -/
def PromiseMethod.invoke (method : Option TaskMethod) (flags : Flags) : Outcome :=
  match method with
  | none => Outcome.raised Exn.bad_function_call
  | some f => f flags

/-- The end of `PromiseMethod::operator()`: `set_value()` when `_method()` returned,
`set_exception(std::current_exception())` in the `catch (...)` when it threw. -/
def PromiseMethod.complete (st : System) (task : Nat) (o : Outcome) : Option System :=
  match o with
  | Outcome.returned => set_value st task
  | Outcome.raised e => set_exception st task e

/-- `IThreadPool::schedule(f, args...)`: `scheduleInner(Bind::bind(f, args...))`. -/
def IThreadPool.schedule (st : System) (function : Callable) : System :=
  { st with pool := st.pool.scheduleInner (Bind.bind function) }

/-- `ContinuationTask::Impl::scheduleNow(task)`. -/
def scheduleNow (st : System) (task : Nat) : Option System :=
  if (st.tasks task)._cancellation.is_canceled st.flags then
    PromiseMethod.cancel st task
  else
    some (IThreadPool.schedule st (Callable.threadMethod task))

/-- The poll `get_future().wait_for(std::chrono::seconds(0)) == std::future_status::ready`
on the member `_future`: whether the shared state is ready, when `_future` refers to it;
on a `_future` that a caller has emptied `wait_for` throws `std::future_error` (`none`). -/
def Impl.wait_for_ready (impl : Impl) : Option Bool :=
  if impl._futureValid then some (decide (impl._future ≠ FutureState.pending)) else none

/-- `task.get_future().get()` in a caller: blocks while the shared state is not ready
(`none`), then takes the result and leaves `_future` of the task empty.  On an empty
`_future` it throws `std::future_error` (`none`). -/
def Future.get (st : System) (task : Nat) : Option System :=
  match (st.tasks task).wait_for_ready with
  | some true => some (st.setTask task { st.tasks task with _futureValid := false })
  | _ => none

/-- `ContinuationTask::Impl::schedule(task)` called on the record `self`.  When the poll
throws, the exception leaves `schedule` and `continue_with` (`none`): the child is neither
put into `_childs` nor handed to `scheduleNow`. -/
def schedule (st : System) (self : Nat) (task : Nat) : Option System :=
  match (st.tasks self).wait_for_ready with
  | none => none
  | some true => scheduleNow st task
  | some false =>
      some (st.setTask self
        { st.tasks self with _childs := (st.tasks self)._childs ++ [task] })

/-- `ContinuationTask::continue_with(method)`, that is `_pImpl->continue_with(_pImpl, method)`:
makes the child and, holding `_scheduleLock` of the parent, calls `schedule`.  Gives the
state afterwards and the child. -/
def continue_with (st : System) (parent : Nat) (method : TaskMethod) :
    Option (System × Nat) :=
  if (st.tasks parent)._scheduleLock then none
  else
    (schedule (st.alloc (Impl.child parent (st.tasks parent) method)).1 parent
      (st.alloc (Impl.child parent (st.tasks parent) method)).2).map
      (fun s => (s, (st.alloc (Impl.child parent (st.tasks parent) method)).2))

/-- `ContinuationTask(thPool, cancellation)`: the task with a fulfilled future. -/
def ContinuationTask.fulfilled (st : System) (cancellation : CancellationToken) :
    System × Nat :=
  st.alloc (Impl.fulfilled cancellation)

/-- `ContinuationTask(thPool, TaskMethod&& method, cancellation)`: makes the record and
calls `Impl::scheduleNow(_pImpl)`. -/
def ContinuationTask.withMethod (st : System) (method : TaskMethod)
    (cancellation : CancellationToken) : Option (System × Nat) :=
  (scheduleNow (st.alloc (Impl.withMethod method cancellation)).1
    (st.alloc (Impl.withMethod method cancellation)).2).map
    (fun s => (s, (st.alloc (Impl.withMethod method cancellation)).2))

/-- `ContinuationTask(thPool, CancelableTaskMethod&& method, cancellation)`: the work unit
is `std::bind(method, cancellation)`. -/
def ContinuationTask.withCancelableMethod (st : System) (method : CancelableTaskMethod)
    (cancellation : CancellationToken) : Option (System × Nat) :=
  ContinuationTask.withMethod st (method cancellation) cancellation

/-- `threadMethod(task)` on the thread `w`, from its entry to the call of the user work
unit: moves `_method` out of the task, resets `_parent`, and on a canceled token calls
`method.cancel()` instead of `method()`. -/
def threadMethod_begin (st : System) (w : Nat) (task : Nat) : Option System :=
  if (st.tasks task)._cancellation.is_canceled st.flags then
    (PromiseMethod.cancel
      (st.setTask task { st.tasks task with _method := none, _parent := none }) task).map
      (fun s => s.setThread w (ThreadState.completed task))
  else
    some ({ st.setTask task { st.tasks task with _method := none, _parent := none } with
            started := st.started ++ [WorkUnit.continuation task] }.setThread w
          (ThreadState.running task (st.tasks task)._method))

/-- `threadMethod(task)`: the user work unit comes back and `PromiseMethod::operator()`
sets the promise. -/
def threadMethod_finish (st : System) (w : Nat) (task : Nat) (method : Option TaskMethod) :
    Option System :=
  (PromiseMethod.complete st task (PromiseMethod.invoke method st.flags)).map
    (fun s => s.setThread w (ThreadState.completed task))

/-- `threadMethod(task)`: `std::lock_guard<std::mutex> lk(task->_scheduleLock)`. -/
def threadMethod_lock (st : System) (w : Nat) (task : Nat) : Option System :=
  if (st.tasks task)._scheduleLock then none
  else
    some ((st.setTask task { st.tasks task with _scheduleLock := true }).setThread w
      (ThreadState.draining task))

/-- `threadMethod(task)`: one test of `while (!task->_childs.empty())`; the body
`scheduleNow(std::move(_childs.front())); _childs.pop();`, or the end of the loop, where the
lock is released and the thread is back in the loop of `threadPoolMethod`. -/
def threadMethod_drain (st : System) (w : Nat) (task : Nat) : Option System :=
  match (st.tasks task)._childs with
  | [] =>
      some ((st.setTask task { st.tasks task with _scheduleLock := false }).setThread w
        ThreadState.waiting)
  | front :: _ =>
      (scheduleNow st front).map
        (fun s => s.setTask task { s.tasks task with _childs := (s.tasks task)._childs.tail })

/-- `(*task)()` in `threadPoolMethod`, that is `fbind::operator()`: `assert(!_executed)`,
then the bound callable.  A user callable runs to its end here; what it throws is pushed to
`_exceptions` by the `catch (...)` of `threadPoolMethod`.  `threadMethod` is entered. -/
def threadPoolMethod_invoke (st : System) (w : Nat) (task : MethodType) : Option System :=
  if task._executed then none
  else
    match task._function with
    | Callable.function label f =>
        match f st.flags with
        | Outcome.returned =>
            some ({ st with started := st.started ++ [WorkUnit.pooled label] }.setThread w
              ThreadState.waiting)
        | Outcome.raised e =>
            some ({ st with started := st.started ++ [WorkUnit.pooled label],
                            pool := { st.pool with _exceptions := st.pool._exceptions ++ [e] }
                  }.setThread w ThreadState.waiting)
    | Callable.threadMethod t => threadMethod_begin st w t

/-! ## Steps and runs -/

/-- The atomic steps of the threads of the program: calls made by the callers of the
library, and the pieces of `threadPoolMethod` run by the worker thread `w`. -/
inductive Action where
  | newSource
  | cancel (cs : CancellationSource)
  | newFulfilled (cancellation : CancellationToken)
  | newTask (method : TaskMethod) (cancellation : CancellationToken)
  | newCancelableTask (method : CancelableTaskMethod) (cancellation : CancellationToken)
  | continue_with (parent : Nat) (method : TaskMethod)
  | schedule (label : Nat) (f : TaskMethod)
  | get (task : Nat)
  | start
  | stopSignal
  | stopJoin
  | popExceptions
  | wake (w : Nat)
  | invoke (w : Nat)
  | finish (w : Nat)
  | lock (w : Nat)
  | drain (w : Nat)

/-- One step.  A caller can only use a source it has made (the static source at address 0
has no handle), a token of an existing source, and a task that exists. -/
def step (st : System) : Action → Option System
  | Action.newSource => some st.newSource.1
  | Action.cancel cs =>
      if 0 < cs._canceled ∧ cs._canceled < st.nextFlag then
        some { st with flags := cs.cancel st.flags }
      else none
  | Action.newFulfilled cancellation =>
      if cancellation._canceled < st.nextFlag then
        some (ContinuationTask.fulfilled st cancellation).1
      else none
  | Action.newTask method cancellation =>
      if cancellation._canceled < st.nextFlag then
        (ContinuationTask.withMethod st method cancellation).map Prod.fst
      else none
  | Action.newCancelableTask method cancellation =>
      if cancellation._canceled < st.nextFlag then
        (ContinuationTask.withCancelableMethod st method cancellation).map Prod.fst
      else none
  | Action.continue_with parent method =>
      if parent < st.nextTask then (continue_with st parent method).map Prod.fst else none
  | Action.schedule label f => some (IThreadPool.schedule st (Callable.function label f))
  | Action.get task => if task < st.nextTask then Future.get st task else none
  | Action.start => some { st with pool := st.pool.start }
  | Action.stopSignal => some { st with pool := st.pool.stopSignal }
  | Action.stopJoin => st.pool.stopJoin.map (fun p => { st with pool := p })
  | Action.popExceptions => some { st with pool := st.pool.popExceptions.2 }
  | Action.wake w => (st.pool.threadPoolMethod_wait w).map (fun p => { st with pool := p })
  | Action.invoke w =>
      match st.pool._threads[w]? with
      | some (ThreadState.invoking task) => threadPoolMethod_invoke st w task
      | _ => none
  | Action.finish w =>
      match st.pool._threads[w]? with
      | some (ThreadState.running task method) => threadMethod_finish st w task method
      | _ => none
  | Action.lock w =>
      match st.pool._threads[w]? with
      | some (ThreadState.completed task) => threadMethod_lock st w task
      | _ => none
  | Action.drain w =>
      match st.pool._threads[w]? with
      | some (ThreadState.draining task) => threadMethod_drain st w task
      | _ => none

/-- A run: the steps of the list, one after the other. -/
def exec : System → List Action → Option System
  | st, [] => some st
  | st, a :: rest => (step st a).bind (fun s => exec s rest)

/-- Whether `threadMethod` bound to `task` waits in the queue of the pool or is in the
hands of a worker that has dequeued it and not yet called it. -/
def System.submitted (st : System) (task : Nat) : Bool :=
  st.pool._taskQueue.any (fun m => m._function.isThreadMethod task) ||
  st.pool._threads.any (fun s =>
    match s with
    | ThreadState.invoking m => m._function.isThreadMethod task
    | _ => false)

/-- The shared state of the promise of a task, which `get_future()` shows as long as
`_future` refers to it. -/
def System.future (st : System) (task : Nat) : FutureState :=
  (st.tasks task)._future

/-- The labels of the work units in the queue of the pool, front first. -/
def System.queued (st : System) : List WorkUnit :=
  st.pool._taskQueue.map (fun m =>
    match m._function with
    | Callable.function label _ => WorkUnit.pooled label
    | Callable.threadMethod t => WorkUnit.continuation t)

/-- The state a future takes when `PromiseMethod::operator()` ends with the outcome `o`. -/
def FutureState.ofOutcome (o : Outcome) : FutureState :=
  match o with
  | Outcome.returned => FutureState.value
  | Outcome.raised e => FutureState.exception e

/-- Whether the action is a call of `start()`. -/
def Action.isStart : Action → Bool
  | Action.start => true
  | _ => false

/-! ## The invariant of the reachable states -/

/-- The task a worker thread has in hand, if any. -/
def ThreadState.task? : ThreadState → Option Nat
  | ThreadState.invoking m =>
      match m._function with
      | Callable.threadMethod t => some t
      | Callable.function _ _ => none
  | ThreadState.running t _ => some t
  | ThreadState.completed t => some t
  | ThreadState.draining t => some t
  | ThreadState.waiting => none
  | ThreadState.exited => none

/-- `System.submitted` on the queue and the threads of a pool. -/
def submittedIn (q : List MethodType) (th : List ThreadState) (task : Nat) : Bool :=
  q.any (fun m => m._function.isThreadMethod task) ||
  th.any (fun s =>
    match s with
    | ThreadState.invoking m => m._function.isThreadMethod task
    | _ => false)

/-- What holds of the task records `tasks`, the next free index `n`, the queue `q` and the
threads `th` of the pool in every state the program can reach. -/
structure Inv (tasks : Nat → Impl) (n : Nat) (q : List MethodType)
    (th : List ThreadState) : Prop where
  /-- A child that is submitted, or whose promise is set, has a parent whose promise is set. -/
  parentDone : ∀ c p, (tasks c)._parent = some p →
    ((tasks c)._future ≠ FutureState.pending ∨ submittedIn q th c = true) →
    (tasks p)._future ≠ FutureState.pending
  /-- The tasks in `_childs` of a task have no other parent. -/
  childOf : ∀ t c, c ∈ (tasks t)._childs → ∀ p, (tasks c)._parent = some p → p = t
  /-- A worker is past the work unit of a task only when the promise is set. -/
  doneAfter : ∀ s ∈ th, ∀ t, (s = ThreadState.completed t ∨ s = ThreadState.draining t) →
    (tasks t)._future ≠ FutureState.pending
  /-- The task whose work unit a worker executes has released its parent. -/
  noParent : ∀ s ∈ th, ∀ t m, s = ThreadState.running t m → (tasks t)._parent = none
  /-- Only existing tasks are referred to. -/
  childFresh : ∀ t c, c ∈ (tasks t)._childs → c < n
  parentFresh : ∀ c p, (tasks c)._parent = some p → p < n
  queueFresh : ∀ m ∈ q, ∀ c, m._function = Callable.threadMethod c → c < n
  threadFresh : ∀ s ∈ th, ∀ t, s.task? = some t → t < n

/-- The invariant, on a state. -/
def System.inv (st : System) : Prop :=
  Inv st.tasks st.nextTask st.pool._taskQueue st.pool._threads

/-- What a step leaves in place when it is not the entry of a worker into `threadMethod`:
no record disappears, the log of invocations is the same, and every existing task keeps
its parent link and, once its promise is set, a set promise. -/
def Frame (st s : System) : Prop :=
  st.nextTask ≤ s.nextTask ∧ s.started = st.started
    ∧ ∀ x, x < st.nextTask →
        (s.tasks x)._parent = (st.tasks x)._parent
        ∧ ((st.tasks x)._future ≠ FutureState.pending →
            (s.tasks x)._future ≠ FutureState.pending)

/-- What every step leaves in place: a parent link changes, and a task enters the log of
invocations, only for a task that was submitted; a promise that is set stays set. -/
def StepFrame (st s : System) : Prop :=
  st.nextTask ≤ s.nextTask
    ∧ (∀ x, x < st.nextTask →
        ((s.tasks x)._parent = (st.tasks x)._parent ∨ st.submitted x = true)
        ∧ ((st.tasks x)._future ≠ FutureState.pending →
            (s.tasks x)._future ≠ FutureState.pending))
    ∧ (∀ x, WorkUnit.continuation x ∈ s.started →
        WorkUnit.continuation x ∈ st.started ∨ st.submitted x = true)

/-- The link of a child to its parent, as long as it matters: either the child still
refers to the parent and its work unit has not been invoked, or the promise of the parent
is set. -/
def Link (child parent : Nat) (st : System) : Prop :=
  ((st.tasks child)._parent = some parent ∧ WorkUnit.continuation child ∉ st.started)
    ∨ (st.tasks parent)._future ≠ FutureState.pending

/-! ## Scenarios -/

/-- A work unit that returns. -/
def noop : TaskMethod :=
  fun _ => Outcome.returned

/-- A work unit that throws the error with the given code. -/
def throwing (code : Nat) : TaskMethod :=
  fun _ => Outcome.raised (Exn.error code)

/-- A chain `t0 -> t1 -> t2` on a pool of one thread, built while `t0` is pending (the pool
is not yet started), all under the token of one source; the source is canceled, the pool
started, and the worker takes `t0` through the whole of `threadMethod`. -/
def canceledChain : List Action :=
  [Action.newSource, Action.newTask noop ⟨1⟩, Action.continue_with 0 noop,
    Action.continue_with 1 noop, Action.cancel ⟨1⟩, Action.start, Action.wake 0,
    Action.invoke 0, Action.lock 0, Action.drain 0, Action.drain 0]

/-- A task whose work unit throws error 5, executed by the worker of a started pool up to
the end of `threadMethod`. -/
def throwingTask : List Action :=
  [Action.start, Action.newTask (throwing 5) _dummyToken, Action.wake 0, Action.invoke 0,
    Action.finish 0, Action.lock 0, Action.drain 0]

/-- The scenario of the test `cancelableTaskNotScheduled` up to the calls of `start()` and
`stop()`: a task under the token of `cs`, then `cs.cancel()`. -/
def preDispatchCancel : List Action :=
  [Action.newSource, Action.newTask noop ⟨1⟩, Action.cancel ⟨1⟩]

/-- Schedule of `start(); stop()` in which `stop()` clears `_run` before the new worker
has reached its wait: the worker finds `_run == false` and leaves. -/
def stopFirst : List Action :=
  [Action.start, Action.stopSignal, Action.wake 0, Action.stopJoin]

/-- Schedule of `start(); stop()` in which the worker dequeues the task before `stop()`
clears `_run`. -/
def workerFirst : List Action :=
  [Action.start, Action.wake 0, Action.stopSignal, Action.invoke 0, Action.lock 0,
    Action.drain 0, Action.wake 0, Action.stopJoin]

/-- The state reached by a run from the start, the start itself when the run is stuck. -/
def stateAfter (threadCount : Nat) (acts : List Action) : System :=
  (exec (System.init threadCount) acts).getD (System.init threadCount)

/-- A source that has been canceled, on an idle pool. -/
def canceledSource : System :=
  stateAfter 1 [Action.newSource, Action.cancel ⟨1⟩]

/-- A started pool whose only queue entry is a task under the live token of a source. -/
def queuedTask : System :=
  stateAfter 1 [Action.newSource, Action.newTask noop ⟨1⟩, Action.start]

/-- The same, once the worker has dequeued the task. -/
def dequeuedTask : System :=
  stateAfter 1 [Action.newSource, Action.newTask noop ⟨1⟩, Action.start, Action.wake 0]

/-- A worker inside the work unit of a task that will throw error 5. -/
def runningThrowingTask : System :=
  stateAfter 1 [Action.start, Action.newTask (throwing 5) _dummyToken, Action.wake 0,
    Action.invoke 0]

/-- Whether the action is a call of `start()` or a part of `stop()`. -/
def Action.isLifecycle : Action → Bool
  | Action.start => true
  | Action.stopSignal => true
  | Action.stopJoin => true
  | _ => false

/-- Whether the action is a step of a worker thread. -/
def Action.isWorker : Action → Bool
  | Action.wake _ => true
  | Action.invoke _ => true
  | Action.finish _ => true
  | Action.lock _ => true
  | Action.drain _ => true
  | _ => false

/-- A worker of a started pool that has dequeued a work unit which throws error 5, with
one more work unit in the queue. -/
def workerHoldsThrowing : System :=
  stateAfter 1 [Action.start, Action.schedule 7 (throwing 5), Action.schedule 8 noop,
    Action.wake 0]

/-- The label of the work unit packed in a queue entry. -/
def labelOf (m : MethodType) : WorkUnit :=
  match m._function with
  | Callable.function label _ => WorkUnit.pooled label
  | Callable.threadMethod t => WorkUnit.continuation t

/-- The work unit a worker has dequeued and not yet called. -/
def ThreadState.holds : ThreadState → List WorkUnit
  | ThreadState.invoking m => [labelOf m]
  | _ => []

/-- The work units that the workers have dequeued and not yet called. -/
def held : List ThreadState → List WorkUnit
  | [] => []
  | s :: rest => s.holds ++ held rest

/-- The queue entry that the step `a`, taken in `st`, takes out of the queue: the front of
the queue, when `a` is the wake-up of a waiting worker of a running pool. -/
def dequeuedBy (st : System) : Action → List WorkUnit
  | Action.wake w =>
      match st.pool._threads[w]? with
      | some ThreadState.waiting =>
          if st.pool._run = false then []
          else
            match st.pool._taskQueue with
            | [] => []
            | m :: _ => [labelOf m]
      | _ => []
  | _ => []

/-- The queue entries taken out of the queue along a run, in the order of the dequeues. -/
def dequeuedAlong : System → List Action → List WorkUnit
  | _, [] => []
  | st, a :: rest =>
      match step st a with
      | none => []
      | some s => dequeuedBy st a ++ dequeuedAlong s rest

/-- The calls `schedule(f)` for a list of labelled work units, in order. -/
def scheduleAll (units : List (Nat × TaskMethod)) : List Action :=
  units.map (fun u => Action.schedule u.1 u.2)

/-- A running pool that has to do with directly scheduled work units only: every thread
waits or has such a work unit in hand, and the queue holds nothing else. -/
def DirectOnly (st : System) : Prop :=
  st.pool._run = true
    ∧ (∀ x ∈ st.pool._threads, x = ThreadState.waiting
        ∨ ∃ label f, x = ThreadState.invoking (Bind.bind (Callable.function label f)))
    ∧ (∀ m ∈ st.pool._taskQueue, ∃ label f, m = Bind.bind (Callable.function label f))

/-- How often the work unit `pooled label` occurs in the log of invocations, in the hands
of the workers and in the queue, together. -/
def pooledCount (st : System) (label : Nat) : Nat :=
  st.started.count (WorkUnit.pooled label) + (held st.pool._threads).count (WorkUnit.pooled label)
    + st.queued.count (WorkUnit.pooled label)

/-- Whether the action is a call `schedule(f)` of the work unit labelled `label`: 1 or 0. -/
def scheduledBy (label : Nat) : Action → Nat
  | Action.schedule l _ => if l = label then 1 else 0
  | _ => 0

/-- How often the work unit `x` occurs in the log of invocations `started`, in the hands
of the threads `th` and in the queue `q`, together. -/
def located (q : List MethodType) (th : List ThreadState) (started : List WorkUnit)
    (x : WorkUnit) : Nat :=
  started.count x + (held th).count x + (q.map labelOf).count x

/-- A task is at one place at most: in `_childs` of its parent, where it occurs once and is
nowhere else, or else at most once in the queue, in the hand of a worker or in the log of
invocations; and only existing tasks are at any place. -/
structure Once (tasks : Nat → Impl) (n : Nat) (q : List MethodType) (th : List ThreadState)
    (started : List WorkUnit) : Prop where
  once : ∀ c, located q th started (WorkUnit.continuation c) ≤ 1
  childWaits : ∀ t c, c ∈ (tasks t)._childs →
    located q th started (WorkUnit.continuation c) = 0 ∧ (tasks c)._parent = some t
  childsNodup : ∀ t, (tasks t)._childs.Nodup
  fresh : ∀ c, 0 < located q th started (WorkUnit.continuation c) → c < n
  childFresh : ∀ t c, c ∈ (tasks t)._childs → c < n

/-- `Once`, on a state. -/
def System.once (st : System) : Prop :=
  Once st.tasks st.nextTask st.pool._taskQueue st.pool._threads st.started

/-- The task inside whose `threadMethod` a worker stands past the dispatch check: in the
work unit, after the promise was set, or in the drain loop. -/
def ThreadState.inside : ThreadState → Option Nat
  | ThreadState.running t _ => some t
  | ThreadState.completed t => some t
  | ThreadState.draining t => some t
  | _ => none

/-- The task whose work unit a worker executes. -/
def ThreadState.runs : ThreadState → Option Nat
  | ThreadState.running t _ => some t
  | _ => none

/-- No task is lost: a dispatched task (its function is moved out) with a child in
`_childs`, or with a pending promise, has a worker inside its `threadMethod`, resp. inside
its work unit; a task not yet dispatched whose promise is pending is in `_childs` of a
task, in the queue or in the hand of a worker; a record that holds no task has no child. -/
structure Kept (tasks : Nat → Impl) (n : Nat) (q : List MethodType)
    (th : List ThreadState) : Prop where
  drained : ∀ t, t < n → (tasks t)._method = none → (tasks t)._childs ≠ [] →
    ∃ s ∈ th, s.inside = some t
  running : ∀ t, t < n → (tasks t)._method = none → (tasks t)._future = FutureState.pending →
    ∃ s ∈ th, s.runs = some t
  notLost : ∀ c, c < n → (tasks c)._method ≠ none → (tasks c)._future = FutureState.pending →
    (∃ t, c ∈ (tasks t)._childs) ∨ 0 < located q th [] (WorkUnit.continuation c)
  unborn : ∀ t, n ≤ t → (tasks t)._childs = []

/-- `Kept`, on a state. -/
def System.kept (st : System) : Prop :=
  Kept st.tasks st.nextTask st.pool._taskQueue st.pool._threads

/-- Six work units scheduled before `start()` on a pool of two threads, as in the test
`tasksAreScheduledWhenStarted`. -/
def sixUnits : List (Nat × TaskMethod) :=
  [(1, noop), (2, noop), (3, noop), (4, noop), (5, noop), (6, noop)]

/-- A schedule of two workers that executes the six work units. -/
def twoWorkers : List Action :=
  [Action.wake 0, Action.wake 1, Action.invoke 1, Action.wake 1, Action.invoke 0,
    Action.invoke 1, Action.wake 0, Action.wake 1, Action.invoke 0, Action.wake 0,
    Action.invoke 1, Action.invoke 0]

/-- A task `t0` with a child `t1` attached while `t0` is pending; the worker of a pool of
one thread runs the work unit of `t0` and sets its promise; a second child `t2` is attached
before the worker has taken `_scheduleLock`; the worker takes the lock. -/
def lateChildAttached : List Action :=
  [Action.newTask noop _dummyToken, Action.continue_with 0 noop, Action.start, Action.wake 0,
    Action.invoke 0, Action.finish 0, Action.continue_with 0 noop, Action.lock 0]

/-- The run `lateChildAttached`, followed by the drain loop of the worker to its end. -/
def lateChild : List Action :=
  lateChildAttached ++ [Action.drain 0, Action.drain 0]

@[simp] theorem setAt_same {α : Type} (f : Nat → α) (i : Nat) (v : α) :
    setAt f i v i = v := by
  simp [setAt]

theorem setAt_of_ne {α : Type} (f : Nat → α) {i j : Nat} (v : α) (h : j ≠ i) :
    setAt f i v j = f j := by
  simp [setAt, h]

theorem setAt_apply {α : Type} (f : Nat → α) (i j : Nat) (v : α) :
    setAt f i v j = if j = i then v else f j := rfl

/-! ## Cancellation -/

theorem calls_flag (cs : CancellationSource) (calls : List SourceCall) :
    ∀ flags : Flags, (cs.calls flags calls).1 cs._canceled
      = (flags cs._canceled || decide (SourceCall.cancel ∈ calls)) := by
  induction calls with
  | nil => intro flags; simp [CancellationSource.calls]
  | cons c rest ih =>
      intro flags
      cases c with
      | cancel => simp [CancellationSource.calls, ih, CancellationSource.cancel]
      | get_token => simp [CancellationSource.calls, ih]

theorem calls_tokens (cs : CancellationSource) (calls : List SourceCall) :
    ∀ flags : Flags, ∀ tok ∈ (cs.calls flags calls).2, tok = cs.get_token := by
  induction calls with
  | nil => intro flags tok h; simp [CancellationSource.calls] at h
  | cons c rest ih =>
      intro flags tok h
      cases c with
      | cancel => exact ih _ tok (by simpa [CancellationSource.calls] using h)
      | get_token =>
          simp only [CancellationSource.calls, List.mem_cons] at h
          rcases h with h | h
          · exact h
          · exact ih _ tok h

/-- C10: on a source made by its constructor, after any sequence of `cancel()` and
`get_token()` calls every token handed out so far reads `is_canceled() = true` exactly when
`cancel()` occurs in the sequence; the reading stays `true` under any further calls, and a
second `cancel()` leaves the flags as the first one made them. -/
theorem cancellation_broadcast (flags : Flags) (addr : Nat) (calls : List SourceCall)
    (tok : CancellationToken)
    (h : tok ∈ ((CancellationSource.create flags addr).2.calls
          (CancellationSource.create flags addr).1 calls).2) :
    (tok.is_canceled ((CancellationSource.create flags addr).2.calls
        (CancellationSource.create flags addr).1 calls).1 = true
      ↔ SourceCall.cancel ∈ calls)
    ∧ (∀ more : List SourceCall,
        tok.is_canceled ((CancellationSource.create flags addr).2.calls
          (CancellationSource.create flags addr).1 calls).1 = true →
        tok.is_canceled ((CancellationSource.create flags addr).2.calls
          (CancellationSource.create flags addr).1 (calls ++ more)).1 = true)
    ∧ (∀ f : Flags, (CancellationSource.create flags addr).2.cancel
          ((CancellationSource.create flags addr).2.cancel f)
        = (CancellationSource.create flags addr).2.cancel f) := by
  have htok := calls_tokens _ _ _ tok h
  subst htok
  have key : ∀ cl : List SourceCall,
      ((⟨addr⟩ : CancellationSource).calls (setAt flags addr false) cl).1 addr
        = decide (SourceCall.cancel ∈ cl) := by
    intro cl
    have := calls_flag ⟨addr⟩ cl (setAt flags addr false)
    simpa using this
  refine ⟨?_, ?_, ?_⟩
  · simp [CancellationToken.is_canceled, CancellationSource.get_token, key,
      CancellationSource.create]
  · intro more
    simp only [CancellationToken.is_canceled, CancellationSource.get_token, key,
      CancellationSource.create, decide_eq_true_eq, List.mem_append]
    intro hc
    exact Or.inl hc
  · intro f
    funext j
    simp only [CancellationSource.cancel, setAt_apply]
    split <;> rfl

/-- C10 at work: two tokens, then `cancel()`, then a third token and a second `cancel()`. -/
theorem cancellation_broadcast_witness :
    ((⟨3⟩ : CancellationToken).is_canceled
        ((CancellationSource.create (fun _ => true) 3).2.calls
          (CancellationSource.create (fun _ => true) 3).1
          [SourceCall.get_token, SourceCall.get_token, SourceCall.cancel,
            SourceCall.get_token, SourceCall.cancel]).1 = true
      ↔ SourceCall.cancel ∈ [SourceCall.get_token, SourceCall.get_token, SourceCall.cancel,
            SourceCall.get_token, SourceCall.cancel])
    ∧ (⟨3⟩ : CancellationToken).is_canceled
        ((CancellationSource.create (fun _ => true) 3).2.calls
          (CancellationSource.create (fun _ => true) 3).1
          [SourceCall.get_token, SourceCall.get_token]).1 = false :=
  ⟨(cancellation_broadcast (fun _ => true) 3
      [SourceCall.get_token, SourceCall.get_token, SourceCall.cancel,
        SourceCall.get_token, SourceCall.cancel] ⟨3⟩ (by decide)).1,
    by decide⟩

/-! ## What the primitives return -/

theorem set_exception_eq_some {st s : System} {task : Nat} {e : Exn}
    (h : set_exception st task e = some s) :
    (st.tasks task)._future = FutureState.pending
      ∧ s = st.setTask task { st.tasks task with _future := FutureState.exception e } := by
  unfold set_exception at h
  split at h
  · rename_i hp
    exact ⟨hp, (Option.some.inj h).symm⟩
  · cases h

theorem set_value_eq_some {st s : System} {task : Nat}
    (h : set_value st task = some s) :
    (st.tasks task)._future = FutureState.pending
      ∧ s = st.setTask task { st.tasks task with _future := FutureState.value } := by
  unfold set_value at h
  split at h
  · rename_i hp
    exact ⟨hp, (Option.some.inj h).symm⟩
  · cases h

theorem complete_eq_some {st s : System} {task : Nat} {o : Outcome}
    (h : PromiseMethod.complete st task o = some s) :
    (st.tasks task)._future = FutureState.pending
      ∧ s = st.setTask task { st.tasks task with _future := FutureState.ofOutcome o } := by
  cases o with
  | returned => exact set_value_eq_some h
  | raised e => exact set_exception_eq_some h

theorem scheduleNow_eq_some {st s : System} {task : Nat}
    (h : scheduleNow st task = some s) :
    ((st.tasks task)._cancellation.is_canceled st.flags = true
        ∧ (st.tasks task)._future = FutureState.pending
        ∧ s = st.setTask task
            { st.tasks task with _future := FutureState.exception Exn.CanceledException })
    ∨ ((st.tasks task)._cancellation.is_canceled st.flags = false
        ∧ s = IThreadPool.schedule st (Callable.threadMethod task)) := by
  unfold scheduleNow at h
  split at h
  · rename_i hc
    obtain ⟨hp, hs⟩ := set_exception_eq_some h
    exact Or.inl ⟨hc, hp, hs⟩
  · rename_i hc
    exact Or.inr ⟨by simpa using hc, (Option.some.inj h).symm⟩

theorem schedule_eq_some {st s : System} {self task : Nat}
    (h : schedule st self task = some s) :
    ((st.tasks self)._future = FutureState.pending
        ∧ s = st.setTask self
            { st.tasks self with _childs := (st.tasks self)._childs ++ [task] })
    ∨ ((st.tasks self)._future ≠ FutureState.pending ∧ scheduleNow st task = some s) := by
  by_cases hv : (st.tasks self)._futureValid = true
  · by_cases hp : (st.tasks self)._future = FutureState.pending
    · have e : schedule st self task = some (st.setTask self
          { st.tasks self with _childs := (st.tasks self)._childs ++ [task] }) := by
        simp [schedule, Impl.wait_for_ready, hv, hp]
      rw [e] at h
      exact Or.inl ⟨hp, (Option.some.inj h).symm⟩
    · have e : schedule st self task = scheduleNow st task := by
        simp [schedule, Impl.wait_for_ready, hv, hp]
      rw [e] at h
      exact Or.inr ⟨hp, h⟩
  · have e : schedule st self task = none := by
      simp [schedule, Impl.wait_for_ready, hv]
    rw [e] at h
    cases h

/-- `get_future().get()` returns only on a `_future` that refers to a ready shared
state, and changes nothing but that `_future`, which it leaves empty. -/
theorem get_step_eq {st s : System} {task : Nat} (h : step st (Action.get task) = some s) :
    task < st.nextTask ∧ (st.tasks task)._futureValid = true
      ∧ (st.tasks task)._future ≠ FutureState.pending
      ∧ s = st.setTask task { st.tasks task with _futureValid := false } := by
  simp only [step] at h
  split at h
  · rename_i hlt
    unfold Future.get Impl.wait_for_ready at h
    by_cases hv : (st.tasks task)._futureValid = true
    · by_cases hp : (st.tasks task)._future = FutureState.pending
      · simp [hv, hp] at h
      · simp only [hv, hp, if_true, ne_eq, not_false_eq_true, decide_True] at h
        exact ⟨hlt, hv, hp, (Option.some.inj h).symm⟩
    · simp [hv] at h
  · cases h

/-! ## `scheduleNow`, `schedule`, `continue_with` and the constructors -/

theorem scheduleNow_canceled (st : System) (task : Nat)
    (hc : (st.tasks task)._cancellation.is_canceled st.flags = true)
    (hp : (st.tasks task)._future = FutureState.pending) :
    scheduleNow st task
      = some (st.setTask task
          { st.tasks task with _future := FutureState.exception Exn.CanceledException }) := by
  simp [scheduleNow, hc, PromiseMethod.cancel, set_exception, hp]

theorem scheduleNow_live (st : System) (task : Nat)
    (hc : (st.tasks task)._cancellation.is_canceled st.flags = false) :
    scheduleNow st task = some (IThreadPool.schedule st (Callable.threadMethod task)) := by
  simp [scheduleNow, hc]

theorem schedule_ready (st : System) (self task : Nat)
    (hv : (st.tasks self)._futureValid = true)
    (hp : (st.tasks self)._future ≠ FutureState.pending) :
    schedule st self task = scheduleNow st task := by
  simp [schedule, Impl.wait_for_ready, hv, hp]

theorem continue_with_eq (st : System) (parent : Nat) (method : TaskMethod)
    (hlock : (st.tasks parent)._scheduleLock = false) :
    continue_with st parent method
      = (schedule (st.alloc (Impl.child parent (st.tasks parent) method)).1 parent
          (st.alloc (Impl.child parent (st.tasks parent) method)).2).map
          (fun s => (s, (st.alloc (Impl.child parent (st.tasks parent) method)).2)) := by
  simp [continue_with, hlock]

/-- C8: a task built by the constructor with a plain or with a cancelable work unit under
a token that is already canceled is not handed to the pool, nothing is invoked, and its
future holds `CanceledException` when the constructor returns.  The same holds for the
child that `continue_with` schedules at once under a canceled token of the parent (the
poll of `_future` of the parent says ready), and for the child that the drain of its
parent hands to `scheduleNow` under a canceled token. -/
theorem canceled_at_construction (st : System) (method : TaskMethod)
    (cmethod : CancelableTaskMethod) (cancellation : CancellationToken)
    (hc : cancellation.is_canceled st.flags = true) :
    (∃ st1, ContinuationTask.withMethod st method cancellation = some (st1, st.nextTask)
        ∧ st1.pool._taskQueue = st.pool._taskQueue ∧ st1.started = st.started
        ∧ st1.future st.nextTask = FutureState.exception Exn.CanceledException)
    ∧ (∃ st1, ContinuationTask.withCancelableMethod st cmethod cancellation
          = some (st1, st.nextTask)
        ∧ st1.pool._taskQueue = st.pool._taskQueue ∧ st1.started = st.started
        ∧ st1.future st.nextTask = FutureState.exception Exn.CanceledException)
    ∧ (∀ parent : Nat, parent < st.nextTask → (st.tasks parent)._scheduleLock = false →
        (st.tasks parent)._futureValid = true →
        (st.tasks parent)._future ≠ FutureState.pending →
        (st.tasks parent)._cancellation = cancellation →
        ∃ st1, continue_with st parent method = some (st1, st.nextTask)
          ∧ st1.pool._taskQueue = st.pool._taskQueue ∧ st1.started = st.started
          ∧ st1.future st.nextTask = FutureState.exception Exn.CanceledException)
    ∧ (∀ (w parent child : Nat) (rest : List Nat),
        st.pool._threads[w]? = some (ThreadState.draining parent) →
        (st.tasks parent)._childs = child :: rest →
        (st.tasks child)._cancellation = cancellation →
        (st.tasks child)._future = FutureState.pending →
        ∃ st1, step st (Action.drain w) = some st1
          ∧ st1.pool._taskQueue = st.pool._taskQueue ∧ st1.started = st.started
          ∧ st1.future child = FutureState.exception Exn.CanceledException) := by
  have hnew : ∀ m : TaskMethod, ∃ st1,
      ContinuationTask.withMethod st m cancellation = some (st1, st.nextTask)
        ∧ st1.pool._taskQueue = st.pool._taskQueue ∧ st1.started = st.started
        ∧ st1.future st.nextTask = FutureState.exception Exn.CanceledException := by
    intro m
    have hrec : ((st.alloc (Impl.withMethod m cancellation)).1.tasks st.nextTask)
        = Impl.withMethod m cancellation := by
      simp [System.alloc]
    unfold ContinuationTask.withMethod
    rw [show (st.alloc (Impl.withMethod m cancellation)).2 = st.nextTask from rfl,
      scheduleNow_canceled _ _ (by rw [hrec]; exact hc) (by rw [hrec]; rfl)]
    refine ⟨_, rfl, ?_⟩
    simp [System.setTask, System.alloc, System.future]
  refine ⟨hnew method, hnew (cmethod cancellation), ?_, ?_⟩
  · intro parent hex hlock hv hp htok
    have hne : parent ≠ st.nextTask := Nat.ne_of_lt hex
    have hrec : ((st.alloc (Impl.child parent (st.tasks parent) method)).1.tasks st.nextTask)
        = Impl.child parent (st.tasks parent) method := by
      simp [System.alloc]
    have hpar : ((st.alloc (Impl.child parent (st.tasks parent) method)).1.tasks parent)
        = st.tasks parent := by
      simp [System.alloc, setAt_of_ne _ _ hne]
    rw [continue_with_eq st parent method hlock,
      schedule_ready _ _ _ (by rw [hpar]; exact hv) (by rw [hpar]; exact hp),
      show (st.alloc (Impl.child parent (st.tasks parent) method)).2 = st.nextTask from rfl,
      scheduleNow_canceled _ _ (by rw [hrec, Impl.child, htok]; exact hc)
        (by rw [hrec]; rfl)]
    refine ⟨_, rfl, rfl, rfl, ?_⟩
    simp [System.future, System.setTask]
  · intro w parent child rest hw hch htok hp
    simp only [step, hw, threadMethod_drain, hch]
    rw [scheduleNow_canceled _ _ (by rw [htok]; exact hc) hp]
    refine ⟨_, rfl, rfl, rfl, ?_⟩
    simp only [System.future, System.setTask, setAt_apply]
    by_cases hcp : child = parent
    · subst hcp
      simp
    · simp [hcp]

/-! ## Dispatch of a task by a worker -/

theorem lt_length_of_getElem? {α : Type} {l : List α} {i : Nat} {a : α}
    (h : l[i]? = some a) : i < l.length := by
  rcases List.getElem?_eq_some.1 h with ⟨hlt, _⟩
  exact hlt

theorem exec_append (acts more : List Action) :
    ∀ st : System, exec st (acts ++ more) = (exec st acts).bind (fun s => exec s more) := by
  induction acts with
  | nil => intro st; rfl
  | cons a rest ih =>
      intro st
      simp only [List.cons_append, exec]
      cases step st a with
      | none => rfl
      | some s => simpa using ih s

theorem exec_cancels (cancels : List CancellationSource) :
    ∀ st : System,
      (∀ cs ∈ cancels, 0 < cs._canceled ∧ cs._canceled < st.nextFlag) →
      ∃ flags : Flags, exec st (cancels.map Action.cancel) = some { st with flags := flags } := by
  induction cancels with
  | nil => intro st _; exact ⟨st.flags, rfl⟩
  | cons cs rest ih =>
      intro st h
      have hcs := h cs (List.mem_cons_self _ _)
      obtain ⟨flags, hf⟩ := ih { st with flags := cs.cancel st.flags }
        (fun c hc => h c (List.mem_cons_of_mem _ hc))
      refine ⟨flags, ?_⟩
      simp only [List.map_cons, exec, step, hcs, and_self, if_true, Option.some_bind]
      exact hf

theorem invoke_step_live (st : System) (w task : Nat)
    (hw : st.pool._threads[w]? = some (ThreadState.invoking
      (Bind.bind (Callable.threadMethod task))))
    (hlive : (st.tasks task)._cancellation.is_canceled st.flags = false) :
    ∃ st1, step st (Action.invoke w) = some st1
      ∧ st1.pool._threads[w]? = some (ThreadState.running task (st.tasks task)._method)
      ∧ st1.started = st.started ++ [WorkUnit.continuation task]
      ∧ st1.flags = st.flags
      ∧ st1.nextFlag = st.nextFlag
      ∧ st1.pool._exceptions = st.pool._exceptions
      ∧ (st1.tasks task)._future = (st.tasks task)._future := by
  have hlt : w < st.pool._threads.length := lt_length_of_getElem? hw
  refine ⟨({ st.setTask task { st.tasks task with _method := none, _parent := none } with
            started := st.started ++ [WorkUnit.continuation task] }.setThread w
          (ThreadState.running task (st.tasks task)._method)), ?_, ?_, rfl, rfl, rfl, rfl, ?_⟩
  · simp [step, hw, threadPoolMethod_invoke, Bind.bind, threadMethod_begin, hlive]
  · simp [System.setThread, System.setTask, hlt]
  · simp [System.setThread, System.setTask]

theorem finish_step (st : System) (w task : Nat) (method : Option TaskMethod)
    (hw : st.pool._threads[w]? = some (ThreadState.running task method))
    (hp : (st.tasks task)._future = FutureState.pending) :
    ∃ st1, step st (Action.finish w) = some st1
      ∧ st1.future task = FutureState.ofOutcome (PromiseMethod.invoke method st.flags)
      ∧ st1.flags = st.flags
      ∧ st1.started = st.started
      ∧ st1.pool._exceptions = st.pool._exceptions
      ∧ st1.pool._taskQueue = st.pool._taskQueue
      ∧ st1.pool._threads[w]? = some (ThreadState.completed task) := by
  have hlt : w < st.pool._threads.length := lt_length_of_getElem? hw
  have hfin : ∀ o : Outcome, PromiseMethod.complete st task o
      = some (st.setTask task { st.tasks task with _future := FutureState.ofOutcome o }) := by
    intro o
    cases o <;> simp [PromiseMethod.complete, set_value, set_exception, hp, FutureState.ofOutcome]
  refine ⟨(st.setTask task { st.tasks task with
      _future := FutureState.ofOutcome (PromiseMethod.invoke method st.flags) }).setThread w
      (ThreadState.completed task), ?_, ?_, rfl, rfl, rfl, rfl, ?_⟩
  · simp [step, hw, threadMethod_finish, hfin]
  · simp [System.future, System.setThread, System.setTask]
  · simp [System.setThread, System.setTask, hlt]

/-- C6: a task whose bound `threadMethod` is at the front of the queue of a running pool,
with its promise not yet set, and whose source is canceled before the waiting worker `w`
dequeues it: when the worker has dequeued and called it, the future of the task holds
`CanceledException`, no work unit has been invoked (the log is as before, the function was
moved out of the task and dropped), and the worker stands after the promise was set. -/
theorem canceled_before_dispatch (st : System) (w task : Nat) (rest : List MethodType)
    (hw : st.pool._threads[w]? = some ThreadState.waiting)
    (hrun : st.pool._run = true)
    (hq : st.pool._taskQueue = Bind.bind (Callable.threadMethod task) :: rest)
    (hp : (st.tasks task)._future = FutureState.pending)
    (hsrc : 0 < (st.tasks task)._cancellation._canceled
      ∧ (st.tasks task)._cancellation._canceled < st.nextFlag) :
    ∃ st1, exec st [Action.cancel ⟨(st.tasks task)._cancellation._canceled⟩, Action.wake w,
          Action.invoke w] = some st1
      ∧ st1.future task = FutureState.exception Exn.CanceledException
      ∧ st1.started = st.started
      ∧ (st1.tasks task)._method = none
      ∧ st1.pool._threads[w]? = some (ThreadState.completed task)
      ∧ st1.pool._taskQueue = rest
      ∧ st1.pool._exceptions = st.pool._exceptions := by
  have hlt : w < st.pool._threads.length := lt_length_of_getElem? hw
  simp only [exec, step, hsrc, and_self, if_true, Option.some_bind,
    SimpleThreadPool.threadPoolMethod_wait, hw, hrun, hq, Option.map_some',
    List.getElem?_set_self hlt, threadPoolMethod_invoke, Bind.bind, threadMethod_begin,
    CancellationToken.is_canceled, CancellationSource.cancel, setAt_same, System.setTask,
    PromiseMethod.cancel, set_exception, hp, Bool.false_eq_true, if_false, reduceCtorEq]
  refine ⟨_, rfl, ?_⟩
  simp [System.future, System.setThread, hlt]

/-- C9: a worker that calls `threadMethod` of a task whose token is live at the check, whose
promise is not yet set and whose work unit is `method`: the work unit is invoked (it is
added to the log), and whatever sources are canceled while it runs, when it comes back the
future of the task is set from its own outcome, read on the flags of that moment: the value
when it returns, the exception it raised when it raises. -/
theorem live_at_dispatch_runs_work_unit (st : System) (w task : Nat) (method : TaskMethod)
    (cancels : List CancellationSource)
    (hw : st.pool._threads[w]? = some (ThreadState.invoking
      (Bind.bind (Callable.threadMethod task))))
    (hlive : (st.tasks task)._cancellation.is_canceled st.flags = false)
    (hp : (st.tasks task)._future = FutureState.pending)
    (hm : (st.tasks task)._method = some method)
    (hsrc : ∀ cs ∈ cancels, 0 < cs._canceled ∧ cs._canceled < st.nextFlag) :
    ∃ st1 st2,
      step st (Action.invoke w) = some st1
      ∧ st1.pool._threads[w]? = some (ThreadState.running task (some method))
      ∧ st1.started = st.started ++ [WorkUnit.continuation task]
      ∧ st1.future task = FutureState.pending
      ∧ exec st1 (cancels.map Action.cancel ++ [Action.finish w]) = some st2
      ∧ st2.future task = FutureState.ofOutcome (method st2.flags)
      ∧ st2.started = st.started ++ [WorkUnit.continuation task]
      ∧ st2.pool._exceptions = st.pool._exceptions := by
  obtain ⟨st1, h1, ht1, hs1, hf1, hn1, he1, hp1⟩ :=
    invoke_step_live st w task hw hlive
  rw [hm] at ht1
  obtain ⟨flags, hf⟩ := exec_cancels cancels st1 (by rw [hn1]; exact hsrc)
  obtain ⟨st2, h2, hfut2, hfl2, hs2, he2, -, -⟩ :=
    finish_step { st1 with flags := flags } w task (some method) ht1 (by rw [← hp]; exact hp1)
  refine ⟨st1, st2, h1, ht1, hs1, by rw [← hp]; exact hp1, ?_, ?_, ?_, ?_⟩
  · rw [exec_append, hf]
    simp only [Option.some_bind, exec, h2]
  · rw [hfut2, hfl2]
    rfl
  · rw [hs2]
    exact hs1
  · rw [he2]
    exact he1

/-! ## The pool across `stop()` and the error list -/

theorem scheduleNow_pool {st s : System} {task : Nat} (h : scheduleNow st task = some s) :
    s.pool._run = st.pool._run ∧ s.pool._exceptions = st.pool._exceptions
      ∧ s.pool._threads = st.pool._threads
      ∧ ∃ added, s.pool._taskQueue = st.pool._taskQueue ++ added := by
  rcases scheduleNow_eq_some h with ⟨-, -, hs⟩ | ⟨-, hs⟩
  · subst hs
    exact ⟨rfl, rfl, rfl, [], by simp [System.setTask]⟩
  · subst hs
    exact ⟨rfl, rfl, rfl, [Bind.bind (Callable.threadMethod task)], rfl⟩

theorem withMethod_pool {st s : System} {method : TaskMethod} {tok : CancellationToken}
    (h : (ContinuationTask.withMethod st method tok).map Prod.fst = some s) :
    s.pool._run = st.pool._run ∧ s.pool._exceptions = st.pool._exceptions
      ∧ s.pool._threads = st.pool._threads
      ∧ ∃ added, s.pool._taskQueue = st.pool._taskQueue ++ added := by
  unfold ContinuationTask.withMethod at h
  simp only [Option.map_map, Option.map_eq_some', Function.comp_apply] at h
  obtain ⟨s1, h1, h2⟩ := h
  subst h2
  have hh := scheduleNow_pool h1
  exact hh

theorem continue_with_pool {st s : System} {parent : Nat} {method : TaskMethod}
    (h : (continue_with st parent method).map Prod.fst = some s) :
    s.pool._run = st.pool._run ∧ s.pool._exceptions = st.pool._exceptions
      ∧ s.pool._threads = st.pool._threads
      ∧ ∃ added, s.pool._taskQueue = st.pool._taskQueue ++ added := by
  unfold continue_with at h
  split at h
  · simp at h
  · simp only [Option.map_map, Option.map_eq_some', Function.comp_apply] at h
    obtain ⟨s1, h1, h2⟩ := h
    subst h2
    rcases schedule_eq_some h1 with ⟨-, hs⟩ | ⟨-, hs⟩
    · subst hs
      exact ⟨rfl, rfl, rfl, [], by simp [System.setTask, System.alloc]⟩
    · have hh := scheduleNow_pool hs
      exact hh

theorem drain_pool {st s : System} {w task : Nat} (h : threadMethod_drain st w task = some s) :
    s.pool._run = st.pool._run ∧ s.pool._exceptions = st.pool._exceptions
      ∧ ∃ added, s.pool._taskQueue = st.pool._taskQueue ++ added := by
  unfold threadMethod_drain at h
  split at h
  · cases h
    exact ⟨rfl, rfl, [], by simp [System.setTask, System.setThread]⟩
  · simp only [Option.map_eq_some'] at h
    obtain ⟨s1, h1, h2⟩ := h
    subst h2
    obtain ⟨hr, he, -, hq⟩ := scheduleNow_pool h1
    exact ⟨hr, he, hq⟩

theorem begin_pool {st s : System} {w task : Nat} (h : threadMethod_begin st w task = some s) :
    s.pool._run = st.pool._run ∧ s.pool._exceptions = st.pool._exceptions
      ∧ s.pool._taskQueue = st.pool._taskQueue := by
  unfold threadMethod_begin at h
  split at h
  · simp only [Option.map_eq_some'] at h
    obtain ⟨s1, h1, h2⟩ := h
    subst h2
    obtain ⟨-, hs⟩ := set_exception_eq_some h1
    subst hs
    exact ⟨rfl, rfl, rfl⟩
  · cases h
    exact ⟨rfl, rfl, rfl⟩

theorem finish_pool {st s : System} {w task : Nat} {method : Option TaskMethod}
    (h : threadMethod_finish st w task method = some s) :
    s.pool._run = st.pool._run ∧ s.pool._exceptions = st.pool._exceptions
      ∧ s.pool._taskQueue = st.pool._taskQueue := by
  unfold threadMethod_finish at h
  simp only [Option.map_eq_some'] at h
  obtain ⟨s1, h1, h2⟩ := h
  subst h2
  obtain ⟨-, hs⟩ := complete_eq_some h1
  subst hs
  exact ⟨rfl, rfl, rfl⟩

theorem lock_pool {st s : System} {w task : Nat} (h : threadMethod_lock st w task = some s) :
    s.pool._run = st.pool._run ∧ s.pool._exceptions = st.pool._exceptions
      ∧ s.pool._taskQueue = st.pool._taskQueue := by
  unfold threadMethod_lock at h
  split at h
  · cases h
  · cases h
    exact ⟨rfl, rfl, rfl⟩

/-- C2, amended: when the work unit of a task executed by a worker raises an error, the
error is stored in the future of that task and the error list of the pool is left as it
was, so `popExceptions()` returns what it would have returned before; and no step that a
worker takes inside `threadMethod` changes the error list of the pool. -/
theorem work_unit_error_goes_to_future (st : System) (w task : Nat)
    (method : Option TaskMethod) (e : Exn)
    (hw : st.pool._threads[w]? = some (ThreadState.running task method))
    (hp : (st.tasks task)._future = FutureState.pending)
    (he : PromiseMethod.invoke method st.flags = Outcome.raised e) :
    (∃ s, step st (Action.finish w) = some s
        ∧ s.future task = FutureState.exception e
        ∧ s.pool._exceptions = st.pool._exceptions
        ∧ s.pool.popExceptions.1 = st.pool.popExceptions.1)
    ∧ (∀ (s0 s1 : System) (v t : Nat) (ex : Bool),
        ((s0.pool._threads[v]? = some (ThreadState.invoking ⟨ex, Callable.threadMethod t⟩)
            ∧ step s0 (Action.invoke v) = some s1)
          ∨ step s0 (Action.finish v) = some s1
          ∨ step s0 (Action.lock v) = some s1
          ∨ step s0 (Action.drain v) = some s1) →
        s1.pool._exceptions = s0.pool._exceptions) := by
  constructor
  · obtain ⟨s, h1, h2, -, -, h3, -, -⟩ := finish_step st w task method hw hp
    refine ⟨s, h1, ?_, h3, ?_⟩
    · rw [h2, he]
      rfl
    · simp only [SimpleThreadPool.popExceptions]
      exact h3
  · intro s0 s1 v t ex h
    rcases h with ⟨hv, h⟩ | h | h | h
    · simp only [step, hv, threadPoolMethod_invoke] at h
      split at h
      · cases h
      · exact (begin_pool h).2.1
    · simp only [step] at h
      split at h
      · exact (finish_pool h).2.1
      · cases h
    · simp only [step] at h
      split at h
      · exact (lock_pool h).2.1
      · cases h
    · simp only [step] at h
      split at h
      · exact (drain_pool h).2.1
      · cases h

/-! ## The invariant is kept by every step -/

theorem isThreadMethod_iff (c : Callable) (t : Nat) :
    c.isThreadMethod t = true ↔ c = Callable.threadMethod t := by
  cases c with
  | function label f => simp [Callable.isThreadMethod]
  | threadMethod u => simp [Callable.isThreadMethod]

theorem submittedIn_iff (q : List MethodType) (th : List ThreadState) (c : Nat) :
    submittedIn q th c = true ↔
      (∃ m ∈ q, m._function = Callable.threadMethod c)
      ∨ (∃ m, ThreadState.invoking m ∈ th ∧ m._function = Callable.threadMethod c) := by
  simp only [submittedIn, Bool.or_eq_true, List.any_eq_true, isThreadMethod_iff]
  constructor
  · rintro (h | ⟨s, hs, h⟩)
    · exact Or.inl h
    · cases s with
      | invoking m => exact Or.inr ⟨m, hs, (isThreadMethod_iff _ _).1 h⟩
      | waiting => simp at h
      | running t m => simp at h
      | completed t => simp at h
      | draining t => simp at h
      | exited => simp at h
  · rintro (h | ⟨m, hm, h⟩)
    · exact Or.inl h
    · exact Or.inr ⟨ThreadState.invoking m, hm, (isThreadMethod_iff _ _).2 h⟩

theorem submittedIn_fresh {tasks : Nat → Impl} {n : Nat} {q : List MethodType}
    {th : List ThreadState} (h : Inv tasks n q th) {c : Nat}
    (hs : submittedIn q th c = true) : c < n := by
  rcases (submittedIn_iff q th c).1 hs with ⟨m, hm, hf⟩ | ⟨m, hm, hf⟩
  · exact h.queueFresh m hm c hf
  · exact h.threadFresh _ hm c (by simp [ThreadState.task?, hf])

/-- Change of the task records that keeps the invariant: a parent link may only be reset,
`_childs` may only lose entries or gain children of the task, a promise that is set stays
set, and a promise is newly set only for a task whose parent, if any, has its promise set. -/
theorem Inv.update_tasks {tasks tasks1 : Nat → Impl} {n : Nat} {q : List MethodType}
    {th : List ThreadState} (h : Inv tasks n q th)
    (hA : ∀ x, (tasks1 x)._parent = none ∨ (tasks1 x)._parent = (tasks x)._parent)
    (hB : ∀ x c, c ∈ (tasks1 x)._childs →
      c ∈ (tasks x)._childs ∨ (c < n ∧ ∀ p, (tasks c)._parent = some p → p = x))
    (hC : ∀ x, (tasks x)._future ≠ FutureState.pending →
      (tasks1 x)._future ≠ FutureState.pending)
    (hD : ∀ x, (tasks1 x)._future ≠ FutureState.pending →
      (tasks x)._future ≠ FutureState.pending
      ∨ ∀ p, (tasks x)._parent = some p → (tasks p)._future ≠ FutureState.pending) :
    Inv tasks1 n q th := by
  have hpar : ∀ x p, (tasks1 x)._parent = some p → (tasks x)._parent = some p := by
    intro x p hx
    rcases hA x with h0 | h0
    · rw [h0] at hx; cases hx
    · rw [← h0]; exact hx
  refine ⟨?_, ?_, ?_, ?_, ?_, ?_, h.queueFresh, h.threadFresh⟩
  · intro c p hcp hact
    have hcp0 := hpar c p hcp
    apply hC
    rcases hact with hact | hact
    · rcases hD c hact with h1 | h1
      · exact h.parentDone c p hcp0 (Or.inl h1)
      · exact h1 p hcp0
    · exact h.parentDone c p hcp0 (Or.inr hact)
  · intro t c hc p hcp
    have hcp0 := hpar c p hcp
    rcases hB t c hc with h1 | ⟨-, h1⟩
    · exact h.childOf t c h1 p hcp0
    · exact h1 p hcp0
  · intro s hs t hst
    exact hC t (h.doneAfter s hs t hst)
  · intro s hs t m hst
    rcases hA t with h0 | h0
    · exact h0
    · rw [h0]; exact h.noParent s hs t m hst
  · intro t c hc
    rcases hB t c hc with h1 | ⟨h1, -⟩
    · exact h.childFresh t c h1
    · exact h1
  · intro c p hcp
    exact h.parentFresh c p (hpar c p hcp)

/-- Change of the queue and of the threads that keeps the invariant: a task is newly
submitted only if it exists and its parent, if any, has its promise set; a thread is at a
new place only if the place is justified by the task records; a new queue entry refers to
an existing task. -/
theorem Inv.update_pool {tasks : Nat → Impl} {n : Nat} {q q1 : List MethodType}
    {th th1 : List ThreadState} (h : Inv tasks n q th)
    (hE : ∀ c, submittedIn q1 th1 c = true →
      submittedIn q th c = true
      ∨ ∀ p, (tasks c)._parent = some p → (tasks p)._future ≠ FutureState.pending)
    (hF : ∀ s ∈ th1, s ∈ th
      ∨ ((∀ t, (s = ThreadState.completed t ∨ s = ThreadState.draining t) →
            (tasks t)._future ≠ FutureState.pending)
          ∧ (∀ t m, s = ThreadState.running t m → (tasks t)._parent = none)
          ∧ (∀ t, s.task? = some t → t < n)))
    (hG : ∀ m ∈ q1, m ∈ q ∨ ∀ c, m._function = Callable.threadMethod c → c < n) :
    Inv tasks n q1 th1 := by
  refine ⟨?_, h.childOf, ?_, ?_, h.childFresh, h.parentFresh, ?_, ?_⟩
  · intro c p hcp hact
    rcases hact with hact | hact
    · exact h.parentDone c p hcp (Or.inl hact)
    · rcases hE c hact with h1 | h1
      · exact h.parentDone c p hcp (Or.inr h1)
      · exact h1 p hcp
  · intro s hs t hst
    rcases hF s hs with h1 | ⟨h1, -, -⟩
    · exact h.doneAfter s h1 t hst
    · exact h1 t hst
  · intro s hs t m hst
    rcases hF s hs with h1 | ⟨-, h1, -⟩
    · exact h.noParent s h1 t m hst
    · exact h1 t m hst
  · intro m hm c hc
    rcases hG m hm with h1 | h1
    · exact h.queueFresh m h1 c hc
    · exact h1 c hc
  · intro s hs t hst
    rcases hF s hs with h1 | ⟨-, -, h1⟩
    · exact h.threadFresh s h1 t hst
    · exact h1 t hst

/-- `std::make_shared<Impl>` keeps the invariant when the new record has no child, and its
parent, if any, exists and has its promise set in case the promise of the record is set. -/
theorem Inv.alloc {tasks : Nat → Impl} {n : Nat} {q : List MethodType}
    {th : List ThreadState} (h : Inv tasks n q th) (impl : Impl)
    (hch : impl._childs = [])
    (hpa : ∀ p, impl._parent = some p →
      p < n ∧ (impl._future ≠ FutureState.pending → (tasks p)._future ≠ FutureState.pending)) :
    Inv (setAt tasks n impl) (n + 1) q th := by
  have hold : ∀ x, x < n → setAt tasks n impl x = tasks x := by
    intro x hx
    exact setAt_of_ne _ _ (Nat.ne_of_lt hx)
  have hparent : ∀ c p, (setAt tasks n impl c)._parent = some p → p < n := by
    intro c p hcp
    by_cases hc : c = n
    · subst hc
      rw [setAt_same] at hcp
      exact (hpa p hcp).1
    · rw [setAt_of_ne _ _ hc] at hcp
      exact h.parentFresh c p hcp
  refine ⟨?_, ?_, ?_, ?_, ?_, ?_, ?_, ?_⟩
  · intro c p hcp hact
    have hp := hparent c p hcp
    rw [hold p hp]
    by_cases hc : c = n
    · subst hc
      rw [setAt_same] at hcp hact
      rcases hact with hact | hact
      · exact (hpa p hcp).2 hact
      · exact absurd (submittedIn_fresh h hact) (Nat.lt_irrefl _)
    · rw [setAt_of_ne _ _ hc] at hcp hact
      exact h.parentDone c p hcp hact
  · intro t c hc p hcp
    by_cases ht : t = n
    · subst ht
      rw [setAt_same, hch] at hc
      cases hc
    · rw [setAt_of_ne _ _ ht] at hc
      have hcn := h.childFresh t c hc
      rw [hold c hcn] at hcp
      exact h.childOf t c hc p hcp
  · intro s hs t hst
    have ht : t < n := by
      apply h.threadFresh s hs t
      rcases hst with hst | hst <;> subst hst <;> rfl
    rw [hold t ht]
    exact h.doneAfter s hs t hst
  · intro s hs t m hst
    have ht : t < n := by
      apply h.threadFresh s hs t
      subst hst
      rfl
    rw [hold t ht]
    exact h.noParent s hs t m hst
  · intro t c hc
    by_cases ht : t = n
    · subst ht
      rw [setAt_same, hch] at hc
      cases hc
    · rw [setAt_of_ne _ _ ht] at hc
      exact Nat.lt_succ_of_lt (h.childFresh t c hc)
  · intro c p hcp
    exact Nat.lt_succ_of_lt (hparent c p hcp)
  · intro m hm c hc
    exact Nat.lt_succ_of_lt (h.queueFresh m hm c hc)
  · intro s hs t hst
    exact Nat.lt_succ_of_lt (h.threadFresh s hs t hst)

theorem inv_setFuture {st : System} (h : st.inv) (t : Nat) (f : FutureState)
    (hf : f ≠ FutureState.pending)
    (hpar : ∀ p, (st.tasks t)._parent = some p → (st.tasks p)._future ≠ FutureState.pending) :
    (st.setTask t { st.tasks t with _future := f }).inv := by
  show Inv (setAt st.tasks t { st.tasks t with _future := f }) st.nextTask _ _
  apply Inv.update_tasks h
  · intro x
    by_cases hx : x = t
    · subst hx; right; simp
    · right; rw [setAt_of_ne _ _ hx]
  · intro x c hc
    by_cases hx : x = t
    · subst hx; left; simpa using hc
    · left; rw [setAt_of_ne _ _ hx] at hc; exact hc
  · intro x hx0
    by_cases hx : x = t
    · subst hx; simpa using hf
    · rw [setAt_of_ne _ _ hx]; exact hx0
  · intro x hx0
    by_cases hx : x = t
    · subst hx; right; exact hpar
    · left; rw [setAt_of_ne _ _ hx] at hx0; exact hx0

theorem inv_reset {st : System} (h : st.inv) (t : Nat) :
    (st.setTask t { st.tasks t with _method := none, _parent := none }).inv := by
  show Inv (setAt st.tasks t { st.tasks t with _method := none, _parent := none })
    st.nextTask _ _
  apply Inv.update_tasks h
  · intro x
    by_cases hx : x = t
    · subst hx; left; simp
    · right; rw [setAt_of_ne _ _ hx]
  · intro x c hc
    by_cases hx : x = t
    · subst hx; left; simpa using hc
    · left; rw [setAt_of_ne _ _ hx] at hc; exact hc
  · intro x hx0
    by_cases hx : x = t
    · subst hx; simpa using hx0
    · rw [setAt_of_ne _ _ hx]; exact hx0
  · intro x hx0
    by_cases hx : x = t
    · subst hx; left; simpa using hx0
    · left; rw [setAt_of_ne _ _ hx] at hx0; exact hx0

theorem inv_setLock {st : System} (h : st.inv) (t : Nat) (b : Bool) :
    (st.setTask t { st.tasks t with _scheduleLock := b }).inv := by
  show Inv (setAt st.tasks t { st.tasks t with _scheduleLock := b }) st.nextTask _ _
  apply Inv.update_tasks h
  · intro x
    by_cases hx : x = t
    · subst hx; right; simp
    · right; rw [setAt_of_ne _ _ hx]
  · intro x c hc
    by_cases hx : x = t
    · subst hx; left; simpa using hc
    · left; rw [setAt_of_ne _ _ hx] at hc; exact hc
  · intro x hx0
    by_cases hx : x = t
    · subst hx; simpa using hx0
    · rw [setAt_of_ne _ _ hx]; exact hx0
  · intro x hx0
    by_cases hx : x = t
    · subst hx; left; simpa using hx0
    · left; rw [setAt_of_ne _ _ hx] at hx0; exact hx0

theorem inv_setValid {st : System} (h : st.inv) (t : Nat) (b : Bool) :
    (st.setTask t { st.tasks t with _futureValid := b }).inv := by
  show Inv (setAt st.tasks t { st.tasks t with _futureValid := b }) st.nextTask _ _
  apply Inv.update_tasks h
  · intro x
    by_cases hx : x = t
    · subst hx; right; simp
    · right; rw [setAt_of_ne _ _ hx]
  · intro x c hc
    by_cases hx : x = t
    · subst hx; left; simpa using hc
    · left; rw [setAt_of_ne _ _ hx] at hc; exact hc
  · intro x hx0
    by_cases hx : x = t
    · subst hx; simpa using hx0
    · rw [setAt_of_ne _ _ hx]; exact hx0
  · intro x hx0
    by_cases hx : x = t
    · subst hx; left; simpa using hx0
    · left; rw [setAt_of_ne _ _ hx] at hx0; exact hx0

theorem inv_setChilds {st : System} (h : st.inv) (t : Nat) (cs : List Nat)
    (hcs : ∀ c ∈ cs, c ∈ (st.tasks t)._childs
      ∨ (c < st.nextTask ∧ ∀ p, (st.tasks c)._parent = some p → p = t)) :
    (st.setTask t { st.tasks t with _childs := cs }).inv := by
  show Inv (setAt st.tasks t { st.tasks t with _childs := cs }) st.nextTask _ _
  apply Inv.update_tasks h
  · intro x
    by_cases hx : x = t
    · subst hx; right; simp
    · right; rw [setAt_of_ne _ _ hx]
  · intro x c hc
    by_cases hx : x = t
    · subst hx
      rw [setAt_same] at hc
      exact hcs c hc
    · left; rw [setAt_of_ne _ _ hx] at hc; exact hc
  · intro x hx0
    by_cases hx : x = t
    · subst hx; simpa using hx0
    · rw [setAt_of_ne _ _ hx]; exact hx0
  · intro x hx0
    by_cases hx : x = t
    · subst hx; left; simpa using hx0
    · left; rw [setAt_of_ne _ _ hx] at hx0; exact hx0

theorem inv_push {st : System} (h : st.inv) (fn : Callable)
    (hfn : ∀ c, fn = Callable.threadMethod c →
      c < st.nextTask
      ∧ ∀ p, (st.tasks c)._parent = some p → (st.tasks p)._future ≠ FutureState.pending) :
    (IThreadPool.schedule st fn).inv := by
  show Inv st.tasks st.nextTask (st.pool._taskQueue ++ [Bind.bind fn]) st.pool._threads
  apply Inv.update_pool h
  · intro c hc
    rcases (submittedIn_iff _ _ c).1 hc with ⟨m, hm, hf⟩ | hth
    · rcases List.mem_append.1 hm with hm | hm
      · exact Or.inl ((submittedIn_iff _ _ c).2 (Or.inl ⟨m, hm, hf⟩))
      · rw [List.mem_singleton.1 hm] at hf
        exact Or.inr (hfn c hf).2
    · exact Or.inl ((submittedIn_iff _ _ c).2 (Or.inr hth))
  · intro s hs
    exact Or.inl hs
  · intro m hm
    rcases List.mem_append.1 hm with hm | hm
    · exact Or.inl hm
    · right
      intro c hc
      rw [List.mem_singleton.1 hm] at hc
      exact (hfn c hc).1

theorem inv_setThread {st : System} (h : st.inv) (w : Nat) (s : ThreadState)
    (hni : ∀ m, s ≠ ThreadState.invoking m)
    (hdone : ∀ t, (s = ThreadState.completed t ∨ s = ThreadState.draining t) →
      (st.tasks t)._future ≠ FutureState.pending)
    (hrun : ∀ t m, s = ThreadState.running t m → (st.tasks t)._parent = none)
    (hfresh : ∀ t, s.task? = some t → t < st.nextTask) :
    (st.setThread w s).inv := by
  show Inv st.tasks st.nextTask st.pool._taskQueue (st.pool._threads.set w s)
  apply Inv.update_pool h
  · intro c hc
    left
    rcases (submittedIn_iff _ _ c).1 hc with hq | ⟨m, hm, hf⟩
    · exact (submittedIn_iff _ _ c).2 (Or.inl hq)
    · rcases List.mem_or_eq_of_mem_set hm with hm | hm
      · exact (submittedIn_iff _ _ c).2 (Or.inr ⟨m, hm, hf⟩)
      · exact absurd hm.symm (hni m)
  · intro s1 hs1
    rcases List.mem_or_eq_of_mem_set hs1 with hs1 | hs1
    · exact Or.inl hs1
    · subst hs1
      exact Or.inr ⟨hdone, hrun, hfresh⟩
  · intro m hm
    exact Or.inl hm

theorem inv_scheduleNow {st s : System} (h : st.inv) {c : Nat} (hc : c < st.nextTask)
    (hpar : ∀ p, (st.tasks c)._parent = some p → (st.tasks p)._future ≠ FutureState.pending)
    (hs : scheduleNow st c = some s) : s.inv := by
  rcases scheduleNow_eq_some hs with ⟨-, -, hs⟩ | ⟨-, hs⟩
  · subst hs
    exact inv_setFuture h c _ (by simp) hpar
  · subst hs
    apply inv_push h
    intro c1 hc1
    cases hc1
    exact ⟨hc, hpar⟩

theorem inv_threads_idle {st : System} (h : st.inv) (th1 : List ThreadState)
    (hidle : ∀ s ∈ th1, s = ThreadState.waiting) :
    Inv st.tasks st.nextTask st.pool._taskQueue th1 := by
  apply Inv.update_pool h
  · intro c hc
    left
    rcases (submittedIn_iff _ _ c).1 hc with hq | ⟨m, hm, -⟩
    · exact (submittedIn_iff _ _ c).2 (Or.inl hq)
    · cases hidle _ hm
  · intro s1 hs1
    right
    rw [hidle s1 hs1]
    refine ⟨?_, ?_, ?_⟩
    · intro t ht
      rcases ht with ht | ht <;> cases ht
    · intro t m ht
      cases ht
    · intro t ht
      cases ht
  · intro m hm
    exact Or.inl hm

theorem inv_wake {st : System} (h : st.inv) (w : Nat) (task : MethodType)
    (rest : List MethodType) (hq : st.pool._taskQueue = task :: rest) :
    Inv st.tasks st.nextTask rest (st.pool._threads.set w (ThreadState.invoking task)) := by
  apply Inv.update_pool h
  · intro c hc
    left
    rw [hq]
    rcases (submittedIn_iff _ _ c).1 hc with ⟨m, hm, hf⟩ | ⟨m, hm, hf⟩
    · exact (submittedIn_iff _ _ c).2 (Or.inl ⟨m, List.mem_cons_of_mem _ hm, hf⟩)
    · rcases List.mem_or_eq_of_mem_set hm with hm | hm
      · exact (submittedIn_iff _ _ c).2 (Or.inr ⟨m, hm, hf⟩)
      · cases hm
        exact (submittedIn_iff _ _ c).2 (Or.inl ⟨_, List.mem_cons_self _ _, hf⟩)
  · intro s1 hs1
    rcases List.mem_or_eq_of_mem_set hs1 with hs1 | hs1
    · exact Or.inl hs1
    · subst hs1
      right
      refine ⟨?_, ?_, ?_⟩
      · intro t ht
        rcases ht with ht | ht <;> cases ht
      · intro t m ht
        cases ht
      · intro t ht
        apply h.queueFresh task (by rw [hq]; exact List.mem_cons_self _ _) t
        simp only [ThreadState.task?] at ht
        split at ht
        · rename_i u hu
          cases ht
          exact hu
        · cases ht
  · intro m hm
    left
    rw [hq]
    exact List.mem_cons_of_mem _ hm

theorem ofOutcome_ne_pending (o : Outcome) : FutureState.ofOutcome o ≠ FutureState.pending := by
  cases o <;> simp [FutureState.ofOutcome]

theorem inv_withMethod {st s : System} (h : st.inv) {method : TaskMethod}
    {tok : CancellationToken}
    (hs : (ContinuationTask.withMethod st method tok).map Prod.fst = some s) : s.inv := by
  unfold ContinuationTask.withMethod at hs
  simp only [Option.map_map, Option.map_eq_some', Function.comp_apply] at hs
  obtain ⟨s1, h1, h2⟩ := hs
  subst h2
  have ha : (st.alloc (Impl.withMethod method tok)).1.inv :=
    Inv.alloc h (Impl.withMethod method tok) rfl (by intro p hp; cases hp)
  refine inv_scheduleNow ha (Nat.lt_succ_self _) ?_ h1
  intro p hp
  simp [System.alloc, Impl.withMethod] at hp

theorem inv_continue_with {st s : System} (h : st.inv) {parent : Nat} {method : TaskMethod}
    (hex : parent < st.nextTask)
    (hs : (continue_with st parent method).map Prod.fst = some s) : s.inv := by
  have hne : parent ≠ st.nextTask := Nat.ne_of_lt hex
  unfold continue_with at hs
  split at hs
  · simp at hs
  · simp only [Option.map_map, Option.map_eq_some', Function.comp_apply] at hs
    obtain ⟨s1, h1, h2⟩ := hs
    subst h2
    have ha : (st.alloc (Impl.child parent (st.tasks parent) method)).1.inv :=
      Inv.alloc h (Impl.child parent (st.tasks parent) method) rfl
        (by
          intro p hp
          cases hp
          exact ⟨hex, fun hf => absurd rfl hf⟩)
    have hchild : ∀ p,
        ((st.alloc (Impl.child parent (st.tasks parent) method)).1.tasks st.nextTask)._parent
          = some p → p = parent := by
      intro p hp
      simp [System.alloc, Impl.child] at hp
      exact hp.symm
    rcases schedule_eq_some h1 with ⟨-, hs1⟩ | ⟨hp1, hs1⟩
    · subst hs1
      apply inv_setChilds ha
      intro c hc
      rcases List.mem_append.1 hc with hc | hc
      · exact Or.inl hc
      · rw [List.mem_singleton.1 hc]
        exact Or.inr ⟨Nat.lt_succ_self _, hchild⟩
    · refine inv_scheduleNow ha (Nat.lt_succ_self _) ?_ hs1
      intro p hp
      rw [hchild p hp]
      exact hp1

theorem inv_begin {st s : System} (h : st.inv) {w t : Nat} (ht : t < st.nextTask)
    (hs : threadMethod_begin st w t = some s) : s.inv := by
  unfold threadMethod_begin at hs
  split at hs
  · simp only [Option.map_eq_some'] at hs
    obtain ⟨s1, h1, h2⟩ := hs
    subst h2
    obtain ⟨-, hs1⟩ := set_exception_eq_some h1
    subst hs1
    apply inv_setThread
    · apply inv_setFuture (inv_reset h t) t _ (by simp)
      intro p hp
      simp [System.setTask] at hp
    · intro m hm; cases hm
    · intro u hu
      rcases hu with hu | hu <;> cases hu
      simp [System.setTask]
    · intro u m hu; cases hu
    · intro u hu
      cases hu
      exact ht
  · cases hs
    apply @inv_setThread { st.setTask t { st.tasks t with _method := none, _parent := none }
        with started := st.started ++ [WorkUnit.continuation t] }
    · exact inv_reset h t
    · intro m hm; cases hm
    · intro u hu
      rcases hu with hu | hu <;> cases hu
    · intro u m hu
      cases hu
      simp [System.setTask]
    · intro u hu
      cases hu
      exact ht

theorem inv_drain {st s : System} (h : st.inv) {w t : Nat}
    (hw : ThreadState.draining t ∈ st.pool._threads)
    (hs : threadMethod_drain st w t = some s) : s.inv := by
  unfold threadMethod_drain at hs
  split at hs
  · cases hs
    apply inv_setThread (inv_setLock h t false)
    · intro m hm; cases hm
    · intro u hu
      rcases hu with hu | hu <;> cases hu
    · intro u m hu; cases hu
    · intro u hu; cases hu
  · rename_i front rest hch
    simp only [Option.map_eq_some'] at hs
    obtain ⟨s1, h1, h2⟩ := hs
    subst h2
    have hmem : front ∈ (st.tasks t)._childs := by
      rw [hch]; exact List.mem_cons_self _ _
    have h1inv : s1.inv := by
      refine inv_scheduleNow h (h.childFresh t front hmem) ?_ h1
      intro p hp
      rw [h.childOf t front hmem p hp]
      exact h.doneAfter _ hw t (Or.inr rfl)
    apply inv_setChilds h1inv
    intro c hc
    exact Or.inl (List.mem_of_mem_tail hc)

/-- Every step keeps the invariant. -/
theorem step_inv {st s : System} {a : Action} (h : st.inv) (hs : step st a = some s) :
    s.inv := by
  cases a with
  | newSource => cases hs; exact h
  | cancel cs =>
      simp only [step] at hs
      split at hs
      · cases hs; exact h
      · cases hs
  | newFulfilled tok =>
      simp only [step] at hs
      split at hs
      · cases hs
        exact Inv.alloc h (Impl.fulfilled tok) rfl (by intro p hp; cases hp)
      · cases hs
  | newTask method tok =>
      simp only [step] at hs
      split at hs
      · exact inv_withMethod h hs
      · cases hs
  | newCancelableTask method tok =>
      simp only [step, ContinuationTask.withCancelableMethod] at hs
      split at hs
      · exact inv_withMethod h hs
      · cases hs
  | continue_with parent method =>
      simp only [step] at hs
      split at hs
      · rename_i hex
        exact inv_continue_with h hex hs
      · cases hs
  | schedule label f =>
      cases hs
      apply inv_push h
      intro c hc
      cases hc
  | get task =>
      obtain ⟨-, -, -, rfl⟩ := get_step_eq hs
      exact inv_setValid h task false
  | start =>
      cases hs
      show Inv st.tasks st.nextTask st.pool.start._taskQueue st.pool.start._threads
      unfold SimpleThreadPool.start
      split
      · apply inv_threads_idle h
        intro s hs
        exact List.eq_of_mem_replicate hs
      · exact h
  | stopSignal => cases hs; exact h
  | stopJoin =>
      simp only [step, SimpleThreadPool.stopJoin, Option.map_eq_some'] at hs
      obtain ⟨p, h1, h2⟩ := hs
      subst h2
      split at h1
      · cases h1
        apply inv_threads_idle h
        intro s hs
        cases hs
      · cases h1
  | popExceptions => cases hs; exact h
  | wake w =>
      simp only [step, SimpleThreadPool.threadPoolMethod_wait, Option.map_eq_some'] at hs
      obtain ⟨p, h1, h2⟩ := hs
      subst h2
      split at h1
      · split at h1
        · cases h1
          apply inv_setThread h w ThreadState.exited
          · intro m hm; cases hm
          · intro u hu
            rcases hu with hu | hu <;> cases hu
          · intro u m hu; cases hu
          · intro u hu; cases hu
        · split at h1
          · cases h1
          · rename_i task rest hq
            cases h1
            exact inv_wake h w task rest hq
      · cases h1
  | invoke w =>
      simp only [step] at hs
      split at hs
      · rename_i task hw
        have hmem : ThreadState.invoking task ∈ st.pool._threads := List.getElem?_mem hw
        unfold threadPoolMethod_invoke at hs
        split at hs
        · cases hs
        · split at hs
          · rename_i label f hfn
            split at hs
            · cases hs
              apply @inv_setThread { st with
                  started := st.started ++ [WorkUnit.pooled label] } h
              · intro m hm; cases hm
              · intro u hu
                rcases hu with hu | hu <;> cases hu
              · intro u m hu; cases hu
              · intro u hu; cases hu
            · rename_i e he
              cases hs
              apply @inv_setThread { st with
                  started := st.started ++ [WorkUnit.pooled label],
                  pool := { st.pool with _exceptions := st.pool._exceptions ++ [e] } } h
              · intro m hm; cases hm
              · intro u hu
                rcases hu with hu | hu <;> cases hu
              · intro u m hu; cases hu
              · intro u hu; cases hu
          · rename_i t hfn
            refine inv_begin h ?_ hs
            exact h.threadFresh _ hmem t (by simp [ThreadState.task?, hfn])
      · cases hs
  | finish w =>
      simp only [step] at hs
      split at hs
      · rename_i t method hw
        have hmem : ThreadState.running t method ∈ st.pool._threads := List.getElem?_mem hw
        unfold threadMethod_finish at hs
        simp only [Option.map_eq_some'] at hs
        obtain ⟨s1, h1, h2⟩ := hs
        subst h2
        obtain ⟨-, hs1⟩ := complete_eq_some h1
        subst hs1
        apply inv_setThread
        · apply inv_setFuture h t _ (ofOutcome_ne_pending _)
          intro p hp
          rw [h.noParent _ hmem t method rfl] at hp
          cases hp
        · intro m hm; cases hm
        · intro u hu
          rcases hu with hu | hu <;> cases hu
          simpa [System.setTask] using ofOutcome_ne_pending _
        · intro u m hu; cases hu
        · intro u hu
          cases hu
          exact h.threadFresh _ hmem t rfl
      · cases hs
  | lock w =>
      simp only [step] at hs
      split at hs
      · rename_i t hw
        have hmem : ThreadState.completed t ∈ st.pool._threads := List.getElem?_mem hw
        unfold threadMethod_lock at hs
        split at hs
        · cases hs
        · cases hs
          apply inv_setThread (inv_setLock h t true)
          · intro m hm; cases hm
          · intro u hu
            rcases hu with hu | hu <;> cases hu
            simpa [System.setTask] using h.doneAfter _ hmem t (Or.inl rfl)
          · intro u m hu; cases hu
          · intro u hu
            cases hu
            exact h.threadFresh _ hmem t rfl
      · cases hs
  | drain w =>
      simp only [step] at hs
      split at hs
      · rename_i t hw
        exact inv_drain h (List.getElem?_mem hw) hs
      · cases hs

theorem init_inv (n : Nat) : (System.init n).inv := by
  refine ⟨?_, ?_, ?_, ?_, ?_, ?_, ?_, ?_⟩
  · intro c p hcp
    cases hcp
  · intro t c hc
    cases hc
  · intro s hs
    cases hs
  · intro s hs
    cases hs
  · intro t c hc
    cases hc
  · intro c p hcp
    cases hcp
  · intro m hm
    cases hm
  · intro s hs
    cases hs

theorem exec_inv (acts : List Action) :
    ∀ st s : System, st.inv → exec st acts = some s → s.inv := by
  induction acts with
  | nil =>
      intro st s h hs
      cases hs
      exact h
  | cons a rest ih =>
      intro st s h hs
      simp only [exec, Option.bind_eq_some] at hs
      obtain ⟨s1, h1, h2⟩ := hs
      exact ih s1 s (step_inv h h1) h2

/-! ## Parent links, set promises and the log across a step -/

theorem Frame.of_eq {st s : System} (h1 : s.nextTask = st.nextTask)
    (h2 : s.started = st.started) (h3 : s.tasks = st.tasks) : Frame st s := by
  refine ⟨by rw [h1], h2, ?_⟩
  intro x _
  rw [h3]
  exact ⟨rfl, id⟩

theorem Frame.trans {st s1 s2 : System} (h1 : Frame st s1) (h2 : Frame s1 s2) :
    Frame st s2 := by
  obtain ⟨a1, b1, c1⟩ := h1
  obtain ⟨a2, b2, c2⟩ := h2
  refine ⟨Nat.le_trans a1 a2, b2.trans b1, ?_⟩
  intro x hx
  obtain ⟨p1, f1⟩ := c1 x hx
  obtain ⟨p2, f2⟩ := c2 x (Nat.lt_of_lt_of_le hx a1)
  exact ⟨p2.trans p1, fun hf => f2 (f1 hf)⟩

theorem Frame.of_setTask (st : System) (t : Nat) (impl : Impl)
    (hp : impl._parent = (st.tasks t)._parent)
    (hf : (st.tasks t)._future ≠ FutureState.pending → impl._future ≠ FutureState.pending) :
    Frame st (st.setTask t impl) := by
  refine ⟨Nat.le_refl _, rfl, ?_⟩
  intro x _
  by_cases hx : x = t
  · subst hx
    have e : (st.setTask x impl).tasks x = impl := setAt_same _ _ _
    rw [e]
    exact ⟨hp, hf⟩
  · have e : (st.setTask t impl).tasks x = st.tasks x := setAt_of_ne _ _ hx
    rw [e]
    exact ⟨rfl, id⟩

theorem Frame.of_alloc (st : System) (impl : Impl) : Frame st (st.alloc impl).1 := by
  refine ⟨Nat.le_succ _, rfl, ?_⟩
  intro x hx
  have e : (st.alloc impl).1.tasks x = st.tasks x := setAt_of_ne _ _ (Nat.ne_of_lt hx)
  rw [e]
  exact ⟨rfl, id⟩

theorem Frame.of_scheduleNow {st s : System} {task : Nat}
    (h : scheduleNow st task = some s) : Frame st s := by
  rcases scheduleNow_eq_some h with ⟨-, -, hs⟩ | ⟨-, hs⟩
  · subst hs
    exact Frame.of_setTask st task _ rfl (fun _ => by simp)
  · subst hs
    exact Frame.of_eq rfl rfl rfl

theorem Frame.of_withMethod {st s : System} {method : TaskMethod} {tok : CancellationToken}
    (hs : (ContinuationTask.withMethod st method tok).map Prod.fst = some s) : Frame st s := by
  unfold ContinuationTask.withMethod at hs
  simp only [Option.map_map, Option.map_eq_some', Function.comp_apply] at hs
  obtain ⟨s1, h1, h2⟩ := hs
  subst h2
  exact (Frame.of_alloc st _).trans (Frame.of_scheduleNow h1)

theorem Frame.of_continue_with {st s : System} {parent : Nat} {method : TaskMethod}
    (hs : (continue_with st parent method).map Prod.fst = some s) : Frame st s := by
  unfold continue_with at hs
  split at hs
  · simp at hs
  · simp only [Option.map_map, Option.map_eq_some', Function.comp_apply] at hs
    obtain ⟨s1, h1, h2⟩ := hs
    subst h2
    apply (Frame.of_alloc st _).trans
    rcases schedule_eq_some h1 with ⟨-, hs1⟩ | ⟨-, hs1⟩
    · subst hs1
      exact Frame.of_setTask _ parent _ rfl (fun hf => hf)
    · exact Frame.of_scheduleNow hs1

theorem Frame.of_drain {st s : System} {w t : Nat}
    (hs : threadMethod_drain st w t = some s) : Frame st s := by
  unfold threadMethod_drain at hs
  split at hs
  · cases hs
    exact (Frame.of_setTask st t { st.tasks t with _scheduleLock := false } rfl
      (fun hf => hf)).trans (Frame.of_eq rfl rfl rfl)
  · simp only [Option.map_eq_some'] at hs
    obtain ⟨s1, h1, h2⟩ := hs
    subst h2
    exact (Frame.of_scheduleNow h1).trans
      (Frame.of_setTask s1 t { s1.tasks t with _childs := (s1.tasks t)._childs.tail } rfl
        (fun hf => hf))

theorem Frame.stepFrame {st s : System} (h : Frame st s) : StepFrame st s := by
  obtain ⟨a, b, c⟩ := h
  refine ⟨a, ?_, ?_⟩
  · intro x hx
    exact ⟨Or.inl (c x hx).1, (c x hx).2⟩
  · intro x hx
    rw [b] at hx
    exact Or.inl hx

theorem submitted_of_thread {st : System} {w t : Nat} {task : MethodType}
    (hw : st.pool._threads[w]? = some (ThreadState.invoking task))
    (hfn : task._function = Callable.threadMethod t) : st.submitted t = true :=
  (submittedIn_iff st.pool._taskQueue st.pool._threads t).2
    (Or.inr ⟨task, List.getElem?_mem hw, hfn⟩)

theorem begin_stepFrame {st s : System} {w t : Nat} (hsub : st.submitted t = true)
    (hs : threadMethod_begin st w t = some s) : StepFrame st s := by
  unfold threadMethod_begin at hs
  split at hs
  · simp only [Option.map_eq_some'] at hs
    obtain ⟨s1, h1, h2⟩ := hs
    subst h2
    obtain ⟨-, hs1⟩ := set_exception_eq_some h1
    subst hs1
    refine ⟨Nat.le_refl _, ?_, ?_⟩
    · intro x _
      by_cases hx : x = t
      · subst hx
        exact ⟨Or.inr hsub, fun _ => by simp [System.setThread, System.setTask]⟩
      · refine ⟨Or.inl ?_, ?_⟩
        · simp [System.setThread, System.setTask, setAt_of_ne _ _ hx]
        · simp [System.setThread, System.setTask, setAt_of_ne _ _ hx]
    · intro x hx
      exact Or.inl hx
  · cases hs
    refine ⟨Nat.le_refl _, ?_, ?_⟩
    · intro x _
      by_cases hx : x = t
      · subst hx
        exact ⟨Or.inr hsub, fun hf => by simpa [System.setThread, System.setTask] using hf⟩
      · refine ⟨Or.inl ?_, ?_⟩
        · simp [System.setThread, System.setTask, setAt_of_ne _ _ hx]
        · simp [System.setThread, System.setTask, setAt_of_ne _ _ hx]
    · intro x hx
      simp only [System.setThread, List.mem_append, List.mem_singleton] at hx
      rcases hx with hx | hx
      · exact Or.inl hx
      · cases hx
        exact Or.inr hsub

/-- Every step leaves parent links, set promises and the log as `StepFrame` says. -/
theorem step_frame {st s : System} {a : Action} (hs : step st a = some s) :
    StepFrame st s := by
  cases a with
  | newSource => cases hs; exact (Frame.of_eq rfl rfl rfl).stepFrame
  | cancel cs =>
      simp only [step] at hs
      split at hs
      · cases hs; exact (Frame.of_eq rfl rfl rfl).stepFrame
      · cases hs
  | newFulfilled tok =>
      simp only [step] at hs
      split at hs
      · cases hs; exact (Frame.of_alloc st _).stepFrame
      · cases hs
  | newTask method tok =>
      simp only [step] at hs
      split at hs
      · exact (Frame.of_withMethod hs).stepFrame
      · cases hs
  | newCancelableTask method tok =>
      simp only [step, ContinuationTask.withCancelableMethod] at hs
      split at hs
      · exact (Frame.of_withMethod hs).stepFrame
      · cases hs
  | continue_with parent method =>
      simp only [step] at hs
      split at hs
      · exact (Frame.of_continue_with hs).stepFrame
      · cases hs
  | schedule label f => cases hs; exact (Frame.of_eq rfl rfl rfl).stepFrame
  | get task =>
      obtain ⟨-, -, -, rfl⟩ := get_step_eq hs
      exact (Frame.of_setTask st task { st.tasks task with _futureValid := false } rfl
        (fun hf => hf)).stepFrame
  | start => cases hs; exact (Frame.of_eq rfl rfl rfl).stepFrame
  | stopSignal => cases hs; exact (Frame.of_eq rfl rfl rfl).stepFrame
  | stopJoin =>
      simp only [step, Option.map_eq_some'] at hs
      obtain ⟨p, -, h2⟩ := hs
      subst h2
      exact (Frame.of_eq rfl rfl rfl).stepFrame
  | popExceptions => cases hs; exact (Frame.of_eq rfl rfl rfl).stepFrame
  | wake w =>
      simp only [step, Option.map_eq_some'] at hs
      obtain ⟨p, -, h2⟩ := hs
      subst h2
      exact (Frame.of_eq rfl rfl rfl).stepFrame
  | invoke w =>
      simp only [step] at hs
      split at hs
      · rename_i task hw
        unfold threadPoolMethod_invoke at hs
        split at hs
        · cases hs
        · split at hs
          · rename_i label f hfn
            have hlog : ∀ x, WorkUnit.continuation x ∈ st.started ++ [WorkUnit.pooled label] →
                WorkUnit.continuation x ∈ st.started ∨ st.submitted x = true := by
              intro x hx
              rcases List.mem_append.1 hx with hx | hx
              · exact Or.inl hx
              · simp at hx
            split at hs
            · cases hs
              exact ⟨Nat.le_refl _, fun x _ => ⟨Or.inl rfl, id⟩, hlog⟩
            · cases hs
              exact ⟨Nat.le_refl _, fun x _ => ⟨Or.inl rfl, id⟩, hlog⟩
          · rename_i t hfn
            exact begin_stepFrame (submitted_of_thread hw hfn) hs
      · cases hs
  | finish w =>
      simp only [step] at hs
      split at hs
      · rename_i t method hw
        unfold threadMethod_finish at hs
        simp only [Option.map_eq_some'] at hs
        obtain ⟨s1, h1, h2⟩ := hs
        subst h2
        obtain ⟨-, hs1⟩ := complete_eq_some h1
        subst hs1
        exact ((Frame.of_setTask st t { st.tasks t with
            _future := FutureState.ofOutcome (PromiseMethod.invoke method st.flags) } rfl
          (fun _ => ofOutcome_ne_pending _)).trans (Frame.of_eq rfl rfl rfl)).stepFrame
      · cases hs
  | lock w =>
      simp only [step] at hs
      split at hs
      · rename_i t hw
        unfold threadMethod_lock at hs
        split at hs
        · cases hs
        · cases hs
          exact ((Frame.of_setTask st t { st.tasks t with _scheduleLock := true } rfl
            (fun hf => hf)).trans (Frame.of_eq rfl rfl rfl)).stepFrame
      · cases hs
  | drain w =>
      simp only [step] at hs
      split at hs
      · exact (Frame.of_drain hs).stepFrame
      · cases hs

/-- The link of a child to its parent is kept by every step. -/
theorem step_link {st s : System} {a : Action} {child parent : Nat} (h : st.inv)
    (hc : child < st.nextTask) (hp : parent < st.nextTask) (hl : Link child parent st)
    (hs : step st a = some s) :
    Link child parent s ∧ child < s.nextTask ∧ parent < s.nextTask := by
  obtain ⟨hn, hx, hlog⟩ := step_frame hs
  refine ⟨?_, Nat.lt_of_lt_of_le hc hn, Nat.lt_of_lt_of_le hp hn⟩
  rcases hl with ⟨hpar, hnot⟩ | hdone
  · by_cases hsub : st.submitted child = true
    · exact Or.inr ((hx parent hp).2 (h.parentDone child parent hpar (Or.inr hsub)))
    · left
      constructor
      · rcases (hx child hc).1 with h1 | h1
        · rw [h1]; exact hpar
        · exact absurd h1 hsub
      · intro hin
        rcases hlog child hin with h1 | h1
        · exact hnot h1
        · exact hsub h1
  · exact Or.inr ((hx parent hp).2 hdone)

theorem exec_link (acts : List Action) {child parent : Nat} :
    ∀ st s : System, st.inv → child < st.nextTask → parent < st.nextTask →
      Link child parent st → exec st acts = some s → Link child parent s := by
  induction acts with
  | nil =>
      intro st s _ _ _ hl hs
      cases hs
      exact hl
  | cons a rest ih =>
      intro st s h hc hp hl hs
      simp only [exec, Option.bind_eq_some] at hs
      obtain ⟨s1, h1, h2⟩ := hs
      obtain ⟨hl1, hc1, hp1⟩ := step_link h hc hp hl h1
      exact ih s1 s (step_inv h h1) hc1 hp1 hl1 h2

theorem started_fresh (acts : List Action) :
    ∀ st s : System, st.inv →
      (∀ x, WorkUnit.continuation x ∈ st.started → x < st.nextTask) →
      exec st acts = some s →
      ∀ x, WorkUnit.continuation x ∈ s.started → x < s.nextTask := by
  induction acts with
  | nil =>
      intro st s _ hf hs
      cases hs
      exact hf
  | cons a rest ih =>
      intro st s h hf hs
      simp only [exec, Option.bind_eq_some] at hs
      obtain ⟨s1, h1, h2⟩ := hs
      obtain ⟨hn, -, hlog⟩ := step_frame h1
      refine ih s1 s (step_inv h h1) ?_ h2
      intro x hx
      rcases hlog x hx with h3 | h3
      · exact Nat.lt_of_lt_of_le (hf x h3) hn
      · exact Nat.lt_of_lt_of_le (submittedIn_fresh h h3) hn

theorem continue_with_child {st s : System} {parent : Nat} {method : TaskMethod}
    (hs : step st (Action.continue_with parent method) = some s) :
    parent < st.nextTask ∧ (s.tasks st.nextTask)._parent = some parent
      ∧ s.nextTask = st.nextTask + 1 ∧ s.started = st.started := by
  simp only [step] at hs
  split at hs
  · rename_i hex
    have hne : st.nextTask ≠ parent := Nat.ne_of_gt hex
    unfold continue_with at hs
    split at hs
    · simp at hs
    · simp only [Option.map_map, Option.map_eq_some', Function.comp_apply] at hs
      obtain ⟨s1, h1, h2⟩ := hs
      subst h2
      refine ⟨hex, ?_⟩
      rcases schedule_eq_some h1 with ⟨-, hs1⟩ | ⟨-, hs1⟩
      · subst hs1
        refine ⟨?_, rfl, rfl⟩
        simp [System.setTask, System.alloc, setAt_of_ne _ _ hne, Impl.child]
      · rcases scheduleNow_eq_some hs1 with ⟨-, -, hs2⟩ | ⟨-, hs2⟩
        · subst hs2
          refine ⟨?_, rfl, rfl⟩
          simp [System.setTask, System.alloc, Impl.child]
        · subst hs2
          refine ⟨?_, rfl, rfl⟩
          simp [IThreadPool.schedule, System.alloc, Impl.child]
  · cases hs

/-- C4: in every state the program reaches after `continue_with` has made a child of the
task `parent`, whenever the child is in the queue of the pool or in the hands of a worker
about to call it, or its promise is set (it failed as canceled, or ran), or its work unit
has been invoked, the promise of `parent` is set.  More generally, in every reachable
state a task that still refers to a parent and is submitted, or has its promise set, has a
parent whose promise is set. -/
theorem successor_after_predecessor (n : Nat) (before after : List Action)
    (st1 st2 : System) (parent : Nat) (method : TaskMethod)
    (h1 : exec (System.init n) before = some st1)
    (h2 : exec st1 (Action.continue_with parent method :: after) = some st2) :
    ((st2.submitted st1.nextTask = true
        ∨ st2.future st1.nextTask ≠ FutureState.pending
        ∨ WorkUnit.continuation st1.nextTask ∈ st2.started) →
      st2.future parent ≠ FutureState.pending)
    ∧ (∀ c p, (st2.tasks c)._parent = some p →
        (st2.submitted c = true ∨ st2.future c ≠ FutureState.pending) →
        st2.future p ≠ FutureState.pending) := by
  have hinv1 : st1.inv := exec_inv before _ _ (init_inv n) h1
  have hinv2 : st2.inv := exec_inv _ _ _ hinv1 h2
  have hgen : ∀ c p, (st2.tasks c)._parent = some p →
      (st2.submitted c = true ∨ st2.future c ≠ FutureState.pending) →
      st2.future p ≠ FutureState.pending := by
    intro c p hcp hact
    apply hinv2.parentDone c p hcp
    rcases hact with hact | hact
    · exact Or.inr hact
    · exact Or.inl hact
  refine ⟨?_, hgen⟩
  simp only [exec, Option.bind_eq_some] at h2
  obtain ⟨s, hs, hafter⟩ := h2
  obtain ⟨hex, hpar, hnext, hstarted⟩ := continue_with_child hs
  have hfresh := started_fresh before _ _ (init_inv n)
    (by intro x hx; cases hx) h1
  have hlink : Link st1.nextTask parent s := by
    left
    refine ⟨hpar, ?_⟩
    rw [hstarted]
    intro hin
    exact Nat.lt_irrefl _ (hfresh _ hin)
  have hlink2 : Link st1.nextTask parent st2 :=
    exec_link after s st2 (step_inv hinv1 hs) (by rw [hnext]; exact Nat.lt_succ_self _)
      (by rw [hnext]; exact Nat.lt_succ_of_lt hex) hlink hafter
  intro hact
  rcases hlink2 with ⟨hp2, hnot⟩ | hdone
  · rcases hact with hact | hact | hact
    · exact hgen _ _ hp2 (Or.inl hact)
    · exact hgen _ _ hp2 (Or.inr hact)
    · exact absurd hact hnot
  · exact hdone

/-! ## Witnesses -/

/-- C8 under the token of a canceled source. -/
theorem canceled_at_construction_witness :
    (⟨1⟩ : CancellationToken).is_canceled canceledSource.flags = true
      ∧ ∃ st1, ContinuationTask.withMethod canceledSource noop ⟨1⟩ = some (st1, 0)
          ∧ st1.pool._taskQueue = []
          ∧ st1.future 0 = FutureState.exception Exn.CanceledException := by
  obtain ⟨⟨st1, h1, h2, -, h3⟩, -⟩ :=
    canceled_at_construction canceledSource noop (fun _ => noop) ⟨1⟩ rfl
  exact ⟨rfl, st1, h1, h2, h3⟩

/-- C6 on a queued task whose source is then canceled. -/
theorem canceled_before_dispatch_witness :
    ∃ st1, exec queuedTask [Action.cancel ⟨1⟩, Action.wake 0, Action.invoke 0] = some st1
      ∧ st1.future 0 = FutureState.exception Exn.CanceledException
      ∧ st1.started = [] := by
  obtain ⟨st1, h1, h2, h3, -⟩ :=
    canceled_before_dispatch queuedTask 0 0 [] rfl rfl rfl rfl (by decide)
  exact ⟨st1, h1, h2, h3⟩

/-- C9 on a dequeued task whose source is canceled while the work unit runs. -/
theorem live_at_dispatch_runs_work_unit_witness :
    ∃ st1 st2, step dequeuedTask (Action.invoke 0) = some st1
      ∧ exec st1 ([Action.cancel ⟨1⟩] ++ [Action.finish 0]) = some st2
      ∧ st2.future 0 = FutureState.value
      ∧ st2.started = [WorkUnit.continuation 0] := by
  obtain ⟨st1, st2, h1, -, -, -, h2, h3, h4, -⟩ :=
    live_at_dispatch_runs_work_unit dequeuedTask 0 0 noop [⟨1⟩] rfl rfl rfl rfl
      (by intro cs hcs; rw [List.mem_singleton.1 hcs]; decide)
  exact ⟨st1, st2, h1, h2, h3, h4⟩

/-- C2, amended, on the task whose work unit throws error 5. -/
theorem work_unit_error_goes_to_future_witness :
    ∃ s, step runningThrowingTask (Action.finish 0) = some s
      ∧ s.future 0 = FutureState.exception (Exn.error 5)
      ∧ s.pool._exceptions = [] := by
  obtain ⟨⟨s, h1, h2, h3, -⟩, -⟩ :=
    work_unit_error_goes_to_future runningThrowingTask 0 0 (some (throwing 5)) (Exn.error 5)
      rfl rfl rfl
  exact ⟨s, h1, h2, h3⟩

/-- C4 on a chain of two: the child is submitted by the drain of its parent. -/
theorem successor_after_predecessor_witness :
    (stateAfter 1 [Action.newTask noop _dummyToken, Action.start, Action.continue_with 0 noop,
        Action.wake 0, Action.invoke 0, Action.finish 0, Action.lock 0, Action.drain 0]).submitted 1
      = true
    ∧ (stateAfter 1 [Action.newTask noop _dummyToken, Action.start, Action.continue_with 0 noop,
        Action.wake 0, Action.invoke 0, Action.finish 0, Action.lock 0, Action.drain 0]).future 0
      ≠ FutureState.pending :=
  ⟨rfl,
    (successor_after_predecessor 1 [Action.newTask noop _dummyToken, Action.start]
      [Action.wake 0, Action.invoke 0, Action.finish 0, Action.lock 0, Action.drain 0]
      (stateAfter 1 [Action.newTask noop _dummyToken, Action.start])
      (stateAfter 1 [Action.newTask noop _dummyToken, Action.start, Action.continue_with 0 noop,
        Action.wake 0, Action.invoke 0, Action.finish 0, Action.lock 0, Action.drain 0])
      0 noop rfl rfl).1 (Or.inl rfl)⟩

/-! ## Scenarios, evaluated -/

/-- C1: in the chain `t0 -> t1 -> t2` canceled before `t0` is dispatched, the worker fails
`t0` and, draining it, fails `t1` in `scheduleNow`; `t2` is still pending in `_childs` of
`t1`, nothing is queued, and the worker can take no further step. -/
theorem canceledChain_leaves_grandchild :
    (exec (System.init 1) canceledChain).map
        (fun s => (s.future 0, s.future 1, s.future 2, (s.tasks 1)._childs, s.queued,
          s.submitted 2, s.started))
      = some (FutureState.exception Exn.CanceledException,
          FutureState.exception Exn.CanceledException, FutureState.pending, [2], [], false, [])
    ∧ ([Action.wake 0, Action.invoke 0, Action.finish 0, Action.lock 0, Action.drain 0].all
        (fun a => (exec (System.init 1) (canceledChain ++ [a])).isNone)) = true := by
  constructor
  · rfl
  · rfl

/-- C2, as stated, fails: the error thrown by the work unit of a task is in the future of
the task, the error list of the pool is empty and `popExceptions()` returns nothing. -/
theorem throwingTask_not_in_pool_errors :
    (exec (System.init 1) throwingTask).map
        (fun s => (s.future 0, s.pool._exceptions, s.pool.popExceptions.1, s.started))
      = some (FutureState.exception (Exn.error 5), [], [], [WorkUnit.continuation 0]) := by
  rfl

/-- C7: with `stop()` ahead of the worker, `start(); stop()` returns with the task still
queued and its future pending; with the worker ahead, the future holds
`CanceledException`. -/
theorem preDispatchCancel_depends_on_schedule :
    (exec (System.init 1) (preDispatchCancel ++ stopFirst)).map
        (fun s => (s.future 0, s.queued, s.pool._run, s.pool._threads.length, s.started))
      = some (FutureState.pending, [WorkUnit.continuation 0], false, 0, [])
    ∧ (exec (System.init 1) (preDispatchCancel ++ workerFirst)).map
        (fun s => (s.future 0, s.queued, s.pool._run, s.pool._threads.length, s.started))
      = some (FutureState.exception Exn.CanceledException, [], false, 0, []) := by
  constructor
  · rfl
  · rfl

/-! ## The fulfilled task -/

/-- C11: `ContinuationTask(thPool, cancellation)`, on any state of the program and with any
token, gives a new task whose future holds the value at once, and leaves the pool (its
queue, its threads, its flag `_run`, its error list) and the log of invocations as they
were; so it does on a pool of 0 threads that was never started. -/
theorem fulfilled_is_ready (st : System) (cancellation : CancellationToken) :
    (ContinuationTask.fulfilled st cancellation).2 = st.nextTask
    ∧ (ContinuationTask.fulfilled st cancellation).1.future st.nextTask = FutureState.value
    ∧ (ContinuationTask.fulfilled st cancellation).1.pool._taskQueue = st.pool._taskQueue
    ∧ (ContinuationTask.fulfilled st cancellation).1.pool._threads = st.pool._threads
    ∧ (ContinuationTask.fulfilled st cancellation).1.pool._run = st.pool._run
    ∧ (ContinuationTask.fulfilled st cancellation).1.pool._exceptions = st.pool._exceptions
    ∧ (ContinuationTask.fulfilled st cancellation).1.started = st.started
    ∧ (ContinuationTask.fulfilled (System.init 0) cancellation).1.future 0 = FutureState.value
    ∧ (ContinuationTask.fulfilled (System.init 0) cancellation).1.pool._taskQueue = []
    ∧ (ContinuationTask.fulfilled (System.init 0) cancellation).1.pool._threads = []
    ∧ (ContinuationTask.fulfilled (System.init 0) cancellation).1.pool._run = false := by
  refine ⟨rfl, ?_, rfl, rfl, rfl, rfl, rfl, ?_, rfl, rfl, rfl⟩
  · simp [ContinuationTask.fulfilled, System.alloc, System.future, Impl.fulfilled]
  · simp [ContinuationTask.fulfilled, System.alloc, System.future, Impl.fulfilled, System.init]

/-! ## The error list of the pool -/

/-- A step that is not a call of `start()` or a part of `stop()` leaves `_run` as it was
and moves at most one thread, which is then the thread of a worker step, and which leaves
its loop only when `_run` is false. -/
theorem step_threads_shape {st s : System} {a : Action} (ha : a.isLifecycle = false)
    (h : step st a = some s) :
    s.pool._run = st.pool._run
      ∧ (s.pool._threads = st.pool._threads
        ∨ ∃ w x, w < st.pool._threads.length ∧ s.pool._threads = st.pool._threads.set w x
            ∧ (x = ThreadState.exited → st.pool._run = false)) := by
  cases a with
  | newSource => cases h; exact ⟨rfl, Or.inl rfl⟩
  | cancel cs =>
      simp only [step] at h
      split at h
      · cases h; exact ⟨rfl, Or.inl rfl⟩
      · cases h
  | newFulfilled tok =>
      simp only [step] at h
      split at h
      · cases h; exact ⟨rfl, Or.inl rfl⟩
      · cases h
  | newTask method tok =>
      simp only [step] at h
      split at h
      · exact ⟨(withMethod_pool h).1, Or.inl (withMethod_pool h).2.2.1⟩
      · cases h
  | newCancelableTask method tok =>
      simp only [step, ContinuationTask.withCancelableMethod] at h
      split at h
      · exact ⟨(withMethod_pool h).1, Or.inl (withMethod_pool h).2.2.1⟩
      · cases h
  | continue_with parent method =>
      simp only [step] at h
      split at h
      · exact ⟨(continue_with_pool h).1, Or.inl (continue_with_pool h).2.2.1⟩
      · cases h
  | schedule label f => cases h; exact ⟨rfl, Or.inl rfl⟩
  | get task =>
      obtain ⟨-, -, -, rfl⟩ := get_step_eq h
      exact ⟨rfl, Or.inl rfl⟩
  | start => cases ha
  | stopSignal => cases ha
  | stopJoin => cases ha
  | popExceptions => cases h; exact ⟨rfl, Or.inl rfl⟩
  | wake w =>
      simp only [step, SimpleThreadPool.threadPoolMethod_wait, Option.map_eq_some'] at h
      obtain ⟨p, h1, h2⟩ := h
      subst h2
      split at h1
      · rename_i hw
        have hlt := lt_length_of_getElem? hw
        split at h1
        · rename_i hrun
          cases h1
          exact ⟨rfl, Or.inr ⟨w, ThreadState.exited, hlt, rfl, fun _ => hrun⟩⟩
        · split at h1
          · cases h1
          · cases h1
            exact ⟨rfl, Or.inr ⟨w, _, hlt, rfl, fun hx => by cases hx⟩⟩
      · cases h1
  | invoke w =>
      simp only [step] at h
      split at h
      · rename_i task hw
        have hlt := lt_length_of_getElem? hw
        unfold threadPoolMethod_invoke at h
        split at h
        · cases h
        · split at h
          · split at h
            · cases h
              exact ⟨rfl, Or.inr ⟨w, ThreadState.waiting, hlt, rfl, fun hx => by cases hx⟩⟩
            · cases h
              exact ⟨rfl, Or.inr ⟨w, ThreadState.waiting, hlt, rfl, fun hx => by cases hx⟩⟩
          · rename_i t hfn
            unfold threadMethod_begin at h
            split at h
            · simp only [Option.map_eq_some'] at h
              obtain ⟨s1, h1, h2⟩ := h
              subst h2
              obtain ⟨-, hs1⟩ := set_exception_eq_some h1
              subst hs1
              exact ⟨rfl, Or.inr ⟨w, ThreadState.completed t, hlt, rfl,
                fun hx => by cases hx⟩⟩
            · cases h
              exact ⟨rfl, Or.inr ⟨w, _, hlt, rfl, fun hx => by cases hx⟩⟩
      · cases h
  | finish w =>
      simp only [step] at h
      split at h
      · rename_i t method hw
        have hlt := lt_length_of_getElem? hw
        unfold threadMethod_finish at h
        simp only [Option.map_eq_some'] at h
        obtain ⟨s1, h1, h2⟩ := h
        subst h2
        obtain ⟨-, hs1⟩ := complete_eq_some h1
        subst hs1
        exact ⟨rfl, Or.inr ⟨w, ThreadState.completed t, hlt, rfl, fun hx => by cases hx⟩⟩
      · cases h
  | lock w =>
      simp only [step] at h
      split at h
      · rename_i t hw
        have hlt := lt_length_of_getElem? hw
        unfold threadMethod_lock at h
        split at h
        · cases h
        · cases h
          exact ⟨rfl, Or.inr ⟨w, ThreadState.draining t, hlt, rfl, fun hx => by cases hx⟩⟩
      · cases h
  | drain w =>
      simp only [step] at h
      split at h
      · rename_i t hw
        have hlt := lt_length_of_getElem? hw
        unfold threadMethod_drain at h
        split at h
        · cases h
          exact ⟨rfl, Or.inr ⟨w, ThreadState.waiting, hlt, rfl, fun hx => by cases hx⟩⟩
        · simp only [Option.map_eq_some'] at h
          obtain ⟨s1, h1, h2⟩ := h
          subst h2
          exact ⟨(scheduleNow_pool h1).1, Or.inl (scheduleNow_pool h1).2.2.1⟩
      · cases h

/-- A step of a caller leaves the log of invocations as it was. -/
theorem step_started_of_caller {st s : System} {a : Action} (ha : a.isWorker = false)
    (h : step st a = some s) : s.started = st.started := by
  cases a with
  | newSource => cases h; rfl
  | cancel cs =>
      simp only [step] at h
      split at h
      · cases h; rfl
      · cases h
  | newFulfilled tok =>
      simp only [step] at h
      split at h
      · cases h; rfl
      · cases h
  | newTask method tok =>
      simp only [step] at h
      split at h
      · exact (Frame.of_withMethod h).2.1
      · cases h
  | newCancelableTask method tok =>
      simp only [step, ContinuationTask.withCancelableMethod] at h
      split at h
      · exact (Frame.of_withMethod h).2.1
      · cases h
  | continue_with parent method =>
      simp only [step] at h
      split at h
      · exact (Frame.of_continue_with h).2.1
      · cases h
  | schedule label f => cases h; rfl
  | get task =>
      obtain ⟨-, -, -, rfl⟩ := get_step_eq h
      rfl
  | start => cases h; rfl
  | stopSignal => cases h; rfl
  | stopJoin =>
      simp only [step, Option.map_eq_some'] at h
      obtain ⟨p, -, h2⟩ := h
      subst h2
      rfl
  | popExceptions => cases h; rfl
  | wake w => cases ha
  | invoke w => cases ha
  | finish w => cases ha
  | lock w => cases ha
  | drain w => cases ha

/-- A worker step needs a thread. -/
theorem step_worker_needs_thread {st : System} {a : Action} (ha : a.isWorker = true)
    (hth : st.pool._threads = []) : step st a = none := by
  cases a with
  | wake w => simp [step, SimpleThreadPool.threadPoolMethod_wait, hth]
  | invoke w => simp [step, hth]
  | finish w => simp [step, hth]
  | lock w => simp [step, hth]
  | drain w => simp [step, hth]
  | newSource => cases ha
  | cancel cs => cases ha
  | newFulfilled tok => cases ha
  | newTask method tok => cases ha
  | newCancelableTask method tok => cases ha
  | continue_with parent method => cases ha
  | schedule label f => cases ha
  | get task => cases ha
  | start => cases ha
  | stopSignal => cases ha
  | stopJoin => cases ha
  | popExceptions => cases ha

theorem step_without_threads {st s : System} {a : Action} (hth : st.pool._threads = [])
    (ha : a.isStart = false) (h : step st a = some s) :
    s.started = st.started ∧ s.pool._threads = [] := by
  by_cases hw : a.isWorker = true
  · rw [step_worker_needs_thread hw hth] at h
    cases h
  · have hw0 : a.isWorker = false := by simpa using hw
    refine ⟨step_started_of_caller hw0 h, ?_⟩
    by_cases hl : a.isLifecycle = true
    · cases a with
      | start => cases ha
      | stopSignal => cases h; exact hth
      | stopJoin =>
          simp only [step, SimpleThreadPool.stopJoin, Option.map_eq_some'] at h
          obtain ⟨p, h1, h2⟩ := h
          subst h2
          split at h1
          · cases h1; rfl
          · cases h1
      | newSource => cases hl
      | cancel cs => cases hl
      | newFulfilled tok => cases hl
      | newTask method tok => cases hl
      | newCancelableTask method tok => cases hl
      | continue_with parent method => cases hl
      | get task => cases hl
      | schedule label f => cases hl
      | popExceptions => cases hl
      | wake w => cases hl
      | invoke w => cases hl
      | finish w => cases hl
      | lock w => cases hl
      | drain w => cases hl
    · have hl0 : a.isLifecycle = false := by simpa using hl
      rcases (step_threads_shape hl0 h).2 with h1 | ⟨w, x, hlt, -, -⟩
      · rw [h1]; exact hth
      · rw [hth] at hlt
        cases hlt

theorem exec_without_threads (acts : List Action) :
    ∀ st s : System, st.pool._threads = [] → (∀ a ∈ acts, a.isStart = false) →
      exec st acts = some s → s.started = st.started ∧ s.pool._threads = [] := by
  induction acts with
  | nil =>
      intro st s hth _ h
      cases h
      exact ⟨rfl, hth⟩
  | cons a rest ih =>
      intro st s hth hns h
      simp only [exec, Option.bind_eq_some] at h
      obtain ⟨s1, h1, h2⟩ := h
      obtain ⟨e1, t1⟩ := step_without_threads hth (hns a (List.mem_cons_self _ _)) h1
      obtain ⟨e2, t2⟩ := ih s1 s t1 (fun b hb => hns b (List.mem_cons_of_mem _ hb)) h2
      exact ⟨e2.trans e1, t2⟩

/-- C14: `schedule()` only appends the work unit to the queue, whatever the state of the
pool, and invokes nothing; a waiting worker that finds `_run == false` leaves its loop and
the queue is as it was, empty or not; in a run from a fresh pool without `start()` no work
unit is invoked; and from the return of `stop()` on, as long as `start()` is not called,
no further work unit is invoked. -/
theorem no_work_while_not_running (st : System) :
    (∀ label f, ∃ s, step st (Action.schedule label f) = some s
        ∧ s.pool._taskQueue = st.pool._taskQueue ++ [Bind.bind (Callable.function label f)]
        ∧ s.started = st.started ∧ s.pool._threads = st.pool._threads
        ∧ s.pool._run = st.pool._run)
    ∧ (∀ w, st.pool._threads[w]? = some ThreadState.waiting → st.pool._run = false →
        ∃ s, step st (Action.wake w) = some s
          ∧ s.pool._threads[w]? = some ThreadState.exited
          ∧ s.pool._taskQueue = st.pool._taskQueue ∧ s.started = st.started)
    ∧ (∀ (n : Nat) (acts : List Action) (s : System), (∀ a ∈ acts, a.isStart = false) →
        exec (System.init n) acts = some s → s.started = [])
    ∧ (∀ (s1 s2 : System) (acts : List Action), step st Action.stopJoin = some s1 →
        (∀ a ∈ acts, a.isStart = false) → exec s1 acts = some s2 →
        s2.started = s1.started ∧ s1.started = st.started) := by
  refine ⟨?_, ?_, ?_, ?_⟩
  · intro label f
    exact ⟨_, rfl, rfl, rfl, rfl, rfl⟩
  · intro w hw hrun
    have hlt := lt_length_of_getElem? hw
    refine ⟨{ st with pool := { st.pool with
        _threads := st.pool._threads.set w ThreadState.exited } }, ?_, ?_, rfl, rfl⟩
    · simp [step, SimpleThreadPool.threadPoolMethod_wait, hw, hrun]
    · simp [hlt]
  · intro n acts s hns h
    exact (exec_without_threads acts _ s rfl hns h).1
  · intro s1 s2 acts h1 hns h2
    have hth : s1.pool._threads = [] ∧ s1.started = st.started := by
      simp only [step, SimpleThreadPool.stopJoin, Option.map_eq_some'] at h1
      obtain ⟨p, hp, hs⟩ := h1
      subst hs
      split at hp
      · cases hp; exact ⟨rfl, rfl⟩
      · cases hp
    exact ⟨(exec_without_threads acts s1 s2 hth.1 hns h2).1, hth.2⟩

/-! ## A work unit that throws -/

theorem invoke_function_step (st : System) (w label : Nat) (f : TaskMethod)
    (hw : st.pool._threads[w]? = some (ThreadState.invoking
      (Bind.bind (Callable.function label f)))) :
    ∃ s, step st (Action.invoke w) = some s
      ∧ s.started = st.started ++ [WorkUnit.pooled label]
      ∧ s.pool._threads[w]? = some ThreadState.waiting
      ∧ s.pool._taskQueue = st.pool._taskQueue := by
  have hlt := lt_length_of_getElem? hw
  cases ho : f st.flags with
  | returned =>
      refine ⟨{ st with started := st.started ++ [WorkUnit.pooled label] }.setThread w
        ThreadState.waiting, ?_, rfl, ?_, rfl⟩
      · simp [step, hw, threadPoolMethod_invoke, Bind.bind, ho]
      · simp [System.setThread, hlt]
  | raised e =>
      refine ⟨{ st with started := st.started ++ [WorkUnit.pooled label],
                        pool := { st.pool with _exceptions := st.pool._exceptions ++ [e] }
              }.setThread w ThreadState.waiting, ?_, rfl, ?_, rfl⟩
      · simp [step, hw, threadPoolMethod_invoke, Bind.bind, ho]
      · simp [System.setThread, hlt]

theorem exec_keeps_workers (acts : List Action) :
    ∀ st s : System, st.pool._run = true → (∀ a ∈ acts, a.isLifecycle = false) →
      exec st acts = some s →
      s.pool._run = true ∧ s.pool._threads.length = st.pool._threads.length
        ∧ ∀ w : Nat, s.pool._threads[w]? = some ThreadState.exited →
            st.pool._threads[w]? = some ThreadState.exited := by
  induction acts with
  | nil =>
      intro st s hrun _ h
      cases h
      exact ⟨hrun, rfl, fun _ hw => hw⟩
  | cons a rest ih =>
      intro st s hrun hnl h
      simp only [exec, Option.bind_eq_some] at h
      obtain ⟨s1, h1, h2⟩ := h
      obtain ⟨hr1, hsh⟩ := step_threads_shape (hnl a (List.mem_cons_self _ _)) h1
      obtain ⟨hr2, hl2, hx2⟩ :=
        ih s1 s (hr1.trans hrun) (fun b hb => hnl b (List.mem_cons_of_mem _ hb)) h2
      refine ⟨hr2, ?_, ?_⟩
      · rw [hl2]
        rcases hsh with e | ⟨w, x, -, e, -⟩
        · rw [e]
        · rw [e, List.length_set]
      · intro w hw
        have hw1 := hx2 w hw
        rcases hsh with e | ⟨v, x, hlt, e, hx⟩
        · rw [e] at hw1; exact hw1
        · rw [e] at hw1
          by_cases hvw : v = w
          · subst hvw
            rw [List.getElem?_set_self hlt] at hw1
            have hxe : x = ThreadState.exited := Option.some.inj hw1
            rw [hx hxe] at hrun
            cases hrun
          · rw [List.getElem?_set_ne hvw] at hw1
            exact hw1

/-- C13: a worker of a running pool that invokes a work unit which throws pushes the error
to the error list and is back at its wait, not out of its loop; with a next entry in the
queue it dequeues that entry and, if it is a work unit scheduled on the pool, invokes it.
In any run of a running pool without `start()` and `stop()`, whatever is thrown, the pool
keeps the number of its threads and no worker that was in its loop has left it. -/
theorem raising_work_unit_keeps_worker (st : System) (w label : Nat) (f : TaskMethod)
    (e : Exn) (next : MethodType) (rest : List MethodType)
    (hw : st.pool._threads[w]? = some (ThreadState.invoking
      (Bind.bind (Callable.function label f))))
    (he : f st.flags = Outcome.raised e)
    (hrun : st.pool._run = true)
    (hq : st.pool._taskQueue = next :: rest) :
    (∃ s, step st (Action.invoke w) = some s
        ∧ s.pool._threads[w]? = some ThreadState.waiting
        ∧ s.pool._exceptions = st.pool._exceptions ++ [e]
        ∧ s.pool._threads.length = st.pool._threads.length)
    ∧ (∃ s, exec st [Action.invoke w, Action.wake w] = some s
        ∧ s.pool._threads[w]? = some (ThreadState.invoking next)
        ∧ s.pool._taskQueue = rest
        ∧ s.pool._threads.length = st.pool._threads.length)
    ∧ (∀ label2 f2, next = Bind.bind (Callable.function label2 f2) →
        ∃ s, exec st [Action.invoke w, Action.wake w, Action.invoke w] = some s
          ∧ s.started = st.started ++ [WorkUnit.pooled label, WorkUnit.pooled label2]
          ∧ s.pool._threads[w]? = some ThreadState.waiting)
    ∧ (∀ (acts : List Action) (s : System), (∀ a ∈ acts, a.isLifecycle = false) →
        exec st acts = some s →
        s.pool._threads.length = st.pool._threads.length
          ∧ ∀ v : Nat, s.pool._threads[v]? = some ThreadState.exited →
              st.pool._threads[v]? = some ThreadState.exited) := by
  have hlt := lt_length_of_getElem? hw
  have h1 : step st (Action.invoke w)
      = some ({ st with started := st.started ++ [WorkUnit.pooled label],
                        pool := { st.pool with _exceptions := st.pool._exceptions ++ [e] }
              }.setThread w ThreadState.waiting) := by
    simp [step, hw, threadPoolMethod_invoke, Bind.bind, he]
  have h2 : exec st [Action.invoke w, Action.wake w]
      = some { st with
          started := st.started ++ [WorkUnit.pooled label],
          pool := { st.pool with
            _exceptions := st.pool._exceptions ++ [e],
            _taskQueue := rest,
            _threads := (st.pool._threads.set w ThreadState.waiting).set w
              (ThreadState.invoking next) } } := by
    simp only [exec, h1, Option.some_bind]
    simp [step, SimpleThreadPool.threadPoolMethod_wait, System.setThread, hlt, hrun, hq]
  refine ⟨⟨_, h1, ?_, rfl, ?_⟩, ⟨_, h2, ?_, rfl, ?_⟩, ?_, ?_⟩
  · simp [System.setThread, hlt]
  · simp [System.setThread]
  · simp [hlt]
  · simp
  · intro label2 f2 hnext
    subst hnext
    have h3 : exec st [Action.invoke w, Action.wake w, Action.invoke w]
        = (exec st [Action.invoke w, Action.wake w]).bind
            (fun s => exec s [Action.invoke w]) :=
      exec_append [Action.invoke w, Action.wake w] [Action.invoke w] st
    rw [h3, h2]
    obtain ⟨s3, hs3, hst3, hth3, -⟩ := invoke_function_step
      { st with
          started := st.started ++ [WorkUnit.pooled label],
          pool := { st.pool with
            _exceptions := st.pool._exceptions ++ [e],
            _taskQueue := rest,
            _threads := (st.pool._threads.set w ThreadState.waiting).set w
              (ThreadState.invoking (Bind.bind (Callable.function label2 f2))) } }
      w label2 f2 (by simp [hlt])
    refine ⟨s3, ?_, ?_, hth3⟩
    · simp only [Option.some_bind, exec, hs3]
    · rw [hst3]
      simp
  · intro acts s hnl h
    exact (exec_keeps_workers acts st s hrun hnl h).2

/-! ## The queue is first in, first out -/

theorem queued_eq (st : System) : st.queued = st.pool._taskQueue.map labelOf := rfl

theorem held_set_perm : ∀ (th : List ThreadState) (w : Nat) (b c : ThreadState),
    th[w]? = some b → (b.holds ++ held (th.set w c)).Perm (c.holds ++ held th) := by
  intro th
  induction th with
  | nil => intro w b c h; simp at h
  | cons s rest ih =>
      intro w b c h
      cases w with
      | zero =>
          simp only [List.getElem?_cons_zero, Option.some.injEq] at h
          subst h
          simp only [List.set_cons_zero, held]
          rw [← List.append_assoc, ← List.append_assoc]
          exact List.Perm.append_right _ List.perm_append_comm
      | succ v =>
          simp only [List.getElem?_cons_succ] at h
          have hp := ih v b c h
          simp only [List.set_cons_succ, held]
          calc b.holds ++ (s.holds ++ held (rest.set v c))
              = (b.holds ++ s.holds) ++ held (rest.set v c) := by rw [List.append_assoc]
            _ |>.Perm ((s.holds ++ b.holds) ++ held (rest.set v c)) :=
                List.Perm.append_right _ List.perm_append_comm
            _ = s.holds ++ (b.holds ++ held (rest.set v c)) := by rw [List.append_assoc]
            _ |>.Perm (s.holds ++ (c.holds ++ held rest)) := List.Perm.append_left _ hp
            _ = (s.holds ++ c.holds) ++ held rest := by rw [List.append_assoc]
            _ |>.Perm ((c.holds ++ s.holds) ++ held rest) :=
                List.Perm.append_right _ List.perm_append_comm
            _ = c.holds ++ (s.holds ++ held rest) := by rw [List.append_assoc]

theorem held_of_idle : ∀ th : List ThreadState,
    (∀ x ∈ th, ∀ m, x ≠ ThreadState.invoking m) → held th = [] := by
  intro th
  induction th with
  | nil => intro _; rfl
  | cons s rest ih =>
      intro h
      have hs : s.holds = [] := by
        cases s with
        | invoking m => exact absurd rfl (h _ (List.mem_cons_self _ _) m)
        | waiting => rfl
        | running t m => rfl
        | completed t => rfl
        | draining t => rfl
        | exited => rfl
      simp only [held, hs, List.nil_append]
      exact ih (fun x hx => h x (List.mem_cons_of_mem _ hx))

theorem direct_of_thread {st : System} (hP : DirectOnly st) {w : Nat} {x : ThreadState}
    (hw : st.pool._threads[w]? = some x) :
    x = ThreadState.waiting
      ∨ ∃ label f, x = ThreadState.invoking (Bind.bind (Callable.function label f)) :=
  hP.2.1 x (List.getElem?_mem hw)

/-- A worker step of a pool that deals with directly scheduled work units only: the entry
it dequeues is the front of the queue, every work unit is still in the log, in a hand or in
the queue, and the work left (two steps for a queued unit, one for a unit in hand) is one
step less. -/
theorem direct_worker_step {st s : System} {a : Action} (hP : DirectOnly st)
    (ha : a.isWorker = true) (h : step st a = some s) :
    DirectOnly s
      ∧ dequeuedBy st a ++ s.queued = st.queued
      ∧ (∀ x, s.started.count x + (held s.pool._threads).count x + s.queued.count x
          = st.started.count x + (held st.pool._threads).count x + st.queued.count x)
      ∧ 1 + 2 * s.pool._taskQueue.length + (held s.pool._threads).length
          = 2 * st.pool._taskQueue.length + (held st.pool._threads).length := by
  cases a with
  | wake w =>
      simp only [step, SimpleThreadPool.threadPoolMethod_wait, Option.map_eq_some'] at h
      obtain ⟨p, h1, h2⟩ := h
      subst h2
      split at h1
      · rename_i hw
        split at h1
        · rename_i hrun
          rw [hP.1] at hrun
          cases hrun
        · rename_i hrun
          split at h1
          · cases h1
          · rename_i m rest hq
            cases h1
            have hperm := held_set_perm st.pool._threads w ThreadState.waiting
              (ThreadState.invoking m) hw
            simp only [ThreadState.holds, List.nil_append, List.singleton_append] at hperm
            refine ⟨⟨hP.1, ?_, ?_⟩, ?_, ?_, ?_⟩
            · intro x hx
              rcases List.mem_or_eq_of_mem_set hx with hx | hx
              · exact hP.2.1 x hx
              · subst hx
                obtain ⟨label, f, hm⟩ := hP.2.2 m (by rw [hq]; exact List.mem_cons_self _ _)
                exact Or.inr ⟨label, f, by rw [hm]⟩
            · intro m1 hm1
              exact hP.2.2 m1 (by rw [hq]; exact List.mem_cons_of_mem _ hm1)
            · simp [dequeuedBy, hw, hrun, hq, queued_eq]
            · intro x
              have hc := hperm.count_eq x
              simp only [queued_eq, hq, List.map_cons, List.count_cons] at hc ⊢
              omega
            · have hl := hperm.length_eq
              simp only [hq, List.length_cons] at hl ⊢
              omega
      · cases h1
  | invoke w =>
      simp only [step] at h
      split at h
      · rename_i task hw
        rcases direct_of_thread hP hw with hx | ⟨label, f, hx⟩
        · cases hx
        · cases hx
          have hperm := held_set_perm st.pool._threads w
            (ThreadState.invoking (Bind.bind (Callable.function label f)))
            ThreadState.waiting hw
          simp only [ThreadState.holds, List.nil_append, List.singleton_append, labelOf,
            Bind.bind] at hperm
          have hthreads : ∀ x ∈ st.pool._threads.set w ThreadState.waiting,
              x = ThreadState.waiting
                ∨ ∃ label f, x = ThreadState.invoking
                    (Bind.bind (Callable.function label f)) := by
            intro x hx
            rcases List.mem_or_eq_of_mem_set hx with hx | hx
            · exact hP.2.1 x hx
            · exact Or.inl hx
          simp only [threadPoolMethod_invoke, Bind.bind, Bool.false_eq_true, if_false] at h
          split at h
          · cases h
            refine ⟨⟨hP.1, hthreads, hP.2.2⟩, rfl, ?_, ?_⟩
            · intro x
              have hc := hperm.count_eq x
              simp only [queued_eq, System.setThread, List.count_append, List.count_cons,
                List.count_nil] at hc ⊢
              omega
            · have hl := hperm.length_eq
              simp only [System.setThread, List.length_cons] at hl ⊢
              omega
          · cases h
            refine ⟨⟨hP.1, hthreads, hP.2.2⟩, rfl, ?_, ?_⟩
            · intro x
              have hc := hperm.count_eq x
              simp only [queued_eq, System.setThread, List.count_append, List.count_cons,
                List.count_nil] at hc ⊢
              omega
            · have hl := hperm.length_eq
              simp only [System.setThread, List.length_cons] at hl ⊢
              omega
      · cases h
  | finish w =>
      simp only [step] at h
      split at h
      · rename_i t method hw
        rcases direct_of_thread hP hw with hx | ⟨label, f, hx⟩ <;> cases hx
      · cases h
  | lock w =>
      simp only [step] at h
      split at h
      · rename_i t hw
        rcases direct_of_thread hP hw with hx | ⟨label, f, hx⟩ <;> cases hx
      · cases h
  | drain w =>
      simp only [step] at h
      split at h
      · rename_i t hw
        rcases direct_of_thread hP hw with hx | ⟨label, f, hx⟩ <;> cases hx
      · cases h
  | newSource => cases ha
  | cancel cs => cases ha
  | newFulfilled tok => cases ha
  | newTask method tok => cases ha
  | newCancelableTask method tok => cases ha
  | continue_with parent method => cases ha
  | schedule label f => cases ha
  | get task => cases ha
  | start => cases ha
  | stopSignal => cases ha
  | stopJoin => cases ha
  | popExceptions => cases ha

theorem direct_worker_run (acts : List Action) :
    ∀ st s : System, DirectOnly st → (∀ a ∈ acts, a.isWorker = true) →
      exec st acts = some s →
      DirectOnly s
        ∧ dequeuedAlong st acts ++ s.queued = st.queued
        ∧ (∀ x, s.started.count x + (held s.pool._threads).count x + s.queued.count x
            = st.started.count x + (held st.pool._threads).count x + st.queued.count x)
        ∧ acts.length + 2 * s.pool._taskQueue.length + (held s.pool._threads).length
            = 2 * st.pool._taskQueue.length + (held st.pool._threads).length := by
  induction acts with
  | nil =>
      intro st s hP _ h
      cases h
      exact ⟨hP, by simp [dequeuedAlong], fun _ => rfl, by simp⟩
  | cons a rest ih =>
      intro st s hP hw h
      simp only [exec, Option.bind_eq_some] at h
      obtain ⟨s1, h1, h2⟩ := h
      obtain ⟨hP1, hd1, hc1, hl1⟩ :=
        direct_worker_step hP (hw a (List.mem_cons_self _ _)) h1
      obtain ⟨hP2, hd2, hc2, hl2⟩ :=
        ih s1 s hP1 (fun b hb => hw b (List.mem_cons_of_mem _ hb)) h2
      refine ⟨hP2, ?_, ?_, ?_⟩
      · simp only [dequeuedAlong, h1]
        rw [List.append_assoc, hd2, hd1]
      · intro x
        rw [hc2 x, hc1 x]
      · simp only [List.length_cons]
        omega

theorem exec_scheduleAll (units : List (Nat × TaskMethod)) :
    ∀ (st : System) (more : List Action),
      ∃ s, exec st (scheduleAll units) = some s
        ∧ s.pool._taskQueue = st.pool._taskQueue
            ++ units.map (fun u => Bind.bind (Callable.function u.1 u.2))
        ∧ s.pool._threads = st.pool._threads ∧ s.pool._run = st.pool._run
        ∧ s.pool._threadCount = st.pool._threadCount
        ∧ s.started = st.started
        ∧ dequeuedAlong st (scheduleAll units ++ more) = dequeuedAlong s more := by
  induction units with
  | nil =>
      intro st more
      exact ⟨st, rfl, by simp, rfl, rfl, rfl, rfl, rfl⟩
  | cons u rest ih =>
      intro st more
      obtain ⟨s, h1, h2, h3, h4, h5, h6, h7⟩ :=
        ih (IThreadPool.schedule st (Callable.function u.1 u.2)) more
      refine ⟨s, ?_, ?_, h3, h4, h5, h6, ?_⟩
      · simp only [scheduleAll, List.map_cons, exec, step, Option.some_bind]
        exact h1
      · rw [h2]
        simp [IThreadPool.schedule, SimpleThreadPool.scheduleInner]
      · simp only [scheduleAll, List.map_cons, List.cons_append, dequeuedAlong, step,
          dequeuedBy, List.nil_append]
        exact h7

/-- C15: `K` work units scheduled on a fresh pool of `N > 0` threads before `start()`, and
then any interleaving of steps of the workers.  The entries dequeued so far, in the order
of the dequeues, followed by the queue, are the work units in the order of submission.
The run has at most `2 K` worker steps.  When no worker can take a further step the queue
is empty, the work units have been dequeued in exactly the order of submission, and the
log of invocations holds every work unit as often as it was submitted. -/
theorem accumulated_work_runs_fifo (N : Nat) (units : List (Nat × TaskMethod))
    (acts : List Action) (s : System) (hN : 0 < N)
    (hw : ∀ a ∈ acts, a.isWorker = true)
    (h : exec (System.init N) (scheduleAll units ++ Action.start :: acts) = some s) :
    dequeuedAlong (System.init N) (scheduleAll units ++ Action.start :: acts) ++ s.queued
        = units.map (fun u => WorkUnit.pooled u.1)
    ∧ acts.length ≤ 2 * units.length
    ∧ ((∀ a, a.isWorker = true → step s a = none) →
        s.queued = []
        ∧ dequeuedAlong (System.init N) (scheduleAll units ++ Action.start :: acts)
            = units.map (fun u => WorkUnit.pooled u.1)
        ∧ (∀ x, s.started.count x = (units.map (fun u => WorkUnit.pooled u.1)).count x)
        ∧ (∀ u ∈ units, WorkUnit.pooled u.1 ∈ s.started)) := by
  obtain ⟨s0, h0, hq0, hth0, hrun0, hcnt0, hst0, hdq0⟩ :=
    exec_scheduleAll units (System.init N) (Action.start :: acts)
  rw [exec_append, h0] at h
  simp only [Option.some_bind, exec, step] at h
  have hth0' : s0.pool._threads = [] := hth0
  have hq0' : s0.pool._taskQueue
      = units.map (fun u => Bind.bind (Callable.function u.1 u.2)) := by
    rw [hq0]; rfl
  have hstart : s0.pool.start
      = { s0.pool with _run := true,
                       _threads := List.replicate s0.pool._threadCount ThreadState.waiting } := by
    simp [SimpleThreadPool.start, hth0']
  have hcountN : s0.pool._threadCount = N := hcnt0
  have hP : DirectOnly { s0 with pool := s0.pool.start } := by
    rw [hstart]
    refine ⟨rfl, ?_, ?_⟩
    · intro x hx
      exact Or.inl (List.eq_of_mem_replicate hx)
    · intro m hm
      simp only [hq0', List.mem_map] at hm
      obtain ⟨u, -, hu⟩ := hm
      exact ⟨u.1, u.2, hu.symm⟩
  obtain ⟨hPs, hd, hc, hl⟩ := direct_worker_run acts _ s hP hw h
  have hqueued : ({ s0 with pool := s0.pool.start } : System).queued
      = units.map (fun u => WorkUnit.pooled u.1) := by
    rw [queued_eq, hstart]
    simp only [hq0', List.map_map]
    rfl
  have hheld : held ({ s0 with pool := s0.pool.start } : System).pool._threads = [] := by
    rw [hstart]
    apply held_of_idle
    intro x hx m hxm
    rw [List.eq_of_mem_replicate hx] at hxm
    cases hxm
  have hqlen : ({ s0 with pool := s0.pool.start } : System).pool._taskQueue.length
      = units.length := by
    rw [hstart]
    simp [hq0']
  have hdq : dequeuedAlong (System.init N) (scheduleAll units ++ Action.start :: acts)
      = dequeuedAlong { s0 with pool := s0.pool.start } acts := by
    rw [hdq0]
    simp [dequeuedAlong, step, dequeuedBy]
  rw [hqueued] at hd hc
  rw [hheld, hqlen] at hl
  rw [hheld] at hc
  refine ⟨by rw [hdq]; exact hd, by simp at hl; omega, ?_⟩
  intro hquiet
  have hthN : s.pool._threads.length = N := by
    have := (exec_keeps_workers acts _ s hP.1
      (by
        intro a ha
        have := hw a ha
        cases a <;> first | rfl | cases this) h).2.1
    rw [this, hstart]
    simp [hcountN]
  have hidle : ∀ x ∈ s.pool._threads, x = ThreadState.waiting := by
    intro x hx
    obtain ⟨v, hv⟩ := List.mem_iff_getElem?.1 hx
    rcases direct_of_thread hPs hv with h1 | ⟨label, f, h1⟩
    · exact h1
    · subst h1
      obtain ⟨s2, hs2, -⟩ := invoke_function_step s v label f hv
      rw [hquiet (Action.invoke v) rfl] at hs2
      cases hs2
  have hqnil : s.pool._taskQueue = [] := by
    have h0th : s.pool._threads[0]? = some ThreadState.waiting := by
      have hlt : 0 < s.pool._threads.length := by rw [hthN]; exact hN
      rw [List.getElem?_eq_getElem hlt]
      exact congrArg some (hidle _ (List.getElem_mem _))
    have hnone := hquiet (Action.wake 0) rfl
    cases hq : s.pool._taskQueue with
    | nil => rfl
    | cons m rest =>
        simp [step, SimpleThreadPool.threadPoolMethod_wait, h0th, hPs.1, hq] at hnone
  have hqd : s.queued = [] := by rw [queued_eq, hqnil]; rfl
  have hheld2 : held s.pool._threads = [] := by
    apply held_of_idle
    intro x hx m hxm
    rw [hidle x hx] at hxm
    cases hxm
  have hcount : ∀ x, s.started.count x
      = (units.map (fun u => WorkUnit.pooled u.1)).count x := by
    intro x
    have := hc x
    have hs0 : s0.started = [] := hst0
    simp only [hheld2, hqd, hs0, List.count_nil, Nat.add_zero, Nat.zero_add] at this
    exact this
  refine ⟨hqd, ?_, hcount, ?_⟩
  · rw [hdq]
    rw [hqd, List.append_nil] at hd
    exact hd
  · intro u hu
    have hin : WorkUnit.pooled u.1 ∈ units.map (fun u => WorkUnit.pooled u.1) :=
      List.mem_map.2 ⟨u, hu, rfl⟩
    have hpos : 0 < s.started.count (WorkUnit.pooled u.1) := by
      rw [hcount]
      exact List.count_pos_iff.2 hin
    exact List.count_pos_iff.1 hpos

/-! ## A task is at one place at most -/

theorem mem_held {th : List ThreadState} {s : ThreadState} {x : WorkUnit} (hs : s ∈ th)
    (hx : x ∈ s.holds) : x ∈ held th := by
  induction th with
  | nil => cases hs
  | cons a rest ih =>
      simp only [held, List.mem_append]
      rcases List.mem_cons.1 hs with h | h
      · subst h; exact Or.inl hx
      · exact Or.inr (ih h)

theorem located_push (q : List MethodType) (th : List ThreadState) (started : List WorkUnit)
    (m : MethodType) (x : WorkUnit) :
    located (q ++ [m]) th started x
      = located q th started x + (if labelOf m = x then 1 else 0) := by
  simp only [located, List.map_append, List.map_cons, List.map_nil, List.count_append,
    List.count_cons, List.count_nil, beq_iff_eq]
  omega

theorem located_log (q : List MethodType) (th : List ThreadState) (started : List WorkUnit)
    (y x : WorkUnit) :
    located q th (started ++ [y]) x
      = located q th started x + (if y = x then 1 else 0) := by
  simp only [located, List.count_append, List.count_cons, List.count_nil, beq_iff_eq]
  omega

theorem located_set (q : List MethodType) (th : List ThreadState) (started : List WorkUnit)
    (w : Nat) (b c : ThreadState) (x : WorkUnit) (hw : th[w]? = some b) :
    located q (th.set w c) started x + b.holds.count x
      = located q th started x + c.holds.count x := by
  have hc := (held_set_perm th w b c hw).count_eq x
  simp only [List.count_append] at hc
  simp only [located]
  omega

theorem located_wake (m : MethodType) (rest : List MethodType) (th : List ThreadState)
    (started : List WorkUnit) (w : Nat) (x : WorkUnit)
    (hw : th[w]? = some ThreadState.waiting) :
    located rest (th.set w (ThreadState.invoking m)) started x
      = located (m :: rest) th started x := by
  have hc := (held_set_perm th w ThreadState.waiting (ThreadState.invoking m) hw).count_eq x
  simp only [ThreadState.holds, List.nil_append, List.singleton_append] at hc
  simp only [located, List.map_cons, hc, List.count_cons]
  omega

/-- Change of the task records that keeps `Once`: `_childs` only lose entries and the
tasks in them keep their parent link. -/
theorem Once.of_tasks {tasks tasks1 : Nat → Impl} {n : Nat} {q : List MethodType}
    {th : List ThreadState} {started : List WorkUnit} (h : Once tasks n q th started)
    (hsub : ∀ x, ((tasks1 x)._childs).Sublist (tasks x)._childs)
    (hpar : ∀ t c, c ∈ (tasks t)._childs → (tasks1 c)._parent = (tasks c)._parent) :
    Once tasks1 n q th started := by
  refine ⟨h.once, ?_, ?_, h.fresh, ?_⟩
  · intro t c hc
    have hc0 := (hsub t).subset hc
    exact ⟨(h.childWaits t c hc0).1, by rw [hpar t c hc0]; exact (h.childWaits t c hc0).2⟩
  · intro t
    exact (h.childsNodup t).sublist (hsub t)
  · intro t c hc
    exact h.childFresh t c ((hsub t).subset hc)

/-- A new child at the back of `_childs` of `t` keeps `Once` when the child is at no place
yet and refers to `t` as its parent. -/
theorem Once.push_child {tasks : Nat → Impl} {n : Nat} {q : List MethodType}
    {th : List ThreadState} {started : List WorkUnit} (h : Once tasks n q th started)
    (t c : Nat) (hloc : located q th started (WorkUnit.continuation c) = 0)
    (hpar : (tasks c)._parent = some t) (hnew : ∀ u, c ∉ (tasks u)._childs) (hc : c < n) :
    Once (setAt tasks t { tasks t with _childs := (tasks t)._childs ++ [c] }) n q th
      started := by
  have hP : ∀ x, (setAt tasks t { tasks t with _childs := (tasks t)._childs ++ [c] } x)._parent
      = (tasks x)._parent := by
    intro x
    by_cases hx : x = t
    · subst hx; simp
    · rw [setAt_of_ne _ _ hx]
  have hC : ∀ u d, d ∈ (setAt tasks t { tasks t with _childs := (tasks t)._childs ++ [c] }
      u)._childs → d ∈ (tasks u)._childs ∨ (u = t ∧ d = c) := by
    intro u d hd
    by_cases hu : u = t
    · subst hu
      simp only [setAt_same, List.mem_append, List.mem_singleton] at hd
      rcases hd with hd | hd
      · exact Or.inl hd
      · exact Or.inr ⟨rfl, hd⟩
    · rw [setAt_of_ne _ _ hu] at hd
      exact Or.inl hd
  refine ⟨h.once, ?_, ?_, h.fresh, ?_⟩
  · intro u d hd
    rw [hP]
    rcases hC u d hd with h1 | ⟨h1, h2⟩
    · exact h.childWaits u d h1
    · subst h1; subst h2
      exact ⟨hloc, hpar⟩
  · intro u
    by_cases hu : u = t
    · subst hu
      simp only [setAt_same]
      refine List.Nodup.append (h.childsNodup u) (List.nodup_singleton c) ?_
      intro d hd1 hd2
      rw [List.mem_singleton.1 hd2] at hd1
      exact hnew u hd1
    · rw [setAt_of_ne _ _ hu]
      exact h.childsNodup u
  · intro u d hd
    rcases hC u d hd with h1 | ⟨-, h2⟩
    · exact h.childFresh u d h1
    · rw [h2]; exact hc

/-- `std::make_shared<Impl>` keeps `Once` when the new record has no child. -/
theorem Once.alloc_task {tasks : Nat → Impl} {n : Nat} {q : List MethodType}
    {th : List ThreadState} {started : List WorkUnit} (h : Once tasks n q th started)
    (impl : Impl) (hch : impl._childs = []) :
    Once (setAt tasks n impl) (n + 1) q th started := by
  have hC : ∀ u d, d ∈ (setAt tasks n impl u)._childs → d ∈ (tasks u)._childs := by
    intro u d hd
    by_cases hu : u = n
    · subst hu
      rw [setAt_same, hch] at hd
      cases hd
    · rw [setAt_of_ne _ _ hu] at hd
      exact hd
  refine ⟨h.once, ?_, ?_, ?_, ?_⟩
  · intro u d hd
    have hd0 := hC u d hd
    have hdn : d ≠ n := Nat.ne_of_lt (h.childFresh u d hd0)
    rw [setAt_of_ne _ _ hdn]
    exact h.childWaits u d hd0
  · intro u
    by_cases hu : u = n
    · subst hu
      rw [setAt_same, hch]
      exact List.nodup_nil
    · rw [setAt_of_ne _ _ hu]
      exact h.childsNodup u
  · intro c hc
    exact Nat.lt_succ_of_lt (h.fresh c hc)
  · intro u d hd
    exact Nat.lt_succ_of_lt (h.childFresh u d (hC u d hd))

/-- Change of the queue, the threads and the log that keeps `Once`: no task is at more
places than before, except a task that was at no place, is in no `_childs` and exists,
which may be at one place now. -/
theorem Once.of_located {tasks : Nat → Impl} {n : Nat} {q q1 : List MethodType}
    {th th1 : List ThreadState} {started started1 : List WorkUnit}
    (h : Once tasks n q th started)
    (hloc : ∀ c, located q1 th1 started1 (WorkUnit.continuation c)
        ≤ located q th started (WorkUnit.continuation c)
      ∨ (located q1 th1 started1 (WorkUnit.continuation c) = 1
          ∧ located q th started (WorkUnit.continuation c) = 0
          ∧ (∀ t, c ∉ (tasks t)._childs) ∧ c < n)) :
    Once tasks n q1 th1 started1 := by
  refine ⟨?_, ?_, h.childsNodup, ?_, h.childFresh⟩
  · intro c
    rcases hloc c with h1 | ⟨h1, -⟩
    · exact Nat.le_trans h1 (h.once c)
    · rw [h1]
  · intro t c hc
    refine ⟨?_, (h.childWaits t c hc).2⟩
    rcases hloc c with h1 | ⟨-, -, h1, -⟩
    · have := (h.childWaits t c hc).1
      omega
    · exact absurd hc (h1 t)
  · intro c hc
    rcases hloc c with h1 | ⟨-, -, -, h1⟩
    · exact h.fresh c (Nat.lt_of_lt_of_le hc h1)
    · exact h1

theorem once_setTask_same {st : System} (h : st.once) (t : Nat) (impl : Impl)
    (hc : impl._childs = (st.tasks t)._childs) (hp : impl._parent = (st.tasks t)._parent) :
    (st.setTask t impl).once := by
  show Once (setAt st.tasks t impl) st.nextTask _ _ _
  apply Once.of_tasks h
  · intro x
    by_cases hx : x = t
    · subst hx
      rw [setAt_same, hc]
    · rw [setAt_of_ne _ _ hx]
  · intro u c _
    by_cases hx : c = t
    · subst hx
      rw [setAt_same, hp]
    · rw [setAt_of_ne _ _ hx]

theorem once_reset {st : System} (h : st.once) (t : Nat)
    (hnot : ∀ u, t ∉ (st.tasks u)._childs) :
    (st.setTask t { st.tasks t with _method := none, _parent := none }).once := by
  show Once (setAt st.tasks t { st.tasks t with _method := none, _parent := none })
    st.nextTask _ _ _
  apply Once.of_tasks h
  · intro x
    by_cases hx : x = t
    · subst hx
      rw [setAt_same]
    · rw [setAt_of_ne _ _ hx]
  · intro u c hc
    by_cases hx : c = t
    · subst hx
      exact absurd hc (hnot u)
    · rw [setAt_of_ne _ _ hx]

theorem once_pop {st : System} (h : st.once) (t : Nat) :
    (st.setTask t { st.tasks t with _childs := (st.tasks t)._childs.tail }).once := by
  show Once (setAt st.tasks t { st.tasks t with _childs := (st.tasks t)._childs.tail })
    st.nextTask _ _ _
  apply Once.of_tasks h
  · intro x
    by_cases hx : x = t
    · subst hx
      rw [setAt_same]
      exact List.tail_sublist _
    · rw [setAt_of_ne _ _ hx]
  · intro u c _
    by_cases hx : c = t
    · subst hx
      rw [setAt_same]
    · rw [setAt_of_ne _ _ hx]

theorem once_push {st : System} (h : st.once) (c : Nat)
    (hloc : located st.pool._taskQueue st.pool._threads st.started
      (WorkUnit.continuation c) = 0)
    (hnew : ∀ t, c ∉ (st.tasks t)._childs) (hc : c < st.nextTask) :
    (IThreadPool.schedule st (Callable.threadMethod c)).once := by
  show Once st.tasks st.nextTask (st.pool._taskQueue ++ [Bind.bind (Callable.threadMethod c)])
    st.pool._threads st.started
  apply Once.of_located h
  intro d
  rw [located_push]
  by_cases hd : d = c
  · subst hd
    right
    refine ⟨?_, hloc, hnew, hc⟩
    rw [hloc]
    simp [labelOf, Bind.bind]
  · left
    have : labelOf (Bind.bind (Callable.threadMethod c)) ≠ WorkUnit.continuation d := by
      simp only [labelOf, Bind.bind, ne_eq, WorkUnit.continuation.injEq]
      exact fun e => hd e.symm
    simp [this]

theorem once_push_function {st : System} (h : st.once) (label : Nat) (f : TaskMethod) :
    (IThreadPool.schedule st (Callable.function label f)).once := by
  show Once st.tasks st.nextTask
    (st.pool._taskQueue ++ [Bind.bind (Callable.function label f)]) st.pool._threads st.started
  apply Once.of_located h
  intro d
  left
  rw [located_push]
  simp [labelOf, Bind.bind]

theorem once_scheduleNow {st s : System} (h : st.once) {c : Nat}
    (hloc : located st.pool._taskQueue st.pool._threads st.started
      (WorkUnit.continuation c) = 0)
    (hnew : ∀ t, c ∉ (st.tasks t)._childs) (hc : c < st.nextTask)
    (hs : scheduleNow st c = some s) : s.once := by
  rcases scheduleNow_eq_some hs with ⟨-, -, hs⟩ | ⟨-, hs⟩
  · subst hs
    exact once_setTask_same h c _ rfl rfl
  · subst hs
    exact once_push h c hloc hnew hc

theorem once_setThread {st : System} (h : st.once) {w : Nat} {b : ThreadState}
    (hw : st.pool._threads[w]? = some b) (x : ThreadState) (hx : x.holds = []) :
    (st.setThread w x).once := by
  show Once st.tasks st.nextTask st.pool._taskQueue (st.pool._threads.set w x) st.started
  apply Once.of_located h
  intro d
  left
  have := located_set st.pool._taskQueue st.pool._threads st.started w b x
    (WorkUnit.continuation d) hw
  rw [hx] at this
  simp only [List.count_nil, Nat.add_zero] at this
  omega

theorem once_threads_idle {st : System} (h : st.once) (th1 : List ThreadState)
    (h0 : held st.pool._threads = []) (h1 : held th1 = []) :
    Once st.tasks st.nextTask st.pool._taskQueue th1 st.started := by
  apply Once.of_located h
  intro d
  left
  simp only [located, h0, h1]
  exact Nat.le_refl _

theorem located_pos_of_thread {q : List MethodType} {th : List ThreadState}
    {started : List WorkUnit} {w : Nat} {m : MethodType}
    (hw : th[w]? = some (ThreadState.invoking m)) :
    0 < located q th started (labelOf m) := by
  have hin : labelOf m ∈ held th :=
    mem_held (List.getElem?_mem hw) (by simp [ThreadState.holds])
  have := List.count_pos_iff.2 hin
  simp only [located]
  omega

theorem once_alloc_facts {st : System} (h : st.once) :
    located st.pool._taskQueue st.pool._threads st.started
        (WorkUnit.continuation st.nextTask) = 0
      ∧ ∀ t, st.nextTask ∉ (st.tasks t)._childs := by
  constructor
  · by_contra hne
    exact Nat.lt_irrefl _ (h.fresh _ (Nat.pos_of_ne_zero hne))
  · intro t ht
    exact Nat.lt_irrefl _ (h.childFresh t _ ht)

theorem once_withMethod {st s : System} (h : st.once) {method : TaskMethod}
    {tok : CancellationToken}
    (hs : (ContinuationTask.withMethod st method tok).map Prod.fst = some s) : s.once := by
  unfold ContinuationTask.withMethod at hs
  simp only [Option.map_map, Option.map_eq_some', Function.comp_apply] at hs
  obtain ⟨s1, h1, h2⟩ := hs
  subst h2
  obtain ⟨hloc, hnew⟩ := once_alloc_facts h
  have ha : (st.alloc (Impl.withMethod method tok)).1.once :=
    Once.alloc_task h (Impl.withMethod method tok) rfl
  refine once_scheduleNow ha hloc ?_ (Nat.lt_succ_self _) h1
  intro t ht
  by_cases htn : t = st.nextTask
  · subst htn
    simp [System.alloc, Impl.withMethod] at ht
  · have e : (st.alloc (Impl.withMethod method tok)).1.tasks t = st.tasks t :=
      setAt_of_ne _ _ htn
    rw [e] at ht
    exact hnew t ht

theorem once_continue_with {st s : System} (h : st.once) {parent : Nat} {method : TaskMethod}
    (hex : parent < st.nextTask)
    (hs : (continue_with st parent method).map Prod.fst = some s) : s.once := by
  have hne : parent ≠ st.nextTask := Nat.ne_of_lt hex
  unfold continue_with at hs
  split at hs
  · simp at hs
  · simp only [Option.map_map, Option.map_eq_some', Function.comp_apply] at hs
    obtain ⟨s1, h1, h2⟩ := hs
    subst h2
    obtain ⟨hloc, hnew⟩ := once_alloc_facts h
    have ha : (st.alloc (Impl.child parent (st.tasks parent) method)).1.once :=
      Once.alloc_task h (Impl.child parent (st.tasks parent) method) rfl
    have hnew1 : ∀ t, st.nextTask
        ∉ ((st.alloc (Impl.child parent (st.tasks parent) method)).1.tasks t)._childs := by
      intro t ht
      by_cases htn : t = st.nextTask
      · subst htn
        simp [System.alloc, Impl.child] at ht
      · have e : (st.alloc (Impl.child parent (st.tasks parent) method)).1.tasks t
            = st.tasks t := setAt_of_ne _ _ htn
        rw [e] at ht
        exact hnew t ht
    rcases schedule_eq_some h1 with ⟨-, hs1⟩ | ⟨-, hs1⟩
    · subst hs1
      exact Once.push_child ha parent st.nextTask hloc
        (by simp [System.alloc, Impl.child]) hnew1 (Nat.lt_succ_self _)
    · exact once_scheduleNow ha hloc hnew1 (Nat.lt_succ_self _) hs1

theorem once_begin {st s : System} (h : st.once) {w t : Nat} {task : MethodType}
    (hw : st.pool._threads[w]? = some (ThreadState.invoking task))
    (hfn : task._function = Callable.threadMethod t)
    (hs : threadMethod_begin st w t = some s) : s.once := by
  have hlab : labelOf task = WorkUnit.continuation t := by simp [labelOf, hfn]
  have hpos : 0 < located st.pool._taskQueue st.pool._threads st.started
      (WorkUnit.continuation t) := by
    rw [← hlab]; exact located_pos_of_thread hw
  have hnot : ∀ u, t ∉ (st.tasks u)._childs := by
    intro u hu
    have := (h.childWaits u t hu).1
    omega
  have hr := once_reset h t hnot
  unfold threadMethod_begin at hs
  split at hs
  · simp only [Option.map_eq_some'] at hs
    obtain ⟨s1, h1, h2⟩ := hs
    subst h2
    obtain ⟨-, hs1⟩ := set_exception_eq_some h1
    subst hs1
    refine once_setThread (b := ThreadState.invoking task) ?_ ?_ (ThreadState.completed t) rfl
    · exact once_setTask_same hr t _ rfl rfl
    · exact hw
  · cases hs
    show Once (setAt st.tasks t { st.tasks t with _method := none, _parent := none })
      st.nextTask st.pool._taskQueue
      (st.pool._threads.set w (ThreadState.running t (st.tasks t)._method))
      (st.started ++ [WorkUnit.continuation t])
    have hr1 : Once (setAt st.tasks t { st.tasks t with _method := none, _parent := none })
        st.nextTask st.pool._taskQueue st.pool._threads st.started := hr
    apply Once.of_located hr1
    intro d
    left
    have e1 := located_set st.pool._taskQueue st.pool._threads st.started w
      (ThreadState.invoking task) (ThreadState.running t (st.tasks t)._method)
      (WorkUnit.continuation d) hw
    rw [located_log]
    simp only [ThreadState.holds, hlab, List.count_cons, List.count_nil, beq_iff_eq,
      Nat.add_zero, Nat.zero_add] at e1
    omega

theorem once_drain {st s : System} (h : st.once) {w t : Nat}
    (hw : st.pool._threads[w]? = some (ThreadState.draining t))
    (hs : threadMethod_drain st w t = some s) : s.once := by
  unfold threadMethod_drain at hs
  split at hs
  · cases hs
    refine once_setThread (b := ThreadState.draining t) ?_ ?_ ThreadState.waiting rfl
    · exact once_setTask_same h t _ rfl rfl
    · exact hw
  · rename_i front rest hch
    simp only [Option.map_eq_some'] at hs
    obtain ⟨s1, h1, h2⟩ := hs
    subst h2
    have hmem : front ∈ (st.tasks t)._childs := by
      rw [hch]; exact List.mem_cons_self _ _
    obtain ⟨hloc, hpar⟩ := h.childWaits t front hmem
    rcases scheduleNow_eq_some h1 with ⟨-, -, hs1⟩ | ⟨-, hs1⟩
    · subst hs1
      refine once_pop ?_ t
      exact once_setTask_same h front _ rfl rfl
    · subst hs1
      have hnodup := h.childsNodup t
      rw [hch] at hnodup
      have hp := once_pop h t
      have hnew : ∀ u, front ∉ ((st.setTask t
          { st.tasks t with _childs := (st.tasks t)._childs.tail }).tasks u)._childs := by
        intro u hu
        by_cases hut : u = t
        · subst hut
          simp only [System.setTask, setAt_same, hch, List.tail_cons] at hu
          exact (List.nodup_cons.1 hnodup).1 hu
        · have e : (st.setTask t { st.tasks t with
              _childs := (st.tasks t)._childs.tail }).tasks u = st.tasks u :=
            setAt_of_ne _ _ hut
          rw [e] at hu
          have := (h.childWaits u front hu).2
          rw [hpar] at this
          exact hut (Option.some.inj this).symm
      exact once_push hp front hloc hnew (h.childFresh t front hmem)

/-- Every step keeps `Once`. -/
theorem step_once {st s : System} {a : Action} (h : st.once) (hs : step st a = some s) :
    s.once := by
  cases a with
  | newSource => cases hs; exact h
  | cancel cs =>
      simp only [step] at hs
      split at hs
      · cases hs; exact h
      · cases hs
  | newFulfilled tok =>
      simp only [step] at hs
      split at hs
      · cases hs
        exact Once.alloc_task h (Impl.fulfilled tok) rfl
      · cases hs
  | newTask method tok =>
      simp only [step] at hs
      split at hs
      · exact once_withMethod h hs
      · cases hs
  | newCancelableTask method tok =>
      simp only [step, ContinuationTask.withCancelableMethod] at hs
      split at hs
      · exact once_withMethod h hs
      · cases hs
  | continue_with parent method =>
      simp only [step] at hs
      split at hs
      · rename_i hex
        exact once_continue_with h hex hs
      · cases hs
  | schedule label f =>
      cases hs
      exact once_push_function h label f
  | get task =>
      obtain ⟨-, -, -, rfl⟩ := get_step_eq hs
      exact once_setTask_same h task { st.tasks task with _futureValid := false } rfl rfl
  | start =>
      cases hs
      show Once st.tasks st.nextTask st.pool.start._taskQueue st.pool.start._threads st.started
      unfold SimpleThreadPool.start
      split
      · rename_i hem
        apply once_threads_idle h
        · rw [List.isEmpty_iff.1 hem]
          rfl
        · apply held_of_idle
          intro x hx m hxm
          rw [List.eq_of_mem_replicate hx] at hxm
          cases hxm
      · exact h
  | stopSignal => cases hs; exact h
  | stopJoin =>
      simp only [step, SimpleThreadPool.stopJoin, Option.map_eq_some'] at hs
      obtain ⟨p, h1, h2⟩ := hs
      subst h2
      split at h1
      · rename_i hall
        cases h1
        apply once_threads_idle h
        · apply held_of_idle
          intro x hx m hxm
          have := List.all_eq_true.1 hall x hx
          rw [hxm] at this
          cases this
        · rfl
      · cases h1
  | popExceptions => cases hs; exact h
  | wake w =>
      simp only [step, SimpleThreadPool.threadPoolMethod_wait, Option.map_eq_some'] at hs
      obtain ⟨p, h1, h2⟩ := hs
      subst h2
      split at h1
      · rename_i hw
        split at h1
        · cases h1
          exact once_setThread h hw ThreadState.exited rfl
        · split at h1
          · cases h1
          · rename_i task rest hq
            cases h1
            show Once st.tasks st.nextTask rest
              (st.pool._threads.set w (ThreadState.invoking task)) st.started
            have h0 : Once st.tasks st.nextTask (task :: rest) st.pool._threads st.started := by
              rw [← hq]; exact h
            apply Once.of_located h0
            intro d
            left
            rw [located_wake task rest st.pool._threads st.started w _ hw]
      · cases h1
  | invoke w =>
      simp only [step] at hs
      split at hs
      · rename_i task hw
        unfold threadPoolMethod_invoke at hs
        split at hs
        · cases hs
        · split at hs
          · rename_i label f hfn
            have hlab : labelOf task = WorkUnit.pooled label := by simp [labelOf, hfn]
            have key : Once st.tasks st.nextTask st.pool._taskQueue
                (st.pool._threads.set w ThreadState.waiting)
                (st.started ++ [WorkUnit.pooled label]) := by
              apply Once.of_located h
              intro d
              left
              have e1 := located_set st.pool._taskQueue st.pool._threads st.started w
                (ThreadState.invoking task) ThreadState.waiting (WorkUnit.continuation d) hw
              rw [located_log]
              simp only [ThreadState.holds, hlab, List.count_cons, List.count_nil, beq_iff_eq,
                Nat.add_zero, Nat.zero_add, reduceCtorEq, if_false] at e1
              simp only [reduceCtorEq, if_false, Nat.add_zero]
              omega
            split at hs
            · cases hs
              exact key
            · cases hs
              exact key
          · rename_i t hfn
            exact once_begin h hw hfn hs
      · cases hs
  | finish w =>
      simp only [step] at hs
      split at hs
      · rename_i t method hw
        unfold threadMethod_finish at hs
        simp only [Option.map_eq_some'] at hs
        obtain ⟨s1, h1, h2⟩ := hs
        subst h2
        obtain ⟨-, hs1⟩ := complete_eq_some h1
        subst hs1
        refine once_setThread (b := ThreadState.running t method) ?_ ?_
          (ThreadState.completed t) rfl
        · exact once_setTask_same h t _ rfl rfl
        · exact hw
      · cases hs
  | lock w =>
      simp only [step] at hs
      split at hs
      · rename_i t hw
        unfold threadMethod_lock at hs
        split at hs
        · cases hs
        · cases hs
          refine once_setThread (b := ThreadState.completed t) ?_ ?_
            (ThreadState.draining t) rfl
          · exact once_setTask_same h t _ rfl rfl
          · exact hw
      · cases hs
  | drain w =>
      simp only [step] at hs
      split at hs
      · rename_i t hw
        exact once_drain h hw hs
      · cases hs

theorem init_once (n : Nat) : (System.init n).once := by
  refine ⟨?_, ?_, ?_, ?_, ?_⟩
  · intro c
    simp [located, System.init, SimpleThreadPool.create, held]
  · intro t c hc
    cases hc
  · intro t
    exact List.nodup_nil
  · intro c hc
    simp [located, System.init, SimpleThreadPool.create, held] at hc
  · intro t c hc
    cases hc

theorem exec_once (acts : List Action) :
    ∀ st s : System, st.once → exec st acts = some s → s.once := by
  induction acts with
  | nil =>
      intro st s h hs
      cases hs
      exact h
  | cons a rest ih =>
      intro st s h hs
      simp only [exec, Option.bind_eq_some] at hs
      obtain ⟨s1, h1, h2⟩ := hs
      exact ih s1 s (step_once h h1) h2

/-! ## No task is lost -/

theorem exists_mem_set {th : List ThreadState} {w : Nat} {b x : ThreadState}
    (f : ThreadState → Option Nat) {t : Nat} (hw : th[w]? = some b)
    (hex : ∃ s ∈ th, f s = some t) (hbx : f b = some t → f x = some t) :
    ∃ s ∈ th.set w x, f s = some t := by
  obtain ⟨s0, hs0, hf⟩ := hex
  obtain ⟨i, hi⟩ := List.mem_iff_getElem?.1 hs0
  have hlt := lt_length_of_getElem? hw
  by_cases hiw : i = w
  · subst hiw
    rw [hw] at hi
    cases hi
    exact ⟨x, List.getElem?_mem (List.getElem?_set_self hlt), hbx hf⟩
  · refine ⟨s0, ?_, hf⟩
    apply List.getElem?_mem (n := i)
    rw [List.getElem?_set_ne (fun e => hiw e.symm)]
    exact hi

theorem inside_of_runs {s : ThreadState} {t : Nat} (h : s.runs = some t) :
    s.inside = some t := by
  cases s with
  | running u m => exact h
  | waiting => cases h
  | invoking m => cases h
  | completed u => cases h
  | draining u => cases h
  | exited => cases h

theorem holds_of_inside {s : ThreadState} {t : Nat} (h : s.inside = some t) :
    s.holds = [] := by
  cases s with
  | invoking m => cases h
  | running u m => rfl
  | waiting => rfl
  | completed u => rfl
  | draining u => rfl
  | exited => rfl

/-- A change of records that touches neither `_method` nor `_childs` and sets no promise
back to pending keeps `Kept`. -/
theorem Kept.tasks_simple {tasks tasks1 : Nat → Impl} {n : Nat} {q : List MethodType}
    {th : List ThreadState} (h : Kept tasks n q th)
    (hm : ∀ x, (tasks1 x)._method = (tasks x)._method)
    (hc : ∀ x, (tasks1 x)._childs = (tasks x)._childs)
    (hf : ∀ x, (tasks1 x)._future = FutureState.pending →
      (tasks x)._future = FutureState.pending) :
    Kept tasks1 n q th := by
  refine ⟨?_, ?_, ?_, ?_⟩
  · intro t ht hmt hct
    rw [hm] at hmt
    rw [hc] at hct
    exact h.drained t ht hmt hct
  · intro t ht hmt hft
    rw [hm] at hmt
    exact h.running t ht hmt (hf t hft)
  · intro c hcn hmc hfc
    rw [hm] at hmc
    rcases h.notLost c hcn hmc (hf c hfc) with ⟨t, ht⟩ | hl
    · exact Or.inl ⟨t, by rw [hc]; exact ht⟩
    · exact Or.inr hl
  · intro t ht
    rw [hc]
    exact h.unborn t ht

/-- A change of the queue and the threads keeps `Kept` when the workers that are needed
inside a task are still there and a task that was in the queue or in a hand still is. -/
theorem Kept.pool {tasks : Nat → Impl} {n : Nat} {q q1 : List MethodType}
    {th th1 : List ThreadState} (h : Kept tasks n q th)
    (hin : ∀ t, (tasks t)._method = none → (tasks t)._childs ≠ [] →
      (∃ s ∈ th, s.inside = some t) → ∃ s ∈ th1, s.inside = some t)
    (hrun : ∀ t, (tasks t)._method = none → (tasks t)._future = FutureState.pending →
      (∃ s ∈ th, s.runs = some t) → ∃ s ∈ th1, s.runs = some t)
    (hloc : ∀ c, (tasks c)._method ≠ none →
      0 < located q th [] (WorkUnit.continuation c) →
      0 < located q1 th1 [] (WorkUnit.continuation c)) :
    Kept tasks n q1 th1 := by
  refine ⟨?_, ?_, ?_, h.unborn⟩
  · intro t ht hmt hct
    exact hin t hmt hct (h.drained t ht hmt hct)
  · intro t ht hmt hft
    exact hrun t hmt hft (h.running t ht hmt hft)
  · intro c hcn hmc hfc
    rcases h.notLost c hcn hmc hfc with h1 | h1
    · exact Or.inl h1
    · exact Or.inr (hloc c hmc h1)

/-- A thread that moves from a place outside `threadMethod` to a place without a work
unit in hand, or from a hand holding a directly scheduled work unit. -/
theorem kept_setThread {st : System} (h : st.kept) {w : Nat} {b : ThreadState}
    (hw : st.pool._threads[w]? = some b) (x : ThreadState)
    (hin : ∀ t, b.inside = some t → (st.tasks t)._method = none →
      (st.tasks t)._childs ≠ [] → x.inside = some t)
    (hrun : ∀ t, b.runs = some t → (st.tasks t)._method = none →
      (st.tasks t)._future = FutureState.pending → x.runs = some t)
    (hb : ∀ c, WorkUnit.continuation c ∈ b.holds → (st.tasks c)._method = none) :
    (st.setThread w x).kept := by
  show Kept st.tasks st.nextTask st.pool._taskQueue (st.pool._threads.set w x)
  apply Kept.pool h
  · intro t hmt hct hex
    exact exists_mem_set ThreadState.inside hw hex (fun hb1 => hin t hb1 hmt hct)
  · intro t hmt hft hex
    exact exists_mem_set ThreadState.runs hw hex (fun hb1 => hrun t hb1 hmt hft)
  · intro c hmc hpos
    have e := located_set st.pool._taskQueue st.pool._threads [] w b x
      (WorkUnit.continuation c) hw
    have hz : b.holds.count (WorkUnit.continuation c) = 0 := by
      apply List.count_eq_zero.2
      intro hmem
      exact hmc (hb c hmem)
    omega

theorem kept_push {st : System} (h : st.kept) (fn : Callable) :
    (IThreadPool.schedule st fn).kept := by
  show Kept st.tasks st.nextTask (st.pool._taskQueue ++ [Bind.bind fn]) st.pool._threads
  apply Kept.pool h
  · intro t _ _ hex; exact hex
  · intro t _ _ hex; exact hex
  · intro c _ hpos
    rw [located_push]
    omega

theorem kept_setTask_simple {st : System} (h : st.kept) (t : Nat) (impl : Impl)
    (hm : impl._method = (st.tasks t)._method) (hc : impl._childs = (st.tasks t)._childs)
    (hf : impl._future = FutureState.pending → (st.tasks t)._future = FutureState.pending) :
    (st.setTask t impl).kept := by
  show Kept (setAt st.tasks t impl) st.nextTask _ _
  apply Kept.tasks_simple h
  · intro x
    by_cases hx : x = t
    · subst hx; rw [setAt_same, hm]
    · rw [setAt_of_ne _ _ hx]
  · intro x
    by_cases hx : x = t
    · subst hx; rw [setAt_same, hc]
    · rw [setAt_of_ne _ _ hx]
  · intro x hx0
    by_cases hx : x = t
    · subst hx
      rw [setAt_same] at hx0
      exact hf hx0
    · rw [setAt_of_ne _ _ hx] at hx0
      exact hx0

theorem Kept.alloc0 {tasks : Nat → Impl} {n : Nat} {q : List MethodType}
    {th : List ThreadState} (h : Kept tasks n q th) (impl : Impl) (hch : impl._childs = []) :
    Kept (setAt tasks n impl) n q th := by
  have hold : ∀ x, x < n → setAt tasks n impl x = tasks x :=
    fun x hx => setAt_of_ne _ _ (Nat.ne_of_lt hx)
  refine ⟨?_, ?_, ?_, ?_⟩
  · intro t ht hmt hct
    rw [hold t ht] at hmt hct
    exact h.drained t ht hmt hct
  · intro t ht hmt hft
    rw [hold t ht] at hmt hft
    exact h.running t ht hmt hft
  · intro c hcn hmc hfc
    rw [hold c hcn] at hmc hfc
    rcases h.notLost c hcn hmc hfc with ⟨t, ht⟩ | hl
    · left
      refine ⟨t, ?_⟩
      by_cases htn : t = n
      · subst htn
        rw [h.unborn t (Nat.le_refl _)] at ht
        cases ht
      · rw [setAt_of_ne _ _ htn]
        exact ht
    · exact Or.inr hl
  · intro t ht
    by_cases htn : t = n
    · subst htn
      rw [setAt_same, hch]
    · rw [setAt_of_ne _ _ htn]
      exact h.unborn t ht

theorem Kept.bump {tasks : Nat → Impl} {n : Nat} {q : List MethodType}
    {th : List ThreadState} (h : Kept tasks n q th)
    (hd : (tasks n)._method = none → (tasks n)._childs ≠ [] → ∃ s ∈ th, s.inside = some n)
    (hr : (tasks n)._method = none → (tasks n)._future = FutureState.pending →
      ∃ s ∈ th, s.runs = some n)
    (hl : (tasks n)._method ≠ none → (tasks n)._future = FutureState.pending →
      (∃ t, n ∈ (tasks t)._childs) ∨ 0 < located q th [] (WorkUnit.continuation n)) :
    Kept tasks (n + 1) q th := by
  refine ⟨?_, ?_, ?_, ?_⟩
  · intro t ht hmt hct
    rcases Nat.lt_succ_iff_lt_or_eq.1 ht with h1 | h1
    · exact h.drained t h1 hmt hct
    · subst h1; exact hd hmt hct
  · intro t ht hmt hft
    rcases Nat.lt_succ_iff_lt_or_eq.1 ht with h1 | h1
    · exact h.running t h1 hmt hft
    · subst h1; exact hr hmt hft
  · intro c hcn hmc hfc
    rcases Nat.lt_succ_iff_lt_or_eq.1 hcn with h1 | h1
    · exact h.notLost c h1 hmc hfc
    · subst h1; exact hl hmc hfc
  · intro t ht
    exact h.unborn t (Nat.le_of_succ_le ht)

theorem Kept.append_child {tasks : Nat → Impl} {n : Nat} {q : List MethodType}
    {th : List ThreadState} (h : Kept tasks n q th) (t c : Nat) (ht : t < n)
    (hD : (tasks t)._method = none → ∃ s ∈ th, s.inside = some t) :
    Kept (setAt tasks t { tasks t with _childs := (tasks t)._childs ++ [c] }) n q th := by
  have hM : ∀ x, (setAt tasks t { tasks t with _childs := (tasks t)._childs ++ [c] } x)._method
      = (tasks x)._method := by
    intro x
    by_cases hx : x = t
    · subst hx; simp
    · rw [setAt_of_ne _ _ hx]
  have hF : ∀ x, (setAt tasks t { tasks t with _childs := (tasks t)._childs ++ [c] } x)._future
      = (tasks x)._future := by
    intro x
    by_cases hx : x = t
    · subst hx; simp
    · rw [setAt_of_ne _ _ hx]
  have hC : ∀ x d, d ∈ (tasks x)._childs →
      d ∈ (setAt tasks t { tasks t with _childs := (tasks t)._childs ++ [c] } x)._childs := by
    intro x d hd
    by_cases hx : x = t
    · subst hx
      simp only [setAt_same, List.mem_append]
      exact Or.inl hd
    · rw [setAt_of_ne _ _ hx]
      exact hd
  refine ⟨?_, ?_, ?_, ?_⟩
  · intro u hu hmu hcu
    rw [hM] at hmu
    by_cases hut : u = t
    · subst hut
      exact hD hmu
    · rw [setAt_of_ne _ _ hut] at hcu
      exact h.drained u hu hmu hcu
  · intro u hu hmu hfu
    rw [hM] at hmu
    rw [hF] at hfu
    exact h.running u hu hmu hfu
  · intro d hdn hmd hfd
    rw [hM] at hmd
    rw [hF] at hfd
    rcases h.notLost d hdn hmd hfd with ⟨u, hu⟩ | hl
    · exact Or.inl ⟨u, hC u d hu⟩
    · exact Or.inr hl
  · intro u hu
    have hut : u ≠ t := fun e => by
      subst e
      exact Nat.lt_irrefl _ (Nat.lt_of_lt_of_le ht hu)
    rw [setAt_of_ne _ _ hut]
    exact h.unborn u hu

theorem Kept.pop {tasks : Nat → Impl} {n : Nat} {q : List MethodType}
    {th : List ThreadState} (h : Kept tasks n q th) (t front : Nat) (rest : List Nat)
    (hch : (tasks t)._childs = front :: rest)
    (hfront : (tasks front)._future ≠ FutureState.pending
      ∨ 0 < located q th [] (WorkUnit.continuation front)) :
    Kept (setAt tasks t { tasks t with _childs := (tasks t)._childs.tail }) n q th := by
  have hM : ∀ x, (setAt tasks t { tasks t with _childs := (tasks t)._childs.tail } x)._method
      = (tasks x)._method := by
    intro x
    by_cases hx : x = t
    · subst hx; simp
    · rw [setAt_of_ne _ _ hx]
  have hF : ∀ x, (setAt tasks t { tasks t with _childs := (tasks t)._childs.tail } x)._future
      = (tasks x)._future := by
    intro x
    by_cases hx : x = t
    · subst hx; simp
    · rw [setAt_of_ne _ _ hx]
  refine ⟨?_, ?_, ?_, ?_⟩
  · intro u hu hmu hcu
    rw [hM] at hmu
    by_cases hut : u = t
    · subst hut
      apply h.drained u hu hmu
      rw [hch]
      exact List.cons_ne_nil _ _
    · rw [setAt_of_ne _ _ hut] at hcu
      exact h.drained u hu hmu hcu
  · intro u hu hmu hfu
    rw [hM] at hmu
    rw [hF] at hfu
    exact h.running u hu hmu hfu
  · intro d hdn hmd hfd
    rw [hM] at hmd
    rw [hF] at hfd
    rcases h.notLost d hdn hmd hfd with ⟨u, hu⟩ | hl
    · by_cases hut : u = t
      · subst hut
        rw [hch] at hu
        rcases List.mem_cons.1 hu with hd | hd
        · subst hd
          rcases hfront with h1 | h1
          · exact absurd hfd h1
          · exact Or.inr h1
        · left
          refine ⟨u, ?_⟩
          simp only [setAt_same, hch, List.tail_cons]
          exact hd
      · left
        refine ⟨u, ?_⟩
        rw [setAt_of_ne _ _ hut]
        exact hu
    · exact Or.inr hl
  · intro u hu
    by_cases hut : u = t
    · subst hut
      simp only [setAt_same, h.unborn u hu, List.tail_nil]
    · rw [setAt_of_ne _ _ hut]
      exact h.unborn u hu

/-- The entry of a worker into `threadMethod` of the task it has in hand keeps `Kept`. -/
theorem Kept.enter {tasks tasks1 : Nat → Impl} {n : Nat} {q : List MethodType}
    {th : List ThreadState} (h : Kept tasks n q th) {w t : Nat} {task : MethodType}
    (x : ThreadState) (hw : th[w]? = some (ThreadState.invoking task))
    (hlab : labelOf task = WorkUnit.continuation t)
    (hother : ∀ u, u ≠ t → tasks1 u = tasks u)
    (hm : (tasks1 t)._method = none) (hc : (tasks1 t)._childs = (tasks t)._childs)
    (hx : x.inside = some t)
    (hxr : (tasks1 t)._future = FutureState.pending → x.runs = some t) :
    Kept tasks1 n q (th.set w x) := by
  have hlt := lt_length_of_getElem? hw
  have hxin : x ∈ th.set w x := List.getElem?_mem (List.getElem?_set_self hlt)
  have hC : ∀ u, (tasks1 u)._childs = (tasks u)._childs := by
    intro u
    by_cases hu : u = t
    · subst hu; exact hc
    · rw [hother u hu]
  refine ⟨?_, ?_, ?_, ?_⟩
  · intro u hu hmu hcu
    by_cases hut : u = t
    · subst hut
      exact ⟨x, hxin, hx⟩
    · rw [hother u hut] at hmu hcu
      exact exists_mem_set ThreadState.inside hw (h.drained u hu hmu hcu)
        (fun hb => by cases hb)
  · intro u hu hmu hfu
    by_cases hut : u = t
    · subst hut
      exact ⟨x, hxin, hxr hfu⟩
    · rw [hother u hut] at hmu hfu
      exact exists_mem_set ThreadState.runs hw (h.running u hu hmu hfu)
        (fun hb => by cases hb)
  · intro c hcn hmc hfc
    by_cases hct : c = t
    · subst hct
      exact absurd hm hmc
    · rw [hother c hct] at hmc hfc
      rcases h.notLost c hcn hmc hfc with ⟨u, hu⟩ | hl
      · exact Or.inl ⟨u, by rw [hC]; exact hu⟩
      · right
        have e := located_set q th [] w (ThreadState.invoking task) x
          (WorkUnit.continuation c) hw
        have hne : WorkUnit.continuation t ≠ WorkUnit.continuation c := by
          intro e1
          cases e1
          exact hct rfl
        simp only [ThreadState.holds, hlab, holds_of_inside hx, List.count_cons,
          List.count_nil, beq_iff_eq, hne, if_false, Nat.add_zero] at e
        omega
  · intro u hu
    rw [hC]
    exact h.unborn u hu

theorem located_pushed_pos (q : List MethodType) (th : List ThreadState) (c : Nat) :
    0 < located (q ++ [Bind.bind (Callable.threadMethod c)]) th [] (WorkUnit.continuation c) := by
  rw [located_push]
  simp [labelOf, Bind.bind]

theorem kept_alloc_scheduleNow {st s : System} (h : st.kept) (impl : Impl)
    (hch : impl._childs = []) (hm : impl._method ≠ none)
    (hs : scheduleNow (st.alloc impl).1 st.nextTask = some s) : s.kept := by
  have a0 : Kept (setAt st.tasks st.nextTask impl) st.nextTask st.pool._taskQueue
      st.pool._threads := Kept.alloc0 h impl hch
  rcases scheduleNow_eq_some hs with ⟨-, -, hs1⟩ | ⟨-, hs1⟩
  · subst hs1
    show Kept (setAt (setAt st.tasks st.nextTask impl) st.nextTask
        { (setAt st.tasks st.nextTask impl) st.nextTask with
          _future := FutureState.exception Exn.CanceledException })
      (st.nextTask + 1) st.pool._taskQueue st.pool._threads
    have a1 : Kept (setAt (setAt st.tasks st.nextTask impl) st.nextTask
        { (setAt st.tasks st.nextTask impl) st.nextTask with
          _future := FutureState.exception Exn.CanceledException })
        st.nextTask st.pool._taskQueue st.pool._threads := by
      apply Kept.tasks_simple a0
      · intro x
        by_cases hx : x = st.nextTask
        · subst hx; simp
        · rw [setAt_of_ne _ _ hx]
      · intro x
        by_cases hx : x = st.nextTask
        · subst hx; simp
        · rw [setAt_of_ne _ _ hx]
      · intro x hx0
        by_cases hx : x = st.nextTask
        · subst hx; simp at hx0
        · rw [setAt_of_ne _ _ hx] at hx0; exact hx0
    apply a1.bump
    · intro hm0
      simp at hm0
      exact absurd hm0 hm
    · intro hm0
      simp at hm0
      exact absurd hm0 hm
    · intro _ hf
      simp at hf
  · subst hs1
    show Kept (setAt st.tasks st.nextTask impl) (st.nextTask + 1)
      (st.pool._taskQueue ++ [Bind.bind (Callable.threadMethod st.nextTask)]) st.pool._threads
    have a1 : Kept (setAt st.tasks st.nextTask impl) st.nextTask
        (st.pool._taskQueue ++ [Bind.bind (Callable.threadMethod st.nextTask)])
        st.pool._threads := by
      apply Kept.pool a0
      · intro t _ _ hex; exact hex
      · intro t _ _ hex; exact hex
      · intro c _ hpos
        rw [located_push]
        omega
    apply a1.bump
    · intro hm0
      simp at hm0
      exact absurd hm0 hm
    · intro hm0
      simp at hm0
      exact absurd hm0 hm
    · intro _ _
      exact Or.inr (located_pushed_pos _ _ _)

theorem kept_continue_with {st s : System} (h : st.kept) {parent : Nat} {method : TaskMethod}
    (hex : parent < st.nextTask)
    (hs : (continue_with st parent method).map Prod.fst = some s) : s.kept := by
  have hne : parent ≠ st.nextTask := Nat.ne_of_lt hex
  unfold continue_with at hs
  split at hs
  · simp at hs
  · simp only [Option.map_map, Option.map_eq_some', Function.comp_apply] at hs
    obtain ⟨s1, h1, h2⟩ := hs
    subst h2
    rcases schedule_eq_some h1 with ⟨hp1, hs1⟩ | ⟨-, hs1⟩
    · subst hs1
      have a0 : Kept (setAt st.tasks st.nextTask (Impl.child parent (st.tasks parent) method))
          st.nextTask st.pool._taskQueue st.pool._threads :=
        Kept.alloc0 h _ rfl
      have hpar : setAt st.tasks st.nextTask (Impl.child parent (st.tasks parent) method) parent
          = st.tasks parent := setAt_of_ne _ _ hne
      have hp2 : (st.tasks parent)._future = FutureState.pending := by
        have : ((st.alloc (Impl.child parent (st.tasks parent) method)).1.tasks parent)
            = st.tasks parent := hpar
        rw [this] at hp1
        exact hp1
      have a1 := Kept.append_child a0 parent st.nextTask hex
        (by
          intro hm0
          rw [hpar] at hm0
          obtain ⟨x, hx, hr⟩ := h.running parent hex hm0 hp2
          exact ⟨x, hx, inside_of_runs hr⟩)
      show Kept _ (st.nextTask + 1) st.pool._taskQueue st.pool._threads
      apply a1.bump
      · intro hm0
        rw [setAt_of_ne _ _ (Ne.symm hne)] at hm0
        simp [Impl.child] at hm0
      · intro hm0
        rw [setAt_of_ne _ _ (Ne.symm hne)] at hm0
        simp [Impl.child] at hm0
      · intro _ _
        left
        refine ⟨parent, ?_⟩
        simp
    · exact kept_alloc_scheduleNow h _ rfl (by simp [Impl.child]) hs1

theorem kept_begin {st s : System} (h : st.kept) {w t : Nat} {task : MethodType}
    (hw : st.pool._threads[w]? = some (ThreadState.invoking task))
    (hfn : task._function = Callable.threadMethod t)
    (hs : threadMethod_begin st w t = some s) : s.kept := by
  have hlab : labelOf task = WorkUnit.continuation t := by simp [labelOf, hfn]
  unfold threadMethod_begin at hs
  split at hs
  · simp only [Option.map_eq_some'] at hs
    obtain ⟨s1, h1, h2⟩ := hs
    subst h2
    obtain ⟨-, hs1⟩ := set_exception_eq_some h1
    subst hs1
    refine Kept.enter h (ThreadState.completed t) hw hlab ?_ ?_ ?_ rfl ?_
    · intro u hu
      simp [System.setTask, System.setThread, setAt_of_ne _ _ hu]
    · simp [System.setTask, System.setThread]
    · simp [System.setTask, System.setThread]
    · intro hf
      simp [System.setTask, System.setThread] at hf
  · cases hs
    refine Kept.enter h (ThreadState.running t (st.tasks t)._method) hw hlab ?_ ?_ ?_ rfl ?_
    · intro u hu
      simp [System.setTask, System.setThread, setAt_of_ne _ _ hu]
    · simp [System.setTask, System.setThread]
    · simp [System.setTask, System.setThread]
    · intro _
      rfl

theorem kept_drain {st s : System} (h : st.kept) {w t : Nat}
    (hw : st.pool._threads[w]? = some (ThreadState.draining t))
    (hs : threadMethod_drain st w t = some s) : s.kept := by
  unfold threadMethod_drain at hs
  split at hs
  · rename_i hch
    cases hs
    refine kept_setThread (b := ThreadState.draining t) ?_ ?_ ThreadState.waiting ?_ ?_ ?_
    · exact kept_setTask_simple h t _ rfl rfl (fun hf => hf)
    · exact hw
    · intro u hu _ hcu
      cases hu
      simp [System.setTask, hch] at hcu
    · intro u hu
      cases hu
    · intro c hc
      cases hc
  · rename_i front rest hch
    simp only [Option.map_eq_some'] at hs
    obtain ⟨s1, h1, h2⟩ := hs
    subst h2
    rcases scheduleNow_eq_some h1 with ⟨-, -, hs1⟩ | ⟨-, hs1⟩
    · subst hs1
      have k1 := kept_setTask_simple h front
        { st.tasks front with _future := FutureState.exception Exn.CanceledException } rfl rfl
        (fun hf => by cases hf)
      refine Kept.pop k1 t front rest ?_ (Or.inl ?_)
      · by_cases htf : t = front
        · subst htf
          simp [System.setTask, hch]
        · simp [System.setTask, setAt_of_ne _ _ htf, hch]
      · simp [System.setTask]
    · subst hs1
      have k1 := kept_push h (Callable.threadMethod front)
      exact Kept.pop k1 t front rest hch (Or.inr (located_pushed_pos _ _ _))

theorem kept_withMethod {st s : System} (h : st.kept) {method : TaskMethod}
    {tok : CancellationToken}
    (hs : (ContinuationTask.withMethod st method tok).map Prod.fst = some s) : s.kept := by
  unfold ContinuationTask.withMethod at hs
  simp only [Option.map_map, Option.map_eq_some', Function.comp_apply] at hs
  obtain ⟨s1, h1, h2⟩ := hs
  subst h2
  exact kept_alloc_scheduleNow h _ rfl (by simp [Impl.withMethod]) h1

/-- Every step keeps `Kept`. -/
theorem step_kept {st s : System} {a : Action} (h : st.kept) (hs : step st a = some s) :
    s.kept := by
  cases a with
  | newSource => cases hs; exact h
  | cancel cs =>
      simp only [step] at hs
      split at hs
      · cases hs; exact h
      · cases hs
  | newFulfilled tok =>
      simp only [step] at hs
      split at hs
      · cases hs
        show Kept (setAt st.tasks st.nextTask (Impl.fulfilled tok)) (st.nextTask + 1) _ _
        apply (Kept.alloc0 h (Impl.fulfilled tok) rfl).bump
        · intro _ hc
          simp [Impl.fulfilled] at hc
        · intro _ hf
          simp [Impl.fulfilled] at hf
        · intro hm
          simp [Impl.fulfilled] at hm
      · cases hs
  | newTask method tok =>
      simp only [step] at hs
      split at hs
      · exact kept_withMethod h hs
      · cases hs
  | newCancelableTask method tok =>
      simp only [step, ContinuationTask.withCancelableMethod] at hs
      split at hs
      · exact kept_withMethod h hs
      · cases hs
  | continue_with parent method =>
      simp only [step] at hs
      split at hs
      · rename_i hex
        exact kept_continue_with h hex hs
      · cases hs
  | schedule label f =>
      cases hs
      exact kept_push h _
  | get task =>
      obtain ⟨-, -, -, rfl⟩ := get_step_eq hs
      exact kept_setTask_simple h task { st.tasks task with _futureValid := false } rfl rfl
        (fun hf => hf)
  | start =>
      cases hs
      show Kept st.tasks st.nextTask st.pool.start._taskQueue st.pool.start._threads
      unfold SimpleThreadPool.start
      split
      · rename_i hem
        have hth : st.pool._threads = [] := List.isEmpty_iff.1 hem
        apply Kept.pool h
        · intro t _ _ hex
          obtain ⟨x, hx, -⟩ := hex
          rw [hth] at hx
          cases hx
        · intro t _ _ hex
          obtain ⟨x, hx, -⟩ := hex
          rw [hth] at hx
          cases hx
        · intro c _ hpos
          have h1 : held (List.replicate st.pool._threadCount ThreadState.waiting) = [] := by
            apply held_of_idle
            intro x hx m hxm
            rw [List.eq_of_mem_replicate hx] at hxm
            cases hxm
          simp only [located, hth, held, h1] at hpos ⊢
          exact hpos
      · exact h
  | stopSignal => cases hs; exact h
  | stopJoin =>
      simp only [step, SimpleThreadPool.stopJoin, Option.map_eq_some'] at hs
      obtain ⟨p, h1, h2⟩ := hs
      subst h2
      split at h1
      · rename_i hall
        cases h1
        have hex0 : ∀ x ∈ st.pool._threads, x = ThreadState.exited := by
          intro x hx
          have := List.all_eq_true.1 hall x hx
          cases x <;> first | rfl | cases this
        apply Kept.pool h
        · intro t _ _ hex
          obtain ⟨x, hx, hi⟩ := hex
          rw [hex0 x hx] at hi
          cases hi
        · intro t _ _ hex
          obtain ⟨x, hx, hi⟩ := hex
          rw [hex0 x hx] at hi
          cases hi
        · intro c _ hpos
          have h0 : held st.pool._threads = [] := by
            apply held_of_idle
            intro x hx m hxm
            rw [hex0 x hx] at hxm
            cases hxm
          simp only [located, h0, held] at hpos ⊢
          exact hpos
      · cases h1
  | popExceptions => cases hs; exact h
  | wake w =>
      simp only [step, SimpleThreadPool.threadPoolMethod_wait, Option.map_eq_some'] at hs
      obtain ⟨p, h1, h2⟩ := hs
      subst h2
      split at h1
      · rename_i hw
        split at h1
        · cases h1
          refine kept_setThread h hw ThreadState.exited ?_ ?_ ?_
          · intro u hu; cases hu
          · intro u hu; cases hu
          · intro c hc; cases hc
        · split at h1
          · cases h1
          · rename_i task rest hq
            cases h1
            show Kept st.tasks st.nextTask rest
              (st.pool._threads.set w (ThreadState.invoking task))
            have h0 : Kept st.tasks st.nextTask (task :: rest) st.pool._threads := by
              rw [← hq]; exact h
            apply Kept.pool h0
            · intro t _ _ hex
              exact exists_mem_set ThreadState.inside hw hex (fun hb => by cases hb)
            · intro t _ _ hex
              exact exists_mem_set ThreadState.runs hw hex (fun hb => by cases hb)
            · intro c _ hpos
              rw [located_wake task rest st.pool._threads [] w _ hw]
              exact hpos
      · cases h1
  | invoke w =>
      simp only [step] at hs
      split at hs
      · rename_i task hw
        unfold threadPoolMethod_invoke at hs
        split at hs
        · cases hs
        · split at hs
          · rename_i label f hfn
            have hlab : labelOf task = WorkUnit.pooled label := by simp [labelOf, hfn]
            have key : Kept st.tasks st.nextTask st.pool._taskQueue
                (st.pool._threads.set w ThreadState.waiting) := by
              refine kept_setThread h hw ThreadState.waiting ?_ ?_ ?_
              · intro u hu; cases hu
              · intro u hu; cases hu
              · intro c hc
                simp [ThreadState.holds, hlab] at hc
            split at hs
            · cases hs
              exact key
            · cases hs
              exact key
          · rename_i t hfn
            exact kept_begin h hw hfn hs
      · cases hs
  | finish w =>
      simp only [step] at hs
      split at hs
      · rename_i t method hw
        unfold threadMethod_finish at hs
        simp only [Option.map_eq_some'] at hs
        obtain ⟨s1, h1, h2⟩ := hs
        subst h2
        obtain ⟨-, hs1⟩ := complete_eq_some h1
        subst hs1
        refine kept_setThread (b := ThreadState.running t method) ?_ ?_
          (ThreadState.completed t) ?_ ?_ ?_
        · exact kept_setTask_simple h t _ rfl rfl
            (fun hf => absurd hf (ofOutcome_ne_pending _))
        · exact hw
        · intro u hu _ _
          cases hu
          rfl
        · intro u hu _ hf
          cases hu
          simp only [System.setTask, setAt_same] at hf
          exact absurd hf (ofOutcome_ne_pending _)
        · intro c hc
          cases hc
      · cases hs
  | lock w =>
      simp only [step] at hs
      split at hs
      · rename_i t hw
        unfold threadMethod_lock at hs
        split at hs
        · cases hs
        · cases hs
          refine kept_setThread (b := ThreadState.completed t) ?_ ?_
            (ThreadState.draining t) ?_ ?_ ?_
          · exact kept_setTask_simple h t _ rfl rfl (fun hf => hf)
          · exact hw
          · intro u hu _ _
            cases hu
            rfl
          · intro u hu
            cases hu
          · intro c hc
            cases hc
      · cases hs
  | drain w =>
      simp only [step] at hs
      split at hs
      · rename_i t hw
        exact kept_drain h hw hs
      · cases hs

theorem init_kept (n : Nat) : (System.init n).kept := by
  refine ⟨?_, ?_, ?_, ?_⟩
  · intro t ht
    cases ht
  · intro t ht
    cases ht
  · intro t ht
    cases ht
  · intro t _
    rfl

theorem exec_kept (acts : List Action) :
    ∀ st s : System, st.kept → exec st acts = some s → s.kept := by
  induction acts with
  | nil =>
      intro st s h hs
      cases hs
      exact h
  | cons a rest ih =>
      intro st s h hs
      simp only [exec, Option.bind_eq_some] at hs
      obtain ⟨s1, h1, h2⟩ := hs
      exact ih s1 s (step_kept h h1) h2

/-! ## Directly scheduled work units are conserved -/

theorem pooled_scheduleNow {st s : System} {c : Nat} (l : Nat)
    (h : scheduleNow st c = some s) :
    located s.pool._taskQueue s.pool._threads s.started (WorkUnit.pooled l)
      = located st.pool._taskQueue st.pool._threads st.started (WorkUnit.pooled l) := by
  rcases scheduleNow_eq_some h with ⟨-, -, hs⟩ | ⟨-, hs⟩
  · subst hs
    rfl
  · subst hs
    show located (st.pool._taskQueue ++ [Bind.bind (Callable.threadMethod c)])
      st.pool._threads st.started _ = _
    rw [located_push]
    simp [labelOf, Bind.bind]

theorem pooled_setThread {st : System} {w : Nat} {b : ThreadState} (l : Nat)
    (hw : st.pool._threads[w]? = some b) (x : ThreadState)
    (hb : b.holds.count (WorkUnit.pooled l) = 0) (hx : x.holds = []) :
    located st.pool._taskQueue (st.pool._threads.set w x) st.started (WorkUnit.pooled l)
      = located st.pool._taskQueue st.pool._threads st.started (WorkUnit.pooled l) := by
  have := located_set st.pool._taskQueue st.pool._threads st.started w b x
    (WorkUnit.pooled l) hw
  rw [hx, hb] at this
  simp only [List.count_nil, Nat.add_zero] at this
  exact this

theorem pooled_threads_idle {q : List MethodType} {th th1 : List ThreadState}
    {started : List WorkUnit} (x : WorkUnit) (h0 : held th = []) (h1 : held th1 = []) :
    located q th1 started x = located q th started x := by
  simp only [located, h0, h1]

/-- A step changes the number of places at which the work unit `pooled l` is (queue, hands
of the workers, log of invocations) only when it is a call `schedule(f)` of that unit. -/
theorem step_pooled {st s : System} {a : Action} (l : Nat) (hs : step st a = some s) :
    pooledCount s l = pooledCount st l + scheduledBy l a := by
  show located s.pool._taskQueue s.pool._threads s.started (WorkUnit.pooled l)
    = located st.pool._taskQueue st.pool._threads st.started (WorkUnit.pooled l)
      + scheduledBy l a
  cases a with
  | newSource => cases hs; rfl
  | cancel cs =>
      simp only [step] at hs
      split at hs
      · cases hs; rfl
      · cases hs
  | newFulfilled tok =>
      simp only [step] at hs
      split at hs
      · cases hs; rfl
      · cases hs
  | newTask method tok =>
      simp only [step, ContinuationTask.withMethod, Option.map_map] at hs
      split at hs
      · simp only [Option.map_eq_some', Function.comp_apply] at hs
        obtain ⟨s1, h1, h2⟩ := hs
        subst h2
        have hh := pooled_scheduleNow l h1
        exact hh
      · cases hs
  | newCancelableTask method tok =>
      simp only [step, ContinuationTask.withCancelableMethod, ContinuationTask.withMethod,
        Option.map_map] at hs
      split at hs
      · simp only [Option.map_eq_some', Function.comp_apply] at hs
        obtain ⟨s1, h1, h2⟩ := hs
        subst h2
        have hh := pooled_scheduleNow l h1
        exact hh
      · cases hs
  | continue_with parent method =>
      simp only [step] at hs
      split at hs
      · unfold continue_with at hs
        split at hs
        · simp at hs
        · simp only [Option.map_map, Option.map_eq_some', Function.comp_apply] at hs
          obtain ⟨s1, h1, h2⟩ := hs
          subst h2
          rcases schedule_eq_some h1 with ⟨-, hs1⟩ | ⟨-, hs1⟩
          · subst hs1
            rfl
          · have hh := pooled_scheduleNow l hs1
            exact hh
      · cases hs
  | schedule label f =>
      cases hs
      show located (st.pool._taskQueue ++ [Bind.bind (Callable.function label f)])
        st.pool._threads st.started _ = _
      rw [located_push]
      simp [labelOf, Bind.bind, scheduledBy]
  | get task =>
      obtain ⟨-, -, -, rfl⟩ := get_step_eq hs
      rfl
  | start =>
      cases hs
      show located st.pool.start._taskQueue st.pool.start._threads st.started _ = _
      unfold SimpleThreadPool.start
      split
      · rename_i hem
        apply pooled_threads_idle
        · rw [List.isEmpty_iff.1 hem]
          rfl
        · apply held_of_idle
          intro x hx m hxm
          rw [List.eq_of_mem_replicate hx] at hxm
          cases hxm
      · rfl
  | stopSignal => cases hs; rfl
  | stopJoin =>
      simp only [step, SimpleThreadPool.stopJoin, Option.map_eq_some'] at hs
      obtain ⟨p, h1, h2⟩ := hs
      subst h2
      split at h1
      · rename_i hall
        cases h1
        apply pooled_threads_idle
        · apply held_of_idle
          intro x hx m hxm
          have := List.all_eq_true.1 hall x hx
          rw [hxm] at this
          cases this
        · rfl
      · cases h1
  | popExceptions => cases hs; rfl
  | wake w =>
      simp only [step, SimpleThreadPool.threadPoolMethod_wait, Option.map_eq_some'] at hs
      obtain ⟨p, h1, h2⟩ := hs
      subst h2
      split at h1
      · rename_i hw
        split at h1
        · cases h1
          exact pooled_setThread l hw ThreadState.exited rfl rfl
        · split at h1
          · cases h1
          · rename_i task rest hq
            cases h1
            show located rest (st.pool._threads.set w (ThreadState.invoking task)) st.started _
              = _
            rw [located_wake task rest st.pool._threads st.started w _ hw, hq]
            rfl
      · cases h1
  | invoke w =>
      simp only [step] at hs
      split at hs
      · rename_i task hw
        unfold threadPoolMethod_invoke at hs
        split at hs
        · cases hs
        · split at hs
          · rename_i label f hfn
            have hlab : labelOf task = WorkUnit.pooled label := by simp [labelOf, hfn]
            have key : located st.pool._taskQueue (st.pool._threads.set w ThreadState.waiting)
                (st.started ++ [WorkUnit.pooled label]) (WorkUnit.pooled l)
                = located st.pool._taskQueue st.pool._threads st.started (WorkUnit.pooled l) := by
              have e1 := located_set st.pool._taskQueue st.pool._threads st.started w
                (ThreadState.invoking task) ThreadState.waiting (WorkUnit.pooled l) hw
              rw [located_log]
              simp only [ThreadState.holds, hlab, List.count_cons, List.count_nil, beq_iff_eq,
                Nat.add_zero, Nat.zero_add] at e1
              omega
            split at hs
            · cases hs
              exact key
            · cases hs
              exact key
          · rename_i t hfn
            have hlab : labelOf task = WorkUnit.continuation t := by simp [labelOf, hfn]
            have hb : (ThreadState.invoking task).holds.count (WorkUnit.pooled l) = 0 := by
              simp [ThreadState.holds, hlab]
            unfold threadMethod_begin at hs
            split at hs
            · simp only [Option.map_eq_some'] at hs
              obtain ⟨s1, h1, h2⟩ := hs
              subst h2
              obtain ⟨-, hs1⟩ := set_exception_eq_some h1
              subst hs1
              exact pooled_setThread l hw (ThreadState.completed t) hb rfl
            · cases hs
              show located st.pool._taskQueue
                (st.pool._threads.set w (ThreadState.running t (st.tasks t)._method))
                (st.started ++ [WorkUnit.continuation t]) (WorkUnit.pooled l) = _
              rw [located_log]
              have := pooled_setThread l hw (ThreadState.running t (st.tasks t)._method) hb rfl
              simp only [reduceCtorEq, if_false, Nat.add_zero]
              exact this
      · cases hs
  | finish w =>
      simp only [step] at hs
      split at hs
      · rename_i t method hw
        unfold threadMethod_finish at hs
        simp only [Option.map_eq_some'] at hs
        obtain ⟨s1, h1, h2⟩ := hs
        subst h2
        obtain ⟨-, hs1⟩ := complete_eq_some h1
        subst hs1
        exact pooled_setThread l hw (ThreadState.completed t) rfl rfl
      · cases hs
  | lock w =>
      simp only [step] at hs
      split at hs
      · rename_i t hw
        unfold threadMethod_lock at hs
        split at hs
        · cases hs
        · cases hs
          exact pooled_setThread l hw (ThreadState.draining t) rfl rfl
      · cases hs
  | drain w =>
      simp only [step] at hs
      split at hs
      · rename_i t hw
        unfold threadMethod_drain at hs
        split at hs
        · cases hs
          exact pooled_setThread l hw ThreadState.waiting rfl rfl
        · simp only [Option.map_eq_some'] at hs
          obtain ⟨s1, h1, h2⟩ := hs
          subst h2
          have hh := pooled_scheduleNow l h1
          exact hh
      · cases hs

theorem exec_pooled (l : Nat) (acts : List Action) :
    ∀ st s : System, exec st acts = some s →
      pooledCount s l = pooledCount st l + (acts.map (scheduledBy l)).sum := by
  induction acts with
  | nil =>
      intro st s hs
      cases hs
      simp
  | cons a rest ih =>
      intro st s hs
      simp only [exec, Option.bind_eq_some] at hs
      obtain ⟨s1, h1, h2⟩ := hs
      rw [ih s1 s h2, step_pooled l h1]
      simp only [List.map_cons, List.sum_cons]
      omega

/-! ## At most one invocation -/

/-- C16: in every state reached from a fresh pool by any interleaving of caller and worker
steps, the work unit of a continuation task has been invoked at most once; the task is at
one place at most (queue, hand of a worker, log of invocations), and at none of them while
it waits in `_childs` of its parent, so it is submitted by one of constructor,
`continue_with` and drain only.  A work unit scheduled with `schedule(f)` is at exactly
one of queue, hand of a worker and log of invocations, so it leaves the queue before it is
invoked and is invoked at most as often as it was scheduled.  An `fbind` that was executed
is not invoked again. -/
theorem invoked_at_most_once (n : Nat) (acts : List Action) (st : System)
    (h : exec (System.init n) acts = some st) :
    (∀ c, st.started.count (WorkUnit.continuation c) ≤ 1)
    ∧ (∀ c, located st.pool._taskQueue st.pool._threads st.started
        (WorkUnit.continuation c) ≤ 1)
    ∧ (∀ t c, c ∈ (st.tasks t)._childs →
        located st.pool._taskQueue st.pool._threads st.started (WorkUnit.continuation c) = 0)
    ∧ (∀ l, pooledCount st l = (acts.map (scheduledBy l)).sum)
    ∧ (∀ l, st.started.count (WorkUnit.pooled l) ≤ (acts.map (scheduledBy l)).sum)
    ∧ (∀ (w : Nat) (m : MethodType), m._executed = true →
        threadPoolMethod_invoke st w m = none) := by
  have ho : st.once := exec_once acts (System.init n) st (init_once n) h
  have hp : ∀ l, pooledCount st l = (acts.map (scheduledBy l)).sum := by
    intro l
    have := exec_pooled l acts (System.init n) st h
    have h0 : pooledCount (System.init n) l = 0 := rfl
    omega
  refine ⟨?_, ho.once, fun t c hc => (ho.childWaits t c hc).1, hp, ?_, ?_⟩
  · intro c
    have := ho.once c
    simp only [located] at this
    omega
  · intro l
    have := hp l
    simp only [pooledCount] at this
    omega
  · intro w m hm
    simp [threadPoolMethod_invoke, hm]

/-- C16 on six work units executed by two workers: the third one was invoked at most as
often as it was scheduled, which is once. -/
theorem invoked_at_most_once_witness :
    (stateAfter 2 (scheduleAll sixUnits ++ Action.start :: twoWorkers)).started.count
        (WorkUnit.pooled 3)
      ≤ ((scheduleAll sixUnits ++ Action.start :: twoWorkers).map (scheduledBy 3)).sum
    ∧ ((scheduleAll sixUnits ++ Action.start :: twoWorkers).map (scheduledBy 3)).sum = 1 :=
  ⟨(invoked_at_most_once 2 (scheduleAll sixUnits ++ Action.start :: twoWorkers)
    (stateAfter 2 (scheduleAll sixUnits ++ Action.start :: twoWorkers)) rfl).2.2.2.2.1 3, rfl⟩

/-- C13 on a worker that holds a throwing work unit, with one more unit in the queue. -/
theorem raising_work_unit_keeps_worker_witness :
    ∃ s, exec workerHoldsThrowing [Action.invoke 0, Action.wake 0, Action.invoke 0] = some s
      ∧ s.started = workerHoldsThrowing.started ++ [WorkUnit.pooled 7, WorkUnit.pooled 8]
      ∧ s.pool._threads[0]? = some ThreadState.waiting :=
  (raising_work_unit_keeps_worker workerHoldsThrowing 0 7 (throwing 5) (Exn.error 5)
    (Bind.bind (Callable.function 8 noop)) [] rfl rfl rfl rfl).2.2.1 8 noop rfl

/-- C15 on six work units and two workers. -/
theorem accumulated_work_runs_fifo_witness :
    dequeuedAlong (System.init 2) (scheduleAll sixUnits ++ Action.start :: twoWorkers)
        ++ (stateAfter 2 (scheduleAll sixUnits ++ Action.start :: twoWorkers)).queued
      = [WorkUnit.pooled 1, WorkUnit.pooled 2, WorkUnit.pooled 3, WorkUnit.pooled 4,
          WorkUnit.pooled 5, WorkUnit.pooled 6]
    ∧ twoWorkers.length ≤ 2 * sixUnits.length :=
  have h := accumulated_work_runs_fifo 2 sixUnits twoWorkers
    (stateAfter 2 (scheduleAll sixUnits ++ Action.start :: twoWorkers)) (by decide)
    (by
      intro a ha
      simp only [twoWorkers, List.mem_cons, List.mem_singleton] at ha
      rcases ha with h | h | h | h | h | h | h | h | h | h | h | h | h <;>
        first | (subst h; rfl) | cases h)
    rfl
  ⟨h.1, h.2.1⟩

/-! ## The drain loop -/

/-- The drain loop of `threadMethod`, run to its end on children with live tokens: the
entries of `_childs` go to the back of the queue of the pool, front first. -/
theorem drain_all (w t : Nat) : ∀ (cs : List Nat) (st : System),
    st.pool._threads[w]? = some (ThreadState.draining t) →
    (st.tasks t)._childs = cs →
    (∀ c ∈ cs, (st.tasks c)._cancellation.is_canceled st.flags = false) →
    ∃ s, exec st (List.replicate (cs.length + 1) (Action.drain w)) = some s
      ∧ s.pool._taskQueue
          = st.pool._taskQueue ++ cs.map (fun c => Bind.bind (Callable.threadMethod c))
      ∧ (s.tasks t)._childs = []
      ∧ s.pool._threads[w]? = some ThreadState.waiting
      ∧ (s.tasks t)._scheduleLock = false := by
  intro cs
  induction cs with
  | nil =>
      intro st hw hc _
      have hlt := lt_length_of_getElem? hw
      have h1 : step st (Action.drain w)
          = some ((st.setTask t { st.tasks t with _scheduleLock := false }).setThread w
              ThreadState.waiting) := by
        simp [step, hw, threadMethod_drain, hc]
      refine ⟨(st.setTask t { st.tasks t with _scheduleLock := false }).setThread w
        ThreadState.waiting, ?_, ?_, ?_, ?_, ?_⟩
      · simp [List.replicate, exec, h1]
      · simp [System.setThread, System.setTask]
      · simp [System.setThread, System.setTask, hc]
      · simp [System.setThread, System.setTask, hlt]
      · simp [System.setThread, System.setTask]
  | cons front rest ih =>
      intro st hw hc hlive
      have hf : (st.tasks front)._cancellation.is_canceled st.flags = false :=
        hlive front (List.mem_cons_self _ _)
      have h1 : step st (Action.drain w)
          = some ((IThreadPool.schedule st (Callable.threadMethod front)).setTask t
              { st.tasks t with _childs := rest }) := by
        simp [step, hw, threadMethod_drain, hc, scheduleNow_live st front hf,
          IThreadPool.schedule]
      have hw1 : ((IThreadPool.schedule st (Callable.threadMethod front)).setTask t
          { st.tasks t with _childs := rest }).pool._threads[w]?
            = some (ThreadState.draining t) := hw
      have hc1 : (((IThreadPool.schedule st (Callable.threadMethod front)).setTask t
          { st.tasks t with _childs := rest }).tasks t)._childs = rest := by
        simp [System.setTask]
      have hlive1 : ∀ c ∈ rest,
          (((IThreadPool.schedule st (Callable.threadMethod front)).setTask t
            { st.tasks t with _childs := rest }).tasks c)._cancellation.is_canceled
            ((IThreadPool.schedule st (Callable.threadMethod front)).setTask t
              { st.tasks t with _childs := rest }).flags = false := by
        intro c hcm
        have h0 := hlive c (List.mem_cons_of_mem _ hcm)
        by_cases hct : c = t
        · subst hct
          simpa [System.setTask, IThreadPool.schedule] using h0
        · simpa [System.setTask, IThreadPool.schedule, setAt_of_ne _ _ hct] using h0
      obtain ⟨s, he, hq, hch, hth, hl⟩ := ih _ hw1 hc1 hlive1
      refine ⟨s, ?_, ?_, hch, hth, hl⟩
      · show exec st (List.replicate (rest.length + 1 + 1) (Action.drain w)) = some s
        rw [List.replicate_succ]
        simp only [exec, h1, Option.some_bind]
        exact he
      · rw [hq]
        simp [System.setTask, IThreadPool.schedule, SimpleThreadPool.scheduleInner]

/-! ## No child is lost -/

theorem located_split (q : List MethodType) (th : List ThreadState) (started : List WorkUnit)
    (x : WorkUnit) : located q th started x = started.count x + located q th [] x := by
  simp only [located, List.count_nil]
  omega

/-- C17, as worded, on a child attached after the promise of its parent was set and before
the worker took `_scheduleLock`: `t1` was attached first and `t2` second, both are
scheduled once and `_childs` is empty after the drain, but `t2` is in the queue of the pool
ahead of `t1`. -/
theorem lateChild_scheduled_first :
    (exec (System.init 1) lateChild).map
        (fun s => (s.queued, (s.tasks 0)._childs, s.pool._threads, s.started))
      = some ([WorkUnit.continuation 2, WorkUnit.continuation 1], [],
          [ThreadState.waiting], [WorkUnit.continuation 0])
    ∧ (exec (System.init 1) lateChildAttached).map
        (fun s => (s.queued, (s.tasks 0)._childs, s.pool._threads))
      = some ([WorkUnit.continuation 2], [1], [ThreadState.draining 0]) :=
  ⟨rfl, rfl⟩

/-- C17, amended: in every state reached from a fresh pool by any interleaving of caller
and worker steps, a dispatched task with no worker inside its `threadMethod` (the drain has
finished) has an empty `_childs` and a set promise; every child of such a task that is not
yet dispatched and whose promise is unset is exactly once in the queue of the pool or in
the hand of a worker, and not in the log of invocations; no task is at more than one of
these places.  A worker in the drain loop of a task whose children have live tokens
finishes the loop in `_childs.length + 1` steps, in which the entries of `_childs` go to
the back of the queue of the pool in the order of `_childs`, `_childs` gets empty, the lock
is released and the worker is back at its wait. -/
theorem no_child_lost (n : Nat) (acts : List Action) (st : System)
    (h : exec (System.init n) acts = some st) :
    (∀ t, t < st.nextTask → (st.tasks t)._method = none →
        (∀ s ∈ st.pool._threads, s.inside ≠ some t) →
        (st.tasks t)._childs = [] ∧ (st.tasks t)._future ≠ FutureState.pending)
    ∧ (∀ p c, p < st.nextTask → c < st.nextTask → (st.tasks c)._parent = some p →
        (st.tasks p)._method = none → (∀ s ∈ st.pool._threads, s.inside ≠ some p) →
        (st.tasks c)._method ≠ none → (st.tasks c)._future = FutureState.pending →
        located st.pool._taskQueue st.pool._threads [] (WorkUnit.continuation c) = 1
          ∧ st.started.count (WorkUnit.continuation c) = 0)
    ∧ (∀ c, located st.pool._taskQueue st.pool._threads st.started
        (WorkUnit.continuation c) ≤ 1)
    ∧ (∀ w t, st.pool._threads[w]? = some (ThreadState.draining t) →
        (∀ c ∈ (st.tasks t)._childs,
          (st.tasks c)._cancellation.is_canceled st.flags = false) →
        ∃ s, exec st (List.replicate ((st.tasks t)._childs.length + 1) (Action.drain w))
            = some s
          ∧ s.pool._taskQueue = st.pool._taskQueue
              ++ (st.tasks t)._childs.map (fun c => Bind.bind (Callable.threadMethod c))
          ∧ (s.tasks t)._childs = []
          ∧ s.pool._threads[w]? = some ThreadState.waiting
          ∧ (s.tasks t)._scheduleLock = false) := by
  have hk : st.kept := exec_kept acts (System.init n) st (init_kept n) h
  have ho : st.once := exec_once acts (System.init n) st (init_once n) h
  have key : ∀ t, t < st.nextTask → (st.tasks t)._method = none →
      (∀ s ∈ st.pool._threads, s.inside ≠ some t) →
      (st.tasks t)._childs = [] ∧ (st.tasks t)._future ≠ FutureState.pending := by
    intro t ht hm hno
    constructor
    · by_contra hc
      obtain ⟨s, hs, hi⟩ := hk.drained t ht hm hc
      exact hno s hs hi
    · intro hf
      obtain ⟨s, hs, hr⟩ := hk.running t ht hm hf
      exact hno s hs (inside_of_runs hr)
  refine ⟨key, ?_, ho.once, ?_⟩
  · intro p c hp hc hpar hm hno hmc hfc
    have h1 := ho.once c
    rw [located_split] at h1
    have hpos : 0 < located st.pool._taskQueue st.pool._threads []
        (WorkUnit.continuation c) := by
      rcases hk.notLost c hc hmc hfc with ⟨t, hin⟩ | hpos
      · have hpt := (ho.childWaits t c hin).2
        rw [hpar] at hpt
        cases hpt
        rw [(key p hp hm hno).1] at hin
        cases hin
      · exact hpos
    omega
  · intro w t hw hlive
    exact drain_all w t (st.tasks t)._childs st hw rfl hlive

/-- C17, amended, on the run with the late child: after the drain `t0` has no child left
and both children are in the queue of the pool once. -/
theorem no_child_lost_witness :
    ((stateAfter 1 lateChild).tasks 0)._childs = []
    ∧ located (stateAfter 1 lateChild).pool._taskQueue (stateAfter 1 lateChild).pool._threads
        [] (WorkUnit.continuation 1) = 1
    ∧ located (stateAfter 1 lateChild).pool._taskQueue (stateAfter 1 lateChild).pool._threads
        [] (WorkUnit.continuation 2) = 1 := by
  have hth : (stateAfter 1 lateChild).pool._threads = [ThreadState.waiting] := rfl
  have hno : ∀ s ∈ (stateAfter 1 lateChild).pool._threads, s.inside ≠ some 0 := by
    intro s hs
    rw [hth] at hs
    rw [List.mem_singleton.1 hs]
    intro hi
    cases hi
  obtain ⟨h1, h2, -, -⟩ := no_child_lost 1 lateChild (stateAfter 1 lateChild) rfl
  exact ⟨(h1 0 (by decide) rfl hno).1,
    (h2 0 1 (by decide) (by decide) rfl rfl hno (by intro hm; cases hm) rfl).1,
    (h2 0 2 (by decide) (by decide) rfl rfl hno (by intro hm; cases hm) rfl).1⟩

end Continuation
